import Mathlib

/-!
# Strided tensor apply engine (`THTensorApply.h`)

A shallow embedding of the text-substitution templates of
`torch/lib/TH/THTensorApply.h`:

* `__TH_TENSOR_APPLYX_PREAMBLE` (planning),
* `__TH_TENSOR_APPLYX_UPDATE_COUNTERS` (the carry routine),
* `TH_TENSOR_APPLY_D`, `TH_TENSOR_APPLY2_D`, `TH_TENSOR_APPLY3_D` (the drivers),
* `__TH_TENSOR_APPLYX_CAL_OFFSET`, `__TH_TENSOR_APPLYX_UPDATE_COUNTERS_OMP`,
  `TH_TENSOR_APPLY2_OMP`, `TH_TENSOR_APPLY3_OMP`, `TH_TENSOR_APPLY_REDUCTION_OMP`
  (the OpenMP variants, one thread of the team at a time).

Modelling conventions.

* `int64_t` / `ptrdiff_t` values are mathematical integers (`Int`).  The
  templates are first given with exact arithmetic, which describes the
  executions in which no intermediate value leaves the range of `int64_t`.
  The section "Planning and drivers in 64-bit arithmetic" repeats the planning
  with its products wrapping modulo `2^64`, as the compiled templates compute
  them; the statements about element counts are made for that planning.
* A pointer into a storage is the integer index of the element it points to;
  `TENSOR->storage->data` is the field `storage` of the view.
* The scratch arrays `counter`, `sizes`, `strides` are lists of length `dim`
  (one `THAlloc` block in the source, split in three).  `THAlloc` memory is
  modelled as zero-filled.
* The caller-supplied statement block `CODE` is a function of the per-tensor
  locals (the `Cursor`) acting on an arbitrary caller state.
* `while` loops take a fuel argument and return `none` when it runs out.
* `THError` does not return to the template: the driver stops there.
-/

namespace TH

/-! ## Data model -/

/-- The fields of `THTensor` read by the apply templates.  `nDimension` is the
common length of `size` and `stride`. -/
structure THTensor where
  size : List Int
  stride : List Int
  storage : Int
  storageOffset : Int
deriving DecidableEq

/-- Number of dimensions, `TENSOR->nDimension`. -/
def THTensor.nDimension (T : THTensor) : Nat := T.size.length

/-- Well-formed descriptor: one stride per dimension. -/
def THTensor.WF (T : THTensor) : Prop := T.stride.length = T.size.length

instance (T : THTensor) : Decidable T.WF :=
  inferInstanceAs (Decidable (T.stride.length = T.size.length))

/-- Target of the pointer `TENSOR##_dimOffset`. -/
inductive DimOffset where
  | null
  | ofI
  | ofCounter (k : Int)
deriving DecidableEq

/-- Pointer decrement `TENSOR##_dimOffset--`. -/
def DimOffset.dec : DimOffset → DimOffset
  | .ofCounter k => .ofCounter (k - 1)
  | d => d

/-- The per-tensor locals `TENSOR##_data`, `TENSOR##_counter`, ... declared by
the preamble.  `allocated` records `TENSOR##_counter != NULL`. -/
structure Cursor where
  data : Int
  counter : List Int
  sizes : List Int
  strides : List Int
  dimOffset : DimOffset
  stride : Int
  size : Int
  dim : Nat
  i : Int
  n : Int
  contiguous : Bool
  allocated : Bool
deriving DecidableEq

/-! ## Planning: `__TH_TENSOR_APPLYX_PREAMBLE` -/

/-- Lines 38-40: `n = (nDimension ? 1 : 0); for i: n *= size[i]`. -/
def elementCount (T : THTensor) : Int :=
  T.size.foldl (fun n s => n * s) (if T.nDimension = 0 then 0 else 1)

/-- Lines 49-58: the contiguity scan, run for `i = k-1` down to `0` on the
pair (`TENSOR##_size`, `TENSOR##_contiguous`); `break` ends the recursion. -/
def contigLoop (T : THTensor) (DIM : Int) : Nat → Int × Bool → Int × Bool
  | 0, st => st
  | i + 1, (sz, c) =>
    if T.size.getD i 0 ≠ 1 then
      if T.stride.getD i 0 = sz ∧ (i : Int) ≠ DIM then
        contigLoop T DIM i (sz * T.size.getD i 0, c)
      else (sz, false)
    else contigLoop T DIM i (sz, c)

/-- Line 64: the condition under which `TENSOR##_dim` is incremented. -/
def splitsAt (T : THTensor) (DIM : Int) (i : Nat) : Bool :=
  decide (T.stride.getD i 0 ≠ T.stride.getD (i + 1) 0 * T.size.getD (i + 1) 0)
    || decide ((i : Int) = DIM) || decide (((i : Int) + 1) = DIM)

/-- Line 82: the condition under which dimension `i` joins the current section. -/
def mergesAt (T : THTensor) (DIM : Int) (i : Nat) : Bool :=
  decide (T.stride.getD i 0 = T.stride.getD (i + 1) 0 * T.size.getD (i + 1) 0)
    && decide ((i : Int) ≠ DIM) && decide (((i : Int) + 1) ≠ DIM)

/-- Lines 61-66: count the contiguous sections, for `i = k-1` down to `0`. -/
def dimLoop (T : THTensor) (DIM : Int) : Nat → Nat → Nat
  | 0, dim => dim
  | i + 1, dim => dimLoop T DIM i (if splitsAt T DIM i then dim + 1 else dim)

/-- State of the fill loop: `TH_TENSOR_dim_index`, the arrays `sizes` and
`strides`, and the pointer `dimOffset`. -/
structure FillState where
  dimIndex : Nat
  sizes : List Int
  strides : List Int
  dimOffset : DimOffset
deriving DecidableEq

/-- Lines 81-91: fill `sizes` and `strides`, for `i = k-1` down to `0`. -/
def fillLoop (T : THTensor) (DIM : Int) : Nat → FillState → FillState
  | 0, st => st
  | i + 1, st =>
    if mergesAt T DIM i then
      fillLoop T DIM i
        { st with
          sizes := st.sizes.set st.dimIndex (T.size.getD i 0 * st.sizes.getD st.dimIndex 0)
          dimOffset :=
            if DIM ≠ (T.nDimension : Int) - 1 ∧ (i : Int) < DIM then st.dimOffset.dec
            else st.dimOffset }
    else
      fillLoop T DIM i
        { st with
          dimIndex := st.dimIndex - 1
          sizes := st.sizes.set (st.dimIndex - 1) (T.size.getD i 0)
          strides := st.strides.set (st.dimIndex - 1) (T.stride.getD i 0) }

/-- The preamble `__TH_TENSOR_APPLYX_PREAMBLE(TYPE, TENSOR, DIM, ALLOW_CONTIGUOUS)`.
It returns the locals it declares together with the new value of the shared
flag `TH_TENSOR_APPLY_hasFinished`. -/
def TH_TENSOR_APPLYX_PREAMBLE (T : THTensor) (DIM : Int) (ALLOW_CONTIGUOUS : Bool)
    (hasFinished : Bool) : Cursor × Bool :=
  let contiguous0 : Bool := ALLOW_CONTIGUOUS && decide (DIM < 0)
  let n := elementCount T
  if T.nDimension = 0 then
    ({ data := 0, counter := [], sizes := [], strides := [], dimOffset := .null,
       stride := 0, size := 0, dim := 0, i := 0, n := n,
       contiguous := contiguous0, allocated := false }, true)
  else
    let data := T.storage + T.storageOffset
    let contiguous := (contigLoop T DIM T.nDimension (1, contiguous0)).2
    if !contiguous then
      let dim := dimLoop T DIM (T.nDimension - 1) 1
      let st0 : FillState :=
        { dimIndex := dim - 1
          sizes := (List.replicate dim 0).set (dim - 1) (T.size.getD (T.nDimension - 1) 0)
          strides := (List.replicate dim 0).set (dim - 1) (T.stride.getD (T.nDimension - 1) 0)
          dimOffset :=
            if DIM = (T.nDimension : Int) - 1 then .ofI else .ofCounter DIM }
      let st := fillLoop T DIM (T.nDimension - 1) st0
      ({ data := data, counter := List.replicate dim 0, sizes := st.sizes,
         strides := st.strides, dimOffset := st.dimOffset,
         stride := st.strides.getD (dim - 1) 0, size := st.sizes.getD (dim - 1) 0,
         dim := dim, i := 0, n := n, contiguous := false, allocated := true },
       hasFinished)
    else
      ({ data := data, counter := [0], sizes := [n], strides := [1], dimOffset := .null,
         stride := 1, size := n, dim := 1, i := 0, n := n,
         contiguous := true, allocated := true }, hasFinished)

/-! ## The carry routine: `__TH_TENSOR_APPLYX_UPDATE_COUNTERS` -/

/-- Lines 121-143: the carry loop, for `i = k-1` down to `0`, on the locals and
the shared flag `TH_TENSOR_APPLY_hasFinished`. -/
def carryLoop : Nat → Cursor → Bool → Cursor × Bool
  | 0, c, fin => (c, fin)
  | i + 1, c, fin =>
    let c1 : Cursor :=
      { c with
        counter := c.counter.set i (c.counter.getD i 0 + 1)
        data := c.data + c.strides.getD i 0 }
    if c1.counter.getD i 0 = c1.sizes.getD i 0 then
      if i = 0 then (c1, true)
      else
        carryLoop i
          { c1 with
            data := c1.data - c1.counter.getD i 0 * c1.strides.getD i 0
            counter := c1.counter.set i 0 } fin
    else (c1, fin)

/-- Outcome of one expansion of the carry routine: the locals, the shared flag,
and whether a `break` left the enclosing `while`. -/
structure Update where
  cur : Cursor
  hasFinished : Bool
  brk : Bool
deriving DecidableEq

/-- The template `__TH_TENSOR_APPLYX_UPDATE_COUNTERS(TENSOR, ALWAYS_UPDATE)`. -/
def TH_TENSOR_APPLYX_UPDATE_COUNTERS (c : Cursor) (ALWAYS_UPDATE : Bool)
    (hasFinished : Bool) : Update :=
  if c.i = c.size ∨ ALWAYS_UPDATE = true then
    if c.contiguous then ⟨c, hasFinished, true⟩
    else if c.dim = 1 then ⟨c, hasFinished, true⟩
    else
      let r := carryLoop (c.dim - 1) { c with data := c.data - c.size * c.stride } hasFinished
      ⟨{ r.1 with i := 0 }, r.2, false⟩
  else ⟨c, hasFinished, false⟩

/-- The value a body reads through `*TENSOR##_dimOffset`: `TENSOR##_i`, or a
slot of `TENSOR##_counter`; no value when the pointer is null or points outside
the `dim` counter slots. -/
def Cursor.dimOffsetValue (c : Cursor) : Option Int :=
  match c.dimOffset with
  | .null => none
  | .ofI => some c.i
  | .ofCounter k => if 0 ≤ k ∧ k < (c.dim : Int) then some (c.counter.getD k.toNat 0) else none

/-! ## Drivers -/

/-- What a driver leaves behind: whether `THError` was raised, the caller state
after the executed `CODE` blocks, and the numbers of scratch blocks obtained
from `THAlloc` and handed to `THFree`. -/
structure ApplyResult (σ : Type) where
  raised : Bool
  state : σ
  allocated : Nat
  freed : Nat

/-- The increment part of the inner `for`: `TENSOR##_i++, TENSOR##_data += TENSOR##_stride`. -/
def Cursor.next (c : Cursor) : Cursor :=
  { c with i := c.i + 1, data := c.data + c.stride }

/-- Number of blocks a cursor holds (`TENSOR##_counter != NULL`). -/
def Cursor.blocks (c : Cursor) : Nat := if c.allocated then 1 else 0

/-- Inner `for` of `TH_TENSOR_APPLY_D` (line 236); the first argument bounds
the number of iterations and is instantiated with `size - i`. -/
def innerLoop1 {σ : Type} (CODE : Cursor → σ → σ) : Nat → Cursor → σ → Cursor × σ
  | 0, c, s => (c, s)
  | k + 1, c, s =>
    if c.i < c.size then innerLoop1 CODE k c.next (CODE c s) else (c, s)

/-- The `while(!TH_TENSOR_APPLY_hasFinished)` loop of `TH_TENSOR_APPLY_D`. -/
def whileLoop1 {σ : Type} (CODE : Cursor → σ → σ) : Nat → Cursor → Bool → σ → Option σ
  | 0, _, fin, s => if fin then some s else none
  | fuel + 1, c, fin, s =>
    if fin then some s
    else
      let r := innerLoop1 CODE (c.size - c.i).toNat c s
      let u := TH_TENSOR_APPLYX_UPDATE_COUNTERS r.1 true fin
      if u.brk then some r.2 else whileLoop1 CODE fuel u.cur u.hasFinished r.2

/-- The template `TH_TENSOR_APPLY_D(TYPE, TENSOR, DIM, CODE)`. -/
def TH_TENSOR_APPLY_D {σ : Type} (T : THTensor) (DIM : Int) (CODE : Cursor → σ → σ)
    (s : σ) (fuel : Nat) : Option (ApplyResult σ) :=
  let p := TH_TENSOR_APPLYX_PREAMBLE T DIM false false
  (whileLoop1 CODE fuel p.1 p.2 s).map fun s1 =>
    { raised := false, state := s1, allocated := p.1.blocks, freed := p.1.blocks }

/-- Inner `for` of `TH_TENSOR_APPLY2_D` (line 211). -/
def innerLoop2 {σ : Type} (CODE : Cursor → Cursor → σ → σ) :
    Nat → Cursor → Cursor → σ → Cursor × Cursor × σ
  | 0, c1, c2, s => (c1, c2, s)
  | k + 1, c1, c2, s =>
    if c1.i < c1.size ∧ c2.i < c2.size then
      innerLoop2 CODE k c1.next c2.next (CODE c1 c2 s)
    else (c1, c2, s)

/-- The `while` loop of `TH_TENSOR_APPLY2_D` (lines 208-217). -/
def whileLoop2 {σ : Type} (CODE : Cursor → Cursor → σ → σ) :
    Nat → Cursor → Cursor → Bool → σ → Option σ
  | 0, _, _, fin, s => if fin then some s else none
  | fuel + 1, c1, c2, fin, s =>
    if fin then some s
    else
      let r := innerLoop2 CODE (c1.size - c1.i).toNat c1 c2 s
      let u1 := TH_TENSOR_APPLYX_UPDATE_COUNTERS r.1 false fin
      if u1.brk then some r.2.2
      else
        let u2 := TH_TENSOR_APPLYX_UPDATE_COUNTERS r.2.1 false u1.hasFinished
        if u2.brk then some r.2.2
        else whileLoop2 CODE fuel u1.cur u2.cur u2.hasFinished r.2.2

/-- The template `TH_TENSOR_APPLY2_D(TYPE1, TENSOR1, TYPE2, TENSOR2, DIM, CODE)`. -/
def TH_TENSOR_APPLY2_D {σ : Type} (T1 T2 : THTensor) (DIM : Int)
    (CODE : Cursor → Cursor → σ → σ) (s : σ) (fuel : Nat) : Option (ApplyResult σ) :=
  let p1 := TH_TENSOR_APPLYX_PREAMBLE T1 DIM true false
  let p2 := TH_TENSOR_APPLYX_PREAMBLE T2 DIM true p1.2
  if p1.1.n ≠ p2.1.n then
    some { raised := true, state := s, allocated := p1.1.blocks + p2.1.blocks, freed := 0 }
  else
    (whileLoop2 CODE fuel p1.1 p2.1 p2.2 s).map fun s1 =>
      { raised := false, state := s1, allocated := p1.1.blocks + p2.1.blocks,
        freed := p1.1.blocks + p2.1.blocks }

/-- Inner `for` of `TH_TENSOR_APPLY3_D` (line 175). -/
def innerLoop3 {σ : Type} (CODE : Cursor → Cursor → Cursor → σ → σ) :
    Nat → Cursor → Cursor → Cursor → σ → Cursor × Cursor × Cursor × σ
  | 0, c1, c2, c3, s => (c1, c2, c3, s)
  | k + 1, c1, c2, c3, s =>
    if c1.i < c1.size ∧ c2.i < c2.size ∧ c3.i < c3.size then
      innerLoop3 CODE k c1.next c2.next c3.next (CODE c1 c2 c3 s)
    else (c1, c2, c3, s)

/-- The `while` loop of `TH_TENSOR_APPLY3_D` (lines 172-182). -/
def whileLoop3 {σ : Type} (CODE : Cursor → Cursor → Cursor → σ → σ) :
    Nat → Cursor → Cursor → Cursor → Bool → σ → Option σ
  | 0, _, _, _, fin, s => if fin then some s else none
  | fuel + 1, c1, c2, c3, fin, s =>
    if fin then some s
    else
      let r := innerLoop3 CODE (c1.size - c1.i).toNat c1 c2 c3 s
      let u1 := TH_TENSOR_APPLYX_UPDATE_COUNTERS r.1 false fin
      if u1.brk then some r.2.2.2
      else
        let u2 := TH_TENSOR_APPLYX_UPDATE_COUNTERS r.2.1 false u1.hasFinished
        if u2.brk then some r.2.2.2
        else
          let u3 := TH_TENSOR_APPLYX_UPDATE_COUNTERS r.2.2.1 false u2.hasFinished
          if u3.brk then some r.2.2.2
          else whileLoop3 CODE fuel u1.cur u2.cur u3.cur u3.hasFinished r.2.2.2

/-- The template `TH_TENSOR_APPLY3_D`; `elements_equal` is cleared when
`n1 != n2`, else when `n1 != n3` (lines 155-161). -/
def TH_TENSOR_APPLY3_D {σ : Type} (T1 T2 T3 : THTensor) (DIM : Int)
    (CODE : Cursor → Cursor → Cursor → σ → σ) (s : σ) (fuel : Nat) :
    Option (ApplyResult σ) :=
  let p1 := TH_TENSOR_APPLYX_PREAMBLE T1 DIM true false
  let p2 := TH_TENSOR_APPLYX_PREAMBLE T2 DIM true p1.2
  let p3 := TH_TENSOR_APPLYX_PREAMBLE T3 DIM true p2.2
  let elements_equal : Bool :=
    if p1.1.n ≠ p2.1.n then false else if p1.1.n ≠ p3.1.n then false else true
  let blocks := p1.1.blocks + p2.1.blocks + p3.1.blocks
  if elements_equal = false then
    some { raised := true, state := s, allocated := blocks, freed := 0 }
  else
    (whileLoop3 CODE fuel p1.1 p2.1 p3.1 p3.2 s).map fun s1 =>
      { raised := false, state := s1, allocated := blocks, freed := blocks }

/-! ## Planning and drivers in 64-bit arithmetic

The definitions above compute the products of planning exactly.  The compiled
templates compute them in `int64_t`, where a product that leaves the range
wraps modulo `2^64`.  The definitions of this section repeat the planning with
every `int64_t` product of the preamble reduced that way (lines 40, 53, 64, 82
and 83), and the drivers on top of that planning.  The loops of the drivers
are the ones above: they step counters that stay below the planned sizes and
offsets that stay inside the storage of the view.  For a view with extents at
least 1 whose product is below `2^63` and whose products `stride[i] * size[i]`
are in range, the two plannings and the drivers over them coincide
(`preamble64_eq`, `apply1_64_eq`, `apply2_64_eq`, `apply3_64_eq`). -/

/-- The `int64_t` value of an integer: its residue modulo `2^64` in the range
`-2^63 .. 2^63 - 1`. -/
def wrap64 (x : Int) : Int :=
  (x + 9223372036854775808) % 18446744073709551616 - 9223372036854775808

/-- Lines 38-40 in `int64_t`: `n = (nDimension ? 1 : 0); for i: n *= size[i]`. -/
def elementCount64 (T : THTensor) : Int :=
  T.size.foldl (fun n s => wrap64 (n * s)) (if T.nDimension = 0 then 0 else 1)

/-- Lines 49-58 in `int64_t`: the contiguity scan. -/
def contigLoop64 (T : THTensor) (DIM : Int) : Nat → Int × Bool → Int × Bool
  | 0, st => st
  | i + 1, (sz, c) =>
    if T.size.getD i 0 ≠ 1 then
      if T.stride.getD i 0 = sz ∧ (i : Int) ≠ DIM then
        contigLoop64 T DIM i (wrap64 (sz * T.size.getD i 0), c)
      else (sz, false)
    else contigLoop64 T DIM i (sz, c)

/-- Line 64 in `int64_t`: the condition under which `TENSOR##_dim` is incremented. -/
def splitsAt64 (T : THTensor) (DIM : Int) (i : Nat) : Bool :=
  decide (T.stride.getD i 0 ≠ wrap64 (T.stride.getD (i + 1) 0 * T.size.getD (i + 1) 0))
    || decide ((i : Int) = DIM) || decide (((i : Int) + 1) = DIM)

/-- Line 82 in `int64_t`: the condition under which dimension `i` joins the
current section. -/
def mergesAt64 (T : THTensor) (DIM : Int) (i : Nat) : Bool :=
  decide (T.stride.getD i 0 = wrap64 (T.stride.getD (i + 1) 0 * T.size.getD (i + 1) 0))
    && decide ((i : Int) ≠ DIM) && decide (((i : Int) + 1) ≠ DIM)

/-- Lines 61-66 in `int64_t`: count the contiguous sections. -/
def dimLoop64 (T : THTensor) (DIM : Int) : Nat → Nat → Nat
  | 0, dim => dim
  | i + 1, dim => dimLoop64 T DIM i (if splitsAt64 T DIM i then dim + 1 else dim)

/-- Lines 81-91 in `int64_t`: fill `sizes` and `strides`. -/
def fillLoop64 (T : THTensor) (DIM : Int) : Nat → FillState → FillState
  | 0, st => st
  | i + 1, st =>
    if mergesAt64 T DIM i then
      fillLoop64 T DIM i
        { st with
          sizes := st.sizes.set st.dimIndex
            (wrap64 (T.size.getD i 0 * st.sizes.getD st.dimIndex 0))
          dimOffset :=
            if DIM ≠ (T.nDimension : Int) - 1 ∧ (i : Int) < DIM then st.dimOffset.dec
            else st.dimOffset }
    else
      fillLoop64 T DIM i
        { st with
          dimIndex := st.dimIndex - 1
          sizes := st.sizes.set (st.dimIndex - 1) (T.size.getD i 0)
          strides := st.strides.set (st.dimIndex - 1) (T.stride.getD i 0) }

/-- The preamble `__TH_TENSOR_APPLYX_PREAMBLE(TYPE, TENSOR, DIM, ALLOW_CONTIGUOUS)`
with its products in `int64_t`. -/
def TH_TENSOR_APPLYX_PREAMBLE64 (T : THTensor) (DIM : Int) (ALLOW_CONTIGUOUS : Bool)
    (hasFinished : Bool) : Cursor × Bool :=
  let contiguous0 : Bool := ALLOW_CONTIGUOUS && decide (DIM < 0)
  let n := elementCount64 T
  if T.nDimension = 0 then
    ({ data := 0, counter := [], sizes := [], strides := [], dimOffset := .null,
       stride := 0, size := 0, dim := 0, i := 0, n := n,
       contiguous := contiguous0, allocated := false }, true)
  else
    let data := T.storage + T.storageOffset
    let contiguous := (contigLoop64 T DIM T.nDimension (1, contiguous0)).2
    if !contiguous then
      let dim := dimLoop64 T DIM (T.nDimension - 1) 1
      let st0 : FillState :=
        { dimIndex := dim - 1
          sizes := (List.replicate dim 0).set (dim - 1) (T.size.getD (T.nDimension - 1) 0)
          strides := (List.replicate dim 0).set (dim - 1) (T.stride.getD (T.nDimension - 1) 0)
          dimOffset :=
            if DIM = (T.nDimension : Int) - 1 then .ofI else .ofCounter DIM }
      let st := fillLoop64 T DIM (T.nDimension - 1) st0
      ({ data := data, counter := List.replicate dim 0, sizes := st.sizes,
         strides := st.strides, dimOffset := st.dimOffset,
         stride := st.strides.getD (dim - 1) 0, size := st.sizes.getD (dim - 1) 0,
         dim := dim, i := 0, n := n, contiguous := false, allocated := true },
       hasFinished)
    else
      ({ data := data, counter := [0], sizes := [n], strides := [1], dimOffset := .null,
         stride := 1, size := n, dim := 1, i := 0, n := n,
         contiguous := true, allocated := true }, hasFinished)

/-- The template `TH_TENSOR_APPLY_D(TYPE, TENSOR, DIM, CODE)` over the 64-bit
planning. -/
def TH_TENSOR_APPLY_D64 {σ : Type} (T : THTensor) (DIM : Int) (CODE : Cursor → σ → σ)
    (s : σ) (fuel : Nat) : Option (ApplyResult σ) :=
  let p := TH_TENSOR_APPLYX_PREAMBLE64 T DIM false false
  (whileLoop1 CODE fuel p.1 p.2 s).map fun s1 =>
    { raised := false, state := s1, allocated := p.1.blocks, freed := p.1.blocks }

/-- The template `TH_TENSOR_APPLY2_D` over the 64-bit planning. -/
def TH_TENSOR_APPLY2_D64 {σ : Type} (T1 T2 : THTensor) (DIM : Int)
    (CODE : Cursor → Cursor → σ → σ) (s : σ) (fuel : Nat) : Option (ApplyResult σ) :=
  let p1 := TH_TENSOR_APPLYX_PREAMBLE64 T1 DIM true false
  let p2 := TH_TENSOR_APPLYX_PREAMBLE64 T2 DIM true p1.2
  if p1.1.n ≠ p2.1.n then
    some { raised := true, state := s, allocated := p1.1.blocks + p2.1.blocks, freed := 0 }
  else
    (whileLoop2 CODE fuel p1.1 p2.1 p2.2 s).map fun s1 =>
      { raised := false, state := s1, allocated := p1.1.blocks + p2.1.blocks,
        freed := p1.1.blocks + p2.1.blocks }

/-- The template `TH_TENSOR_APPLY3_D` over the 64-bit planning. -/
def TH_TENSOR_APPLY3_D64 {σ : Type} (T1 T2 T3 : THTensor) (DIM : Int)
    (CODE : Cursor → Cursor → Cursor → σ → σ) (s : σ) (fuel : Nat) :
    Option (ApplyResult σ) :=
  let p1 := TH_TENSOR_APPLYX_PREAMBLE64 T1 DIM true false
  let p2 := TH_TENSOR_APPLYX_PREAMBLE64 T2 DIM true p1.2
  let p3 := TH_TENSOR_APPLYX_PREAMBLE64 T3 DIM true p2.2
  let elements_equal : Bool :=
    if p1.1.n ≠ p2.1.n then false else if p1.1.n ≠ p3.1.n then false else true
  let blocks := p1.1.blocks + p2.1.blocks + p3.1.blocks
  if elements_equal = false then
    some { raised := true, state := s, allocated := blocks, freed := 0 }
  else
    (whileLoop3 CODE fuel p1.1 p2.1 p3.1 p3.2 s).map fun s1 =>
      { raised := false, state := s1, allocated := blocks, freed := blocks }

/-! ## Parallel templates (`#ifdef _OPENMP`)

The OpenMP runtime is not part of the source.  Its choices are parameters of
the model: the number of threads of the team (`num_threads`), the thread a
function is evaluated for (`tid`), for a `parallel for` the thread that owns
each iteration, and for a `reduction` the order in which the thread-private
copies are combined.  The external accessors `THTensor_(data)`,
`THTensor_(nElement)` and `THTensor_(isContiguous)` are modelled by
`storage + storageOffset` and by the macro arguments `SIZE` and `CONTIG`. -/

/-- The constant `TH_OMP_OVERHEAD_THRESHOLD_OMP` (line 257). -/
def TH_OMP_OVERHEAD_THRESHOLD_OMP : Int := 5000

/-- The `if (SIZE > TH_OMP_OVERHEAD_THRESHOLD_OMP)` clause of every
`omp parallel` pragma of the file: the region is run in parallel when it holds
and by a team of one thread otherwise. -/
def ompParallelIf (SIZE : Int) : Bool := decide (SIZE > TH_OMP_OVERHEAD_THRESHOLD_OMP)

/-- Size of the team that runs a parallel region guarded by the `if` clause,
when the runtime would otherwise provide `available` threads. -/
def ompTeamSize (available : Nat) (SIZE : Int) : Nat :=
  if ompParallelIf SIZE then available else 1

/-- Line 403: `line_index_offset = tid * (SIZE/num_threads)`. -/
def line_index_offset (SIZE num_threads tid : Nat) : Nat := tid * (SIZE / num_threads)

/-- Line 404: `line_index_end = (tid == num_threads - 1) ? SIZE :
(line_index_offset + SIZE/num_threads)`. -/
def line_index_end (SIZE num_threads tid : Nat) : Nat :=
  if tid = num_threads - 1 then SIZE
  else line_index_offset SIZE num_threads tid + SIZE / num_threads

/-- Line 405: `line_seg_len = line_index_end - line_index_offset` (a `ptrdiff_t`). -/
def line_seg_len (SIZE num_threads tid : Nat) : Int :=
  (line_index_end SIZE num_threads tid : Int) - (line_index_offset SIZE num_threads tid : Int)

/-- Variables of `__TH_TENSOR_APPLYX_CAL_OFFSET`: `TENSOR##_counter_tmp`,
`TENSOR##_offset`, `TENSOR##_quot`. -/
structure CalState where
  counter_tmp : List Int
  offset : Int
  quot : Int
deriving DecidableEq

/-- Lines 345-349: the loop of `__TH_TENSOR_APPLYX_CAL_OFFSET`, for `i = k-1`
down to `0`; `%` and `/` are the truncating operators of C. -/
def calOffsetLoop (c : Cursor) : Nat → CalState → CalState
  | 0, st => st
  | i + 1, st =>
    let d := Int.tmod st.quot (c.sizes.getD i 0)
    calOffsetLoop c i
      { counter_tmp := st.counter_tmp.set i d
        quot := Int.tdiv st.quot (c.sizes.getD i 0)
        offset := st.offset + d * c.strides.getD i 0 }

/-- The template `__TH_TENSOR_APPLYX_CAL_OFFSET(TENSOR)`, reading the plan
from the locals of the preamble and the start index `line_index_offset`. -/
def TH_TENSOR_APPLYX_CAL_OFFSET (c : Cursor) (line_index_offset : Int) : CalState :=
  calOffsetLoop c c.dim
    { counter_tmp := List.replicate c.dim 0, offset := 0, quot := line_index_offset }

/-- Thread-local variables of one tensor inside the parallel region: the
`firstprivate` copies of the plan and `TENSOR##_i`, the thread's own
`TENSOR##_data`, the array `TENSOR##_counter_tmp` (held in the field `counter`)
and `TENSOR##_start`. -/
structure OmpLocal where
  cur : Cursor
  start : Int
deriving DecidableEq

/-- Lines 410-414: the thread's data pointer `base + TENSOR##_offset` and
`TENSOR##_start = TENSOR##_counter_tmp[TENSOR##_dim - 1]`. -/
def ompLocalInit (c : Cursor) (base : Int) (line_index_offset : Int) : OmpLocal :=
  let r := TH_TENSOR_APPLYX_CAL_OFFSET c line_index_offset
  { cur := { c with data := base + r.offset, counter := r.counter_tmp }
    start := r.counter_tmp.getD (c.dim - 1) 0 }

/-- Lines 356-365: the carry loop of `__TH_TENSOR_APPLYX_UPDATE_COUNTERS_OMP`,
for `i = k-1` down to `0` while `carry_coord` is set; the field `i` ends as the
loop variable does. -/
def carryLoopOmp : Nat → Cursor → Cursor
  | 0, c => { c with i := -1 }
  | i + 1, c =>
    let c1 : Cursor :=
      { c with
        counter := c.counter.set i (c.counter.getD i 0 + 1)
        data := c.data + c.strides.getD i 0 }
    if c1.counter.getD i 0 = c1.sizes.getD i 0 then
      carryLoopOmp i
        { c1 with
          data := c1.data - c1.sizes.getD i 0 * c1.strides.getD i 0
          counter := c1.counter.set i 0 }
    else { c1 with i := (i : Int) - 1 }

/-- The template `__TH_TENSOR_APPLYX_UPDATE_COUNTERS_OMP(TENSOR)`. -/
def TH_TENSOR_APPLYX_UPDATE_COUNTERS_OMP (l : OmpLocal) : OmpLocal :=
  if l.cur.i = l.cur.size ∧ l.cur.dim > 1 then
    { cur := carryLoopOmp (l.cur.dim - 1)
        { l.cur with data := l.cur.data - l.cur.size * l.cur.stride }
      start := 0 }
  else { l with start := l.cur.i }

/-- One iteration step of the inner `for` of a thread: `CODE`, then
`TENSOR##_data += TENSOR##_stride`, then `++TENSOR##_i`. -/
def OmpLocal.next (l : OmpLocal) : OmpLocal := { l with cur := l.cur.next }

/-- Inner `for` of a thread (lines 312, 416, 467), over the list of
participating tensors; the first argument bounds the number of iterations and
is instantiated with `line_seg_len - count`. -/
def ompInner {σ : Type} (CODE : List Cursor → σ → σ) (len : Int) :
    Nat → List OmpLocal → Int → σ → List OmpLocal × Int × σ
  | 0, ls, count, s => (ls, count, s)
  | k + 1, ls, count, s =>
    if count < len ∧ ∀ l ∈ ls, l.cur.i < l.cur.size then
      ompInner CODE len k (ls.map OmpLocal.next) (count + 1) (CODE (ls.map fun l => l.cur) s)
    else (ls, count, s)

/-- The loop `while (count < line_seg_len)` of a thread (lines 311-323,
415-425, 466-474): the `for` statement first sets every `TENSOR##_i` to
`TENSOR##_start`; the carry routine of every tensor runs when the segment is
not finished. -/
def ompWhile {σ : Type} (CODE : List Cursor → σ → σ) (len : Int) :
    Nat → List OmpLocal → Int → σ → Option σ
  | 0, _, count, s => if count < len then none else some s
  | fuel + 1, ls, count, s =>
    if count < len then
      let r := ompInner CODE len (len - count).toNat
        (ls.map fun l => { l with cur := { l.cur with i := l.start } }) count s
      if r.2.1 < len then
        ompWhile CODE len fuel (r.1.map TH_TENSOR_APPLYX_UPDATE_COUNTERS_OMP) r.2.1 r.2.2
      else ompWhile CODE len fuel r.1 r.2.1 r.2.2
    else some s

/-- The body of the parallel region of the non-contiguous branch, evaluated for
thread `tid` of a team of `num_threads`, over the participating tensors in the
order of their preambles. -/
def ompThread {σ : Type} (SIZE num_threads tid : Nat) (Ts : List THTensor)
    (CODE : List Cursor → σ → σ) (s : σ) (fuel : Nat) : Option σ :=
  ompWhile CODE (line_seg_len SIZE num_threads tid) fuel
    (Ts.map fun T =>
      ompLocalInit (TH_TENSOR_APPLYX_PREAMBLE T (-1) true false).1
        (T.storage + T.storageOffset) (line_index_offset SIZE num_threads tid))
    0 s

/-- Thread `tid` of the non-contiguous branch of `TH_TENSOR_APPLY2_OMP`
(lines 394-435); the preamble of `TENSOR2` comes first. -/
def TH_TENSOR_APPLY2_OMP_thread {σ : Type} (SIZE num_threads tid : Nat) (T1 T2 : THTensor)
    (CODE : Cursor → Cursor → σ → σ) (s : σ) (fuel : Nat) : Option σ :=
  ompThread SIZE num_threads tid [T2, T1]
    (fun cs s => match cs with
      | [c2, c1] => CODE c1 c2 s
      | _ => s) s fuel

/-- Thread `tid` of the non-contiguous branch of `TH_TENSOR_APPLY3_OMP`
(lines 288-337). -/
def TH_TENSOR_APPLY3_OMP_thread {σ : Type} (SIZE num_threads tid : Nat)
    (T1 T2 T3 : THTensor) (CODE : Cursor → Cursor → Cursor → σ → σ) (s : σ) (fuel : Nat) :
    Option σ :=
  ompThread SIZE num_threads tid [T1, T2, T3]
    (fun cs s => match cs with
      | [c1, c2, c3] => CODE c1 c2 c3 s
      | _ => s) s fuel

/-- Combine the thread-private copies of a `reduction` variable into the
original value, in the given order of threads. -/
def ompCombine {σ : Type} (op : σ → σ → σ) (orig : σ) (copies : Nat → Option σ)
    (order : List Nat) : Option σ :=
  order.foldl
    (fun acc tid =>
      match acc, copies tid with
      | some a, some p => some (op a p)
      | _, _ => none)
    (some orig)

/-- The template `TH_TENSOR_APPLY_REDUCTION_OMP(TYPE1, TENSOR1, OPERATION, CODE)`
(lines 438-481).  `Contg` and `Size` stand for `THTensor_(isContiguous)` and
`THTensor_(nElement)`.  `OPERATION` is given by its combiner `op` and the value
`identity` every thread-private copy starts from; `CODE` acts on the private
copy and reads `TENSOR1##_data`.  The team has `ompTeamSize available Size`
threads; in the contiguous branch iteration `iter` is run by thread
`owner iter`, each thread taking its iterations in increasing order. -/
def TH_TENSOR_APPLY_REDUCTION_OMP {σ : Type} (T1 : THTensor) (Contg : Bool) (Size : Nat)
    (op : σ → σ → σ) (identity : σ) (CODE : Int → σ → σ) (orig : σ)
    (available : Nat) (owner : Nat → Nat) (order : List Nat) (fuel : Nat) : Option σ :=
  let rp := T1.storage + T1.storageOffset
  let num_threads := ompTeamSize available Size
  ompCombine op orig
    (fun tid =>
      if Contg then
        some (((List.range Size).filter fun iter => owner iter = tid).foldl
          (fun acc (iter : Nat) => CODE (rp + (iter : Int)) acc) identity)
      else
        ompThread Size num_threads tid [T1]
          (fun cs s => match cs with
            | [c1] => CODE c1.data s
            | _ => s) identity fuel)
    order

/-! ## Autograd convolution nodes (`torch/csrc/autograd/functions/convolution.h`)

The headers `function.h`, `variable.h`, `saved_variable.h` and ATen are not
among the sources; what the constructors of the nodes use of them is modelled
below.  Tensors and the pointees of the `std::unique_ptr` members are handles
(`Nat`); a null `std::unique_ptr` is `none`. -/

/-- The data members of `ConvParams` (lines 30-39). -/
structure ConvParams where
  stride : List Int
  padding : List Int
  dilation : List Int
  transposed : Bool
  output_padding : List Int
  groups : Int
  benchmark : Bool
  deterministic : Bool
  cudnn_enabled : Bool
deriving DecidableEq

/-- Modelled from the spec: a `Variable` (declared in `variable.h`, which is
not among the sources), reduced to its identity and to the answer of
`defined()`. -/
structure Variable where
  ident : Nat
  defined : Bool
deriving DecidableEq

/-- Modelled from the spec: a `SavedVariable` (declared in `saved_variable.h`,
which is not among the sources) "is constructed from a live `Variable` and a
back-reference to the owning function node"; a default-constructed one holds
nothing. -/
inductive SavedVariable where
  | empty
  | capture (v : Variable) (saved_for : Nat)
deriving DecidableEq

/-- Modelled from the spec: `FunctionFlags` (declared in `function.h`, which
is not among the sources), reduced to the flag `is_executable` that the base
class `Function` takes over from it ("executable, i.e., any parent requires
gradient"). -/
structure FunctionFlags where
  is_executable : Bool
deriving DecidableEq

/-- The node `ConvBackward` (lines 64-101): the member `is_executable` of the
base class `Function`, the base class `ConvParams`, and the data members of
lines 94-100. -/
structure ConvBackward where
  is_executable : Bool
  params : ConvParams
  input_ : SavedVariable
  weight_ : SavedVariable
  bias_ : SavedVariable
  columns : List Nat
  ones : List Nat
  convolution : Option Nat
  context : Option Nat
deriving DecidableEq

/-- The constructor `ConvBackward::ConvBackward(...)` (lines 65-88).  The member
initialisers set the bases, `convolution` and `context`; the other members are
default-constructed; the body fills them when `is_executable`.  `self` is the
address `this` of the node. -/
def ConvBackward.ctor (self : Nat) (flags : FunctionFlags) (params : ConvParams)
    (input weight bias : Variable) (columns ones : List Nat)
    (convolution context : Option Nat) : ConvBackward :=
  let node : ConvBackward :=
    { is_executable := flags.is_executable, params := params
      input_ := .empty, weight_ := .empty, bias_ := .empty
      columns := [], ones := []
      convolution := convolution, context := context }
  if node.is_executable then
    { node with
      input_ := .capture input self
      weight_ := .capture weight self
      bias_ := if bias.defined then .capture bias self else node.bias_
      columns := columns
      ones := ones }
  else node

/-- The node `ConvBackwardBackward` (lines 103-131). -/
structure ConvBackwardBackward where
  is_executable : Bool
  params : ConvParams
  input_ : SavedVariable
  weight_ : SavedVariable
  bias_ : SavedVariable
  grad_output_ : SavedVariable
deriving DecidableEq

/-- The constructor `ConvBackwardBackward::ConvBackwardBackward(...)`
(lines 104-121). -/
def ConvBackwardBackward.ctor (self : Nat) (flags : FunctionFlags)
    (params : ConvParams) (input weight bias grad_output : Variable) :
    ConvBackwardBackward :=
  let node : ConvBackwardBackward :=
    { is_executable := flags.is_executable, params := params
      input_ := .empty, weight_ := .empty, bias_ := .empty, grad_output_ := .empty }
  if node.is_executable then
    { node with
      input_ := .capture input self
      weight_ := .capture weight self
      bias_ := if bias.defined then .capture bias self else node.bias_
      grad_output_ := .capture grad_output self }
  else node

/-! ## Specification-side and proof-side definitions -/

/-- Mixed-radix digits of a linear index, least significant digit first: the
radices are the run sizes listed innermost first. -/
def digitsRev : List Int → Int → List Int
  | [], _ => []
  | s :: rs, L => (L % s) :: digitsRev rs (L / s)

/-- Sum of the products `i_j * stride_j` of a multi-index with a stride list. -/
def dot : List Int → List Int → Int
  | a :: as, b :: bs => a * b + dot as bs
  | _, _ => 0

/-- A cursor is ready for traversal over the outer runs `rs` / `rst` (sizes and
strides, innermost outer run first): its arrays are those runs followed by the
innermost run, every run has at least one element, and a contiguous cursor has
no outer run. -/
structure Ready (c0 : Cursor) (rs rst : List Int) : Prop where
  sizes_eq : c0.sizes = rs.reverse ++ [c0.size]
  strides_eq : c0.strides = rst.reverse ++ [c0.stride]
  len : rst.length = rs.length
  dim_eq : c0.dim = rs.length + 1
  pos : ∀ s ∈ rs, 1 ≤ s
  size_pos : 1 ≤ c0.size
  contig : c0.contiguous = true → rs = []

/-- The locals of a traversal that has visited `k` elements and stands inside a
run: inner index, outer counters and data pointer. -/
def Cursor.atPos (c0 : Cursor) (rs rst : List Int) (k : Int) : Cursor :=
  { c0 with
    i := k % c0.size
    counter := (digitsRev rs (k / c0.size)).reverse ++ [0]
    data := c0.data + (k % c0.size) * c0.stride + dot (digitsRev rs (k / c0.size)) rst }

/-- The locals after `r` further iterations of the inner `for`. -/
def Cursor.adv (c : Cursor) (r : Nat) : Cursor :=
  { c with i := c.i + r, data := c.data + r * c.stride }

/-- All multi-indices of a shape in row-major order: nested loops, the last
index running fastest. -/
def rowMajorIndices : List Int → List (List Int)
  | [] => [[]]
  | s :: rest =>
    (List.range s.toNat).flatMap fun a => (rowMajorIndices rest).map fun idx => (a : Int) :: idx

/-- Address of the element at a multi-index:
`storage + storageOffset + sum_j i_j * stride[j]`. -/
def THTensor.offsetOf (T : THTensor) (idx : List Int) : Int :=
  T.storage + T.storageOffset + dot idx T.stride

/-- Addresses of the elements of a view with at least one dimension, in
row-major order. -/
def THTensor.rowMajorPointers (T : THTensor) : List Int :=
  (rowMajorIndices T.size).map T.offsetOf

/-- Addresses visited by nested loops over a list of (size, stride) pairs,
outermost pair first. -/
def nested : List (Int × Int) → Int → List Int
  | [], base => [base]
  | (s, st) :: ds, base =>
    (List.range s.toNat).flatMap fun (a : Nat) => nested ds (base + (a : Int) * st)

/-- The same enumeration as `nested`, for a list given innermost pair first. -/
def nestedRev : List (Int × Int) → Int → List Int
  | [], base => [base]
  | (s, st) :: ds, base =>
    (nestedRev ds base).flatMap fun b => (List.range s.toNat).map fun (a : Nat) => b + (a : Int) * st

/-- Reference merge condition: dimensions `i` and `i+1` fall in the same run
exactly when `stride[i] = stride[i+1] * size[i+1]` and neither is `DIM`. -/
def sameRun (T : THTensor) (DIM : Int) (i : Nat) : Bool :=
  decide (T.stride.getD i 0 = T.stride.getD (i + 1) 0 * T.size.getD (i + 1) 0
    ∧ (i : Int) ≠ DIM ∧ (i : Int) + 1 ≠ DIM)

/-- Reference merge: split a list of consecutive dimension indices into runs,
scanning from the innermost outward; `same i` says that `i` joins the run of
its successor.  Runs are listed outermost first. -/
def groupRuns (same : Nat → Bool) : List Nat → List (List Nat)
  | [] => []
  | [i] => [[i]]
  | i :: j :: rest =>
    match groupRuns same (j :: rest) with
    | [] => [[i]]
    | r :: rs => if same i then (i :: r) :: rs else [i] :: r :: rs

/-- Reference merge of a view: the runs of the dimensions `0 .. nDim-1`. -/
def refRuns (T : THTensor) (DIM : Int) : List (List Nat) :=
  groupRuns (sameRun T DIM) (List.range T.nDimension)

/-- Size of a run: the product of the extents of its dimensions. -/
def runSize (T : THTensor) (g : List Nat) : Int := (g.map fun j => T.size.getD j 0).prod

/-- Stride of a run: the stride of its innermost (last) dimension. -/
def runStride (T : THTensor) (g : List Nat) : Int := T.stride.getD (g.getLastD 0) 0

/-- Reference runs of the dimensions `k .. nDim-1`. -/
def runsFrom (T : THTensor) (DIM : Int) (k : Nat) : List (List Nat) :=
  groupRuns (sameRun T DIM) (List.range' k (T.nDimension - k))

/-- Invariant of the fill loop before it handles dimension `k - 1`: the arrays
hold zeros below `dimIndex` and the runs of the dimensions `k .. nDim-1` from
there on. -/
def FillInv (T : THTensor) (DIM : Int) (k : Nat) (st : FillState) : Prop :=
  st.dimIndex = dimLoop T DIM k 0 ∧
  st.sizes = List.replicate (dimLoop T DIM k 0) 0 ++ (runsFrom T DIM k).map (runSize T) ∧
  st.strides = List.replicate (dimLoop T DIM k 0) 0 ++ (runsFrom T DIM k).map (runStride T)

/-- The (size, stride) pair of dimension `j`. -/
def dimPair (T : THTensor) (j : Nat) : Int × Int := (T.size.getD j 0, T.stride.getD j 0)

/-- The (size, stride) pair of a run. -/
def runPair (T : THTensor) (g : List Nat) : Int × Int := (runSize T g, runStride T g)

/-- What the preamble leaves in the locals on the nested path. -/
structure NestedPlan (T : THTensor) (DIM : Int) (c : Cursor) : Prop where
  data_eq : c.data = T.storage + T.storageOffset
  counter_eq : c.counter = List.replicate c.dim 0
  sizes_eq : c.sizes = (refRuns T DIM).map (runSize T)
  strides_eq : c.strides = (refRuns T DIM).map (runStride T)
  dim_eq : c.dim = (refRuns T DIM).length
  size_eq : c.size = c.sizes.getD (c.dim - 1) 0
  stride_eq : c.stride = c.strides.getD (c.dim - 1) 0
  i_eq : c.i = 0
  n_eq : c.n = elementCount T
  contiguous_eq : c.contiguous = false
  allocated_eq : c.allocated = true

/-- A cursor from which the traversal lemmas apply and whose plan enumerates
the row-major pointers of the view. -/
structure Walk (T : THTensor) (c : Cursor) (rs rst : List Int) : Prop where
  ready : Ready c rs rst
  start : c.atPos rs rst 0 = c
  count : c.size * rs.prod = T.size.prod
  ptrs : nested (c.sizes.zip c.strides) c.data = T.rowMajorPointers

/-- Product of the extents of the dimensions `k .. nDim-1`; `tailProd T (i+1)`
is the stride of dimension `i` in a dense row-major layout. -/
def tailProd (T : THTensor) (k : Nat) : Int :=
  ((List.range' k (T.nDimension - k)).map fun j => T.size.getD j 0).prod

/-- The locals the preamble leaves on the contiguous path. -/
def contigCursor (T : THTensor) : Cursor :=
  { data := T.storage + T.storageOffset, counter := [0], sizes := [elementCount T],
    strides := [1], dimOffset := .null, stride := 1, size := elementCount T, dim := 1,
    i := 0, n := elementCount T, contiguous := true, allocated := true }

/-- Total element count of a view: the product of the extents, and zero for a
view without dimensions. -/
def THTensor.nElement (T : THTensor) : Int :=
  if T.nDimension = 0 then 0 else T.size.prod

/-- The 3x3x3x3 view narrowed from a dense 3x3x4x3 tensor. -/
def narrowedView : THTensor := ⟨[3, 3, 3, 3], [36, 12, 3, 1], 0, 0⟩

/-- Addresses of the elements of a view in row-major order; a view without
dimensions has no elements. -/
def THTensor.elementPointers (T : THTensor) : List Int :=
  if T.nDimension = 0 then [] else T.rowMajorPointers

/-- Value of a counter as a mixed-radix number over the run sizes, outermost
digit first: the sum over `i` of `counter[i]` times the product of the sizes
`sizes[j]` with `j > i`. -/
def mixedRadixValue : List Int → List Int → Int
  | _ :: ss, c :: cs => c * ss.prod + mixedRadixValue ss cs
  | _, _ => 0

/-- An address lies inside the storage buffer of a view, when the buffer holds
`len` cells starting at `T.storage`. -/
def THTensor.inStorage (T : THTensor) (len : Int) (p : Int) : Prop :=
  T.storage ≤ p ∧ p < T.storage + len

instance (T : THTensor) (len p : Int) : Decidable (T.inStorage len p) :=
  inferInstanceAs (Decidable (_ ∧ _))

/-- View invariant of the specification: for every valid multi-index the
address `storage + storageOffset + sum_j i_j * stride[j]` lies inside the
storage buffer. -/
def THTensor.viewInvariant (T : THTensor) (len : Int) : Prop :=
  ∀ idx ∈ rowMajorIndices T.size, T.inStorage len (T.offsetOf idx)

instance (T : THTensor) (len : Int) : Decidable (T.viewInvariant len) :=
  inferInstanceAs (Decidable (∀ idx ∈ rowMajorIndices T.size, T.inStorage len (T.offsetOf idx)))

/-- The thread-local variables of a tensor whose thread stands at linear index
`k`, when the `for` statement has set `TENSOR##_i` to `TENSOR##_start`: inner
index and pointer as in `Cursor.atPos`, outer counters in `counter_tmp`, whose
last slot keeps the value `z` written by `__TH_TENSOR_APPLYX_CAL_OFFSET`. -/
def ompAt (c0 : Cursor) (rs rst : List Int) (z : Int) (k : Int) : OmpLocal :=
  { cur :=
      { c0 with
        i := k % c0.size
        counter := (digitsRev rs (k / c0.size)).reverse ++ [z]
        data := c0.data + (k % c0.size) * c0.stride + dot (digitsRev rs (k / c0.size)) rst }
    start := k % c0.size }

/-- The thread-local variables after `r` further iterations of the inner `for`. -/
def OmpLocal.adv (l : OmpLocal) (r : Nat) : OmpLocal := { l with cur := l.cur.adv r }

/-- A plan together with its outer runs (innermost first) and the frozen last
slot of `counter_tmp`. -/
structure OmpPlan where
  c0 : Cursor
  rs : List Int
  rst : List Int
  z : Int

/-- The thread-local variables of a planned tensor at linear index `k`. -/
def OmpPlan.pos (p : OmpPlan) (k : Int) : OmpLocal := ompAt p.c0 p.rs p.rst p.z k

/-- Elements `[offset_t, end_t)` of a thread, as linear indices. -/
def ompSegment (SIZE num_threads tid : Nat) : List Nat :=
  List.range' (line_index_offset SIZE num_threads tid) (line_seg_len SIZE num_threads tid).toNat

/-- A tensor of a parallel traversal over `SIZE` elements, with its plan as the
thread that starts at linear index `off` sees it. -/
def OmpPlanned (SIZE off : Nat) (T : THTensor) (p : OmpPlan) : Prop :=
  T.nDimension ≠ 0 ∧ (∀ s ∈ T.size, 1 ≤ s) ∧ T.size.prod = (SIZE : Int) ∧
  p.c0 = (TH_TENSOR_APPLYX_PREAMBLE T (-1) true false).1 ∧
  Walk T p.c0 p.rs p.rst ∧ p.z = (off : Int) % p.c0.size

/-- Number of merges among the dimensions before `DIM`: the pairs `(i, i+1)`
with `i < k` and `i < DIM` that the fill loop merges. -/
def mergesBefore (T : THTensor) (DIM : Int) (k : Nat) : Nat :=
  ((List.range k).filter fun i => mergesAt T DIM i && decide ((i : Int) < DIM)).length

/-- The elements of a view in row-major order, each given by its address and
its index along dimension `D`. -/
def THTensor.elementsWithIndex (T : THTensor) (D : Nat) : List (Int × Option Int) :=
  (rowMajorIndices T.size).map fun idx => (T.offsetOf idx, some (idx.getD D 0))

/-- An integer in the range of `int64_t`. -/
def fits64 (x : Int) : Prop := -9223372036854775808 ≤ x ∧ x < 9223372036854775808

instance (x : Int) : Decidable (fits64 x) :=
  inferInstanceAs (Decidable (-9223372036854775808 ≤ x ∧ x < 9223372036854775808))

/-- No product `stride[i] * size[i]` of a view leaves the range of `int64_t`
(lines 64 and 82 form these products for `i >= 1`).  Views whose elements lie
in an allocated storage satisfy it: there `|stride[i]| * (size[i] - 1)` is
bounded by the length of the storage. -/
def THTensor.strideFits (T : THTensor) : Prop :=
  ∀ i, i < T.nDimension → fits64 (T.stride.getD i 0 * T.size.getD i 0)

instance (T : THTensor) : Decidable T.strideFits :=
  inferInstanceAs (Decidable
    (∀ i, i < T.nDimension → fits64 (T.stride.getD i 0 * T.size.getD i 0)))

/-- A view of one storage cell expanded with stride 0 to the shape
3 x 6148914691236517206; its element count is `2^64 + 2`. -/
def expandedView : THTensor := ⟨[3, 6148914691236517206], [0, 0], 0, 0⟩

/-- A view of shape 3037000500 x 3037000500 with dense strides; its element
count, 9223372037000250000, exceeds `2^63`. -/
def hugeSquareView : THTensor := ⟨[3037000500, 3037000500], [3037000500, 1], 0, 0⟩

/-! ## Lemmas -/

theorem getD_at_length {α : Type} (pre : List α) (x : α) (post : List α) (d : α) :
    (pre ++ x :: post).getD pre.length d = x := by
  induction pre with
  | nil => rfl
  | cons a pre ih => simpa using ih

theorem set_at_length (pre : List Int) (x y : Int) (post : List Int) :
    (pre ++ x :: post).set pre.length y = pre ++ y :: post := by
  induction pre with
  | nil => rfl
  | cons a pre ih => simp [List.set, ih]

theorem length_digitsRev (rs : List Int) (L : Int) : (digitsRev rs L).length = rs.length := by
  induction rs generalizing L with
  | nil => rfl
  | cons s rs ih => simp [digitsRev, ih]

theorem succ_wrap {L s : Int} (hs : 1 ≤ s) (h : L % s + 1 = s) :
    (L + 1) % s = 0 ∧ (L + 1) / s = L / s + 1 := by
  have h1 := Int.emod_add_ediv L s
  have hs0 : 0 < s := by omega
  have := (Int.ediv_emod_unique (a := L + 1) (r := 0) (q := L / s + 1) hs0).2
    ⟨by rw [mul_add]; omega, le_refl _, hs0⟩
  exact ⟨this.2, this.1⟩

theorem succ_nowrap {L s : Int} (hs : 1 ≤ s) (h : L % s + 1 ≠ s) :
    (L + 1) % s = L % s + 1 ∧ (L + 1) / s = L / s := by
  have h1 := Int.emod_add_ediv L s
  have hs0 : 0 < s := by omega
  have h2 := Int.emod_lt_of_pos L hs0
  have h3 := Int.emod_nonneg L (by omega : s ≠ 0)
  have := (Int.ediv_emod_unique (a := L + 1) (r := L % s + 1) (q := L / s) hs0).2
    ⟨by omega, by omega, by omega⟩
  exact ⟨this.2, this.1⟩

theorem carryLoop_digits (rs : List Int) :
    ∀ (rst : List Int) (L : Int) (c : Cursor) (fin : Bool) (tS tSt tC : List Int) (base : Int),
      rst.length = rs.length → (∀ s ∈ rs, 1 ≤ s) → 0 ≤ L → L + 1 < rs.prod →
      c.sizes = rs.reverse ++ tS → c.strides = rst.reverse ++ tSt →
      c.counter = (digitsRev rs L).reverse ++ tC →
      c.data = base + dot (digitsRev rs L) rst →
      carryLoop rs.length c fin =
        ({ c with counter := (digitsRev rs (L + 1)).reverse ++ tC
                  data := base + dot (digitsRev rs (L + 1)) rst }, fin) := by
  induction rs with
  | nil =>
    intro rst L c fin tS tSt tC base _ _ h0 h1
    simp at h1; omega
  | cons s rs ih =>
    intro rst L c fin tS tSt tC base hlen hpos h0 h1 hS hSt hC hD
    obtain ⟨st, rst, rfl⟩ : ∃ st r, rst = st :: r := by
      cases rst with
      | nil => simp at hlen
      | cons a b => exact ⟨a, b, rfl⟩
    have hs : 1 ≤ s := hpos s (by simp)
    have hlen2 : rst.length = rs.length := by simpa using hlen
    have hdl : (digitsRev rs (L / s)).reverse.length = rs.length := by
      simp [length_digitsRev]
    have hSl : rs.reverse.length = rs.length := by simp
    have hStl : rst.reverse.length = rs.length := by simp [hlen2]
    simp only [digitsRev, List.reverse_cons, List.append_assoc, List.singleton_append] at hS hSt hC hD ⊢
    simp only [List.length_cons, carryLoop]
    have e1 : c.counter.getD rs.length 0 = L % s := by
      rw [hC, ← hdl]; exact getD_at_length _ _ _ _
    have e2 : c.sizes.getD rs.length 0 = s := by
      rw [hS, ← hSl]; exact getD_at_length _ _ _ _
    have e3 : c.strides.getD rs.length 0 = st := by
      rw [hSt, ← hStl]; exact getD_at_length _ _ _ _
    have e4 : ∀ y, c.counter.set rs.length y = (digitsRev rs (L / s)).reverse ++ y :: tC := by
      intro y; rw [hC]; conv_lhs => rw [← hdl]
      exact set_at_length _ _ _ _
    have e5 : ∀ y, ((digitsRev rs (L / s)).reverse ++ y :: tC).getD rs.length 0 = y := by
      intro y; conv_lhs => rw [← hdl]
      exact getD_at_length _ _ _ _
    have e6 : ∀ y z, ((digitsRev rs (L / s)).reverse ++ y :: tC).set rs.length z
        = (digitsRev rs (L / s)).reverse ++ z :: tC := by
      intro y z; conv_lhs => rw [← hdl]
      exact set_at_length _ _ _ _
    simp only [e1, e2, e3, e4, e5, e6]
    by_cases hw : L % s + 1 = s
    · rw [if_pos hw]
      obtain ⟨w1, w2⟩ := succ_wrap hs hw
      have hprod : L / s + 1 < rs.prod := by
        have h3 : s * (L / s + 1) < s * rs.prod := by
          have := Int.emod_add_ediv L s
          rw [mul_add]; simp only [List.prod_cons] at h1; omega
        exact lt_of_mul_lt_mul_left h3 (by omega)
      have hne : rs.length ≠ 0 := by
        intro h0'
        have : rs = [] := List.length_eq_zero.mp h0'
        subst this
        simp at hprod
        have := Int.ediv_nonneg h0 (by omega : (0:Int) ≤ s)
        omega
      rw [if_neg hne]
      have key := ih rst (L / s)
        { c with data := c.data + st - (L % s + 1) * st
                 counter := (digitsRev rs (L / s)).reverse ++ 0 :: tC }
        fin (s :: tS) (st :: tSt) (0 :: tC) base hlen2
        (fun x hx => hpos x (by simp [hx])) (Int.ediv_nonneg h0 (by omega)) hprod hS hSt rfl
        (by simp only [hD, dot]; ring)
      rw [key]
      simp only [w1, w2, dot]
      congr 2
      ring
    · rw [if_neg hw]
      obtain ⟨w1, w2⟩ := succ_nowrap hs hw
      simp only [w1, w2, dot, hD]
      congr 2
      ring

theorem carryLoop_finish (rs : List Int) :
    ∀ (L : Int) (c : Cursor) (fin : Bool) (tS tC : List Int),
      rs ≠ [] → (∀ s ∈ rs, 1 ≤ s) → 0 ≤ L → L + 1 = rs.prod →
      c.sizes = rs.reverse ++ tS →
      c.counter = (digitsRev rs L).reverse ++ tC →
      (carryLoop rs.length c fin).2 = true := by
  induction rs with
  | nil => intro L c fin tS tC h; exact absurd rfl h
  | cons s rs ih =>
    intro L c fin tS tC _ hpos h0 h1 hS hC
    have hs : 1 ≤ s := hpos s (by simp)
    have hdl : (digitsRev rs (L / s)).reverse.length = rs.length := by
      simp [length_digitsRev]
    have hSl : rs.reverse.length = rs.length := by simp
    simp only [digitsRev, List.reverse_cons, List.append_assoc, List.singleton_append] at hS hC
    simp only [List.length_cons, carryLoop]
    have e1 : c.counter.getD rs.length 0 = L % s := by
      rw [hC, ← hdl]; exact getD_at_length _ _ _ _
    have e2 : c.sizes.getD rs.length 0 = s := by
      rw [hS, ← hSl]; exact getD_at_length _ _ _ _
    have e4 : ∀ y, c.counter.set rs.length y = (digitsRev rs (L / s)).reverse ++ y :: tC := by
      intro y; rw [hC]; conv_lhs => rw [← hdl]
      exact set_at_length _ _ _ _
    have e5 : ∀ y, ((digitsRev rs (L / s)).reverse ++ y :: tC).getD rs.length 0 = y := by
      intro y; conv_lhs => rw [← hdl]
      exact getD_at_length _ _ _ _
    have e6 : ∀ y z, ((digitsRev rs (L / s)).reverse ++ y :: tC).set rs.length z
        = (digitsRev rs (L / s)).reverse ++ z :: tC := by
      intro y z; conv_lhs => rw [← hdl]
      exact set_at_length _ _ _ _
    simp only [e1, e2, e4, e5, e6]
    have hw : L % s + 1 = s := by
      have hm : (L + 1) % s = 0 := by
        rw [h1, List.prod_cons]; exact Int.mul_emod_right s rs.prod
      by_contra hne
      have := (succ_nowrap hs hne).1
      have := Int.emod_nonneg L (by omega : s ≠ 0)
      omega
    rw [if_pos hw]
    by_cases hz : rs.length = 0
    · rw [if_pos hz]
    · rw [if_neg hz]
      have hprod : L / s + 1 = rs.prod := by
        have h3 : s * (L / s + 1) = s * rs.prod := by
          have := Int.emod_add_ediv L s
          rw [mul_add]; simp only [List.prod_cons] at h1; omega
        exact mul_left_cancel₀ (by omega : s ≠ 0) h3
      exact ih (L / s) _ fin (s :: tS) (0 :: tC)
        (fun h => hz (by simp [h]))
        (fun x hx => hpos x (by simp [hx])) (Int.ediv_nonneg h0 (by omega)) hprod hS rfl

theorem adv_zero (c : Cursor) : c.adv 0 = c := by
  simp [Cursor.adv]

theorem next_adv (c : Cursor) (t : Nat) : c.next.adv t = c.adv (t + 1) := by
  simp only [Cursor.adv, Cursor.next, Nat.cast_add, Nat.cast_one]
  congr 1 <;> ring

theorem divmod_within {k s : Int} {r : Int} (hs : 1 ≤ s) (hr : 0 ≤ r)
    (h : k % s + r < s) : (k + r) % s = k % s + r ∧ (k + r) / s = k / s := by
  have h1 := Int.emod_add_ediv k s
  have h3 := Int.emod_nonneg k (by omega : s ≠ 0)
  have := (Int.ediv_emod_unique (a := k + r) (r := k % s + r) (q := k / s) (by omega : 0 < s)).2
    ⟨by omega, by omega, by omega⟩
  exact ⟨this.2, this.1⟩

theorem divmod_boundary {k s : Int} {r : Int} (hs : 1 ≤ s)
    (h : k % s + r = s) : (k + r) % s = 0 ∧ (k + r) / s = k / s + 1 := by
  have h1 := Int.emod_add_ediv k s
  have := (Int.ediv_emod_unique (a := k + r) (r := 0) (q := k / s + 1) (by omega : 0 < s)).2
    ⟨by rw [mul_add]; omega, le_refl _, by omega⟩
  exact ⟨this.2, this.1⟩

theorem adv_atPos {c0 : Cursor} {rs rst : List Int} (hR : Ready c0 rs rst) (k : Int) (r : Nat)
    (h : k % c0.size + r < c0.size) :
    (c0.atPos rs rst k).adv r = c0.atPos rs rst (k + r) := by
  obtain ⟨w1, w2⟩ := divmod_within hR.size_pos (Int.ofNat_nonneg r) h
  simp only [Cursor.adv, Cursor.atPos, w1, w2]
  congr 1
  ring

theorem update_stay {c0 : Cursor} {rs rst : List Int} (k : Int) (r : Nat)
    (fin : Bool) (h : k % c0.size + r < c0.size) :
    TH_TENSOR_APPLYX_UPDATE_COUNTERS ((c0.atPos rs rst k).adv r) false fin
      = ⟨(c0.atPos rs rst k).adv r, fin, false⟩ := by
  have hne : ¬ ((c0.atPos rs rst k).adv r).i = ((c0.atPos rs rst k).adv r).size := by
    simp only [Cursor.adv, Cursor.atPos]; omega
  simp [TH_TENSOR_APPLYX_UPDATE_COUNTERS, hne]

theorem update_carry {c0 : Cursor} {rs rst : List Int} (hR : Ready c0 rs rst) (k : Int) (r : Nat)
    (always fin : Bool) (hk : 0 ≤ k) (h : k % c0.size + r = c0.size)
    (hn : k + r < c0.size * rs.prod) :
    TH_TENSOR_APPLYX_UPDATE_COUNTERS ((c0.atPos rs rst k).adv r) always fin
      = ⟨c0.atPos rs rst (k + r), fin, false⟩ := by
  obtain ⟨w1, w2⟩ := divmod_boundary hR.size_pos h
  have hs := hR.size_pos
  have hdm := Int.emod_add_ediv k c0.size
  have hq0 : 0 ≤ k / c0.size := Int.ediv_nonneg hk (by omega)
  have hprod : k / c0.size + 1 < rs.prod := by
    have h3 : c0.size * (k / c0.size + 1) < c0.size * rs.prod := by
      rw [mul_add]; omega
    exact lt_of_mul_lt_mul_left h3 (by omega)
  have hrs : rs ≠ [] := by
    rintro rfl
    simp at hprod; omega
  have hc : (c0.contiguous = true) → False := fun hc => hrs (hR.contig hc)
  have hd : c0.dim ≠ 1 := by
    rw [hR.dim_eq]
    have : rs.length ≠ 0 := fun h0 => hrs (List.length_eq_zero.mp h0)
    omega
  have hi : ((c0.atPos rs rst k).adv r).i = ((c0.atPos rs rst k).adv r).size := by
    simp only [Cursor.adv, Cursor.atPos]; omega
  have key := carryLoop_digits rs rst (k / c0.size)
    { (c0.atPos rs rst k).adv r with
      data := ((c0.atPos rs rst k).adv r).data
        - ((c0.atPos rs rst k).adv r).size * ((c0.atPos rs rst k).adv r).stride }
    fin [c0.size] [c0.stride] [0] c0.data hR.len hR.pos hq0 hprod
    hR.sizes_eq hR.strides_eq rfl
    (by
      simp only [Cursor.adv, Cursor.atPos]
      have : (r : Int) = c0.size - k % c0.size := by omega
      rw [this]; ring)
  have hdim : ((c0.atPos rs rst k).adv r).dim - 1 = rs.length := by
    simp only [Cursor.adv, Cursor.atPos, hR.dim_eq]; omega
  unfold TH_TENSOR_APPLYX_UPDATE_COUNTERS
  rw [if_pos (Or.inl hi)]
  have hc2 : ¬ ((c0.atPos rs rst k).adv r).contiguous = true := fun h => hc h
  have hd2 : ¬ ((c0.atPos rs rst k).adv r).dim = 1 := by
    simpa only [Cursor.adv, Cursor.atPos] using hd
  rw [if_neg hc2, if_neg hd2]
  simp only [hdim]
  rw [key]
  simp only [Cursor.adv, Cursor.atPos, w1, w2]
  congr 1
  simp

theorem update_finish {c0 : Cursor} {rs rst : List Int} (hR : Ready c0 rs rst) (k : Int) (r : Nat)
    (always fin : Bool) (hk : 0 ≤ k) (h : k % c0.size + r = c0.size)
    (hn : k + r = c0.size * rs.prod) :
    (TH_TENSOR_APPLYX_UPDATE_COUNTERS ((c0.atPos rs rst k).adv r) always fin).brk = true ∨
    (TH_TENSOR_APPLYX_UPDATE_COUNTERS ((c0.atPos rs rst k).adv r) always fin).hasFinished = true := by
  have hs := hR.size_pos
  have hdm := Int.emod_add_ediv k c0.size
  have hq0 : 0 ≤ k / c0.size := Int.ediv_nonneg hk (by omega)
  have hprod : k / c0.size + 1 = rs.prod := by
    have h3 : c0.size * (k / c0.size + 1) = c0.size * rs.prod := by
      rw [mul_add]; omega
    exact mul_left_cancel₀ (by omega : c0.size ≠ 0) h3
  have hi : ((c0.atPos rs rst k).adv r).i = ((c0.atPos rs rst k).adv r).size := by
    simp only [Cursor.adv, Cursor.atPos]; omega
  unfold TH_TENSOR_APPLYX_UPDATE_COUNTERS
  rw [if_pos (Or.inl hi)]
  by_cases hc : ((c0.atPos rs rst k).adv r).contiguous = true
  · left; rw [if_pos hc]
  · rw [if_neg hc]
    by_cases hd : ((c0.atPos rs rst k).adv r).dim = 1
    · left; rw [if_pos hd]
    · right; rw [if_neg hd]
      have hrs : rs ≠ [] := by
        rintro rfl
        apply hd
        simp only [Cursor.adv, Cursor.atPos, hR.dim_eq]; rfl
      have hdim : ((c0.atPos rs rst k).adv r).dim - 1 = rs.length := by
        simp only [Cursor.adv, Cursor.atPos, hR.dim_eq]; omega
      simp only [hdim]
      exact carryLoop_finish rs (k / c0.size) _ fin [c0.size] [0] hrs hR.pos hq0 hprod
        hR.sizes_eq rfl

theorem foldl_range_succ {σ : Type} (f : σ → Nat → σ) (m : Nat) (s : σ) :
    (List.range (m + 1)).foldl f s = (List.range m).foldl (fun s t => f s (t + 1)) (f s 0) := by
  rw [List.range_succ_eq_map, List.foldl_cons, List.foldl_map]

theorem innerLoop1_spec {σ : Type} (CODE : Cursor → σ → σ) :
    ∀ (m : Nat) (c : Cursor) (s : σ), c.size - c.i = (m : Int) →
      innerLoop1 CODE m c s
        = (c.adv m, (List.range m).foldl (fun s t => CODE (c.adv t) s) s) := by
  intro m
  induction m with
  | zero => intro c s _; simp [innerLoop1, adv_zero]
  | succ m ih =>
    intro c s h
    have hlt : c.i < c.size := by push_cast at h; omega
    rw [innerLoop1, if_pos hlt, ih c.next (CODE c s) (by
      simp only [Cursor.next]; push_cast at h; omega)]
    rw [foldl_range_succ]
    simp only [next_adv, adv_zero]

theorem innerLoop2_spec {σ : Type} (CODE : Cursor → Cursor → σ → σ) :
    ∀ (fuel r : Nat) (c1 c2 : Cursor) (s : σ), r ≤ fuel →
      c1.i + r ≤ c1.size → c2.i + r ≤ c2.size →
      (c1.i + r = c1.size ∨ c2.i + r = c2.size) →
      innerLoop2 CODE fuel c1 c2 s
        = (c1.adv r, c2.adv r,
            (List.range r).foldl (fun s t => CODE (c1.adv t) (c2.adv t) s) s) := by
  intro fuel
  induction fuel with
  | zero =>
    intro r c1 c2 s hr _ _ _
    obtain rfl : r = 0 := by omega
    simp [innerLoop2, adv_zero]
  | succ fuel ih =>
    intro r c1 c2 s hr h1 h2 hor
    cases r with
    | zero =>
      have hn : ¬ (c1.i < c1.size ∧ c2.i < c2.size) := by
        simp only [Nat.cast_zero, add_zero] at hor; omega
      rw [innerLoop2, if_neg hn]
      simp [adv_zero]
    | succ r =>
      have hy : c1.i < c1.size ∧ c2.i < c2.size := by
        push_cast at h1 h2; omega
      rw [innerLoop2, if_pos hy, ih r c1.next c2.next (CODE c1 c2 s) (by omega)
        (by simp only [Cursor.next]; push_cast at h1; omega)
        (by simp only [Cursor.next]; push_cast at h2; omega)
        (by simp only [Cursor.next]; push_cast at hor; omega)]
      rw [foldl_range_succ]
      simp only [next_adv, adv_zero]

theorem innerLoop3_spec {σ : Type} (CODE : Cursor → Cursor → Cursor → σ → σ) :
    ∀ (fuel r : Nat) (c1 c2 c3 : Cursor) (s : σ), r ≤ fuel →
      c1.i + r ≤ c1.size → c2.i + r ≤ c2.size → c3.i + r ≤ c3.size →
      (c1.i + r = c1.size ∨ c2.i + r = c2.size ∨ c3.i + r = c3.size) →
      innerLoop3 CODE fuel c1 c2 c3 s
        = (c1.adv r, c2.adv r, c3.adv r,
            (List.range r).foldl (fun s t => CODE (c1.adv t) (c2.adv t) (c3.adv t) s) s) := by
  intro fuel
  induction fuel with
  | zero =>
    intro r c1 c2 c3 s hr _ _ _ _
    obtain rfl : r = 0 := by omega
    simp [innerLoop3, adv_zero]
  | succ fuel ih =>
    intro r c1 c2 c3 s hr h1 h2 h3 hor
    cases r with
    | zero =>
      have hn : ¬ (c1.i < c1.size ∧ c2.i < c2.size ∧ c3.i < c3.size) := by
        simp only [Nat.cast_zero, add_zero] at hor; omega
      rw [innerLoop3, if_neg hn]
      simp [adv_zero]
    | succ r =>
      have hy : c1.i < c1.size ∧ c2.i < c2.size ∧ c3.i < c3.size := by
        push_cast at h1 h2 h3; omega
      rw [innerLoop3, if_pos hy, ih r c1.next c2.next c3.next (CODE c1 c2 c3 s) (by omega)
        (by simp only [Cursor.next]; push_cast at h1; omega)
        (by simp only [Cursor.next]; push_cast at h2; omega)
        (by simp only [Cursor.next]; push_cast at h3; omega)
        (by simp only [Cursor.next]; push_cast at hor; omega)]
      rw [foldl_range_succ]
      simp only [next_adv, adv_zero]

/-- Room left in the current run never exceeds the room left in the traversal. -/
theorem run_room {c0 : Cursor} {rs rst : List Int} (hR : Ready c0 rs rst) (k : Int)
    (hlt : k < c0.size * rs.prod) :
    k + (c0.size - k % c0.size) ≤ c0.size * rs.prod := by
  have hs := hR.size_pos
  have hdm := Int.emod_add_ediv k c0.size
  have hq : k / c0.size < rs.prod := by
    rw [Int.ediv_lt_iff_lt_mul (by omega)]
    rw [mul_comm]; exact hlt
  have : c0.size * (k / c0.size + 1) ≤ c0.size * rs.prod :=
    mul_le_mul_of_nonneg_left (by omega) (by omega)
  rw [mul_add] at this
  omega

theorem update_after {c0 : Cursor} {rs rst : List Int} (hR : Ready c0 rs rst) (k r : Nat)
    (always fin : Bool) (hr : 1 ≤ r) (hle : (k : Int) % c0.size + r ≤ c0.size)
    (hal : always = true → (k : Int) % c0.size + r = c0.size) :
    ((k : Int) + r < c0.size * rs.prod →
      TH_TENSOR_APPLYX_UPDATE_COUNTERS ((c0.atPos rs rst k).adv r) always fin
        = ⟨c0.atPos rs rst ((k + r : Nat) : Int), fin, false⟩) ∧
    ((k : Int) + r = c0.size * rs.prod →
      (TH_TENSOR_APPLYX_UPDATE_COUNTERS ((c0.atPos rs rst k).adv r) always fin).brk = true ∨
      (TH_TENSOR_APPLYX_UPDATE_COUNTERS ((c0.atPos rs rst k).adv r) always fin).hasFinished
        = true) := by
  have hs := hR.size_pos
  constructor
  · intro hlt
    by_cases hb : (k : Int) % c0.size + r = c0.size
    · rw [update_carry hR k r always fin (Int.ofNat_nonneg k) hb hlt]
      simp
    · have hlt2 : (k : Int) % c0.size + r < c0.size := by omega
      cases always with
      | true => exact absurd (hal rfl) hb
      | false =>
        rw [update_stay k r fin hlt2, adv_atPos hR k r hlt2]
        simp
  · intro heq
    have hb : (k : Int) % c0.size + r = c0.size := by
      by_contra hb
      have hlt2 : (k : Int) % c0.size + r < c0.size := by omega
      obtain ⟨w1, _⟩ := divmod_within hs (Int.ofNat_nonneg r) hlt2
      have hm : ((k : Int) + r) % c0.size = 0 := by
        rw [heq]; exact Int.mul_emod_right _ _
      have := Int.emod_nonneg (k : Int) (by omega : c0.size ≠ 0)
      omega
    exact update_finish hR k r always fin (Int.ofNat_nonneg k) hb heq

theorem foldl_range_shift {σ : Type} (g h : Nat → σ → σ) (k r : Nat) (s : σ)
    (hgh : ∀ t, t < r → g t = h (k + t)) :
    (List.range r).foldl (fun s t => g t s) s = (List.range' k r).foldl (fun s j => h j s) s := by
  rw [List.range'_eq_map_range, List.foldl_map]
  apply List.foldl_ext
  intro a b hb
  rw [hgh b (List.mem_range.mp hb)]

theorem whileLoop1_run {σ : Type} (CODE : Cursor → σ → σ) {c0 : Cursor} {rs rst : List Int}
    (hR : Ready c0 rs rst) (N : Nat) (hN : (N : Int) = c0.size * rs.prod) :
    ∀ (rem k fuel : Nat) (s : σ), 1 ≤ rem → k + rem = N → (k : Int) % c0.size = 0 →
      rem ≤ fuel →
      whileLoop1 CODE fuel (c0.atPos rs rst k) false s
        = some ((List.range' k rem).foldl (fun s j => CODE (c0.atPos rs rst (j : Nat)) s) s) := by
  intro rem
  induction rem using Nat.strong_induction_on with
  | _ rem ih =>
    intro k fuel s h1 hk hmod hfuel
    have hs := hR.size_pos
    obtain ⟨m, hm⟩ : ∃ m : Nat, (m : Int) = c0.size := ⟨c0.size.toNat, by omega⟩
    cases fuel with
    | zero => omega
    | succ fuel =>
      have hroom := run_room hR (k : Int) (by rw [← hN]; omega)
      rw [hmod, ← hN] at hroom
      have hkm : k + m ≤ N := by omega
      have hinner : ((c0.atPos rs rst k).size - (c0.atPos rs rst k).i).toNat = m := by
        simp only [Cursor.atPos, hmod]; omega
      have hinner2 : (c0.atPos rs rst k).size - (c0.atPos rs rst k).i = (m : Int) := by
        simp only [Cursor.atPos, hmod]; omega
      have hfold : (List.range m).foldl (fun s t => CODE ((c0.atPos rs rst k).adv t) s) s
          = (List.range' k m).foldl (fun s j => CODE (c0.atPos rs rst (j : Nat)) s) s := by
        apply foldl_range_shift (fun t => CODE ((c0.atPos rs rst k).adv t))
          (fun j => CODE (c0.atPos rs rst (j : Nat)))
        intro t ht
        rw [adv_atPos hR k t (by rw [hmod]; omega)]
        simp
      have hupd := update_after hR k m true false (by omega) (by rw [hmod]; omega)
        (fun _ => by rw [hmod]; omega)
      rw [whileLoop1]
      simp only [Bool.false_eq_true, if_false]
      rw [hinner, innerLoop1_spec CODE m _ s hinner2, hfold]
      by_cases hlast : k + m = N
      · have hrem : rem = m := by omega
        have hfin := hupd.2 (by rw [← hN, ← hlast]; push_cast; rfl)
        subst hrem
        rcases hfin with hb | hf
        · rw [if_pos hb]
        · by_cases hb : (TH_TENSOR_APPLYX_UPDATE_COUNTERS ((c0.atPos rs rst k).adv rem)
              true false).brk = true
          · rw [if_pos hb]
          · rw [if_neg hb, hf]
            cases fuel <;> simp [whileLoop1]
      · have hlt : (k : Int) + m < c0.size * rs.prod := by
          rw [← hN]; omega
        rw [hupd.1 hlt]
        simp only [Bool.false_eq_true, if_false]
        rw [ih (rem - m) (by omega) (k + m) fuel _ (by omega) (by omega)
          (by
            push_cast
            obtain ⟨w, _⟩ := divmod_boundary (k := (k : Int)) (r := (m : Int)) hs
              (by rw [hmod]; omega)
            exact w)
          (by omega)]
        rw [← List.foldl_append]
        congr 1
        have := List.range'_append_1 k m (rem - m)
        rw [this, show rem - m + m = rem by omega]

theorem whileLoop_done2 {σ : Type} (CODE : Cursor → Cursor → σ → σ) (fuel : Nat)
    (c1 c2 : Cursor) (s : σ) : whileLoop2 CODE fuel c1 c2 true s = some s := by
  cases fuel <;> simp [whileLoop2]

theorem whileLoop_done3 {σ : Type} (CODE : Cursor → Cursor → Cursor → σ → σ) (fuel : Nat)
    (c1 c2 c3 : Cursor) (s : σ) : whileLoop3 CODE fuel c1 c2 c3 true s = some s := by
  cases fuel <;> simp [whileLoop3]

theorem whileLoop2_run {σ : Type} (CODE : Cursor → Cursor → σ → σ)
    {c1 c2 : Cursor} {rs1 rst1 rs2 rst2 : List Int}
    (hR1 : Ready c1 rs1 rst1) (hR2 : Ready c2 rs2 rst2) (N : Nat)
    (hN1 : (N : Int) = c1.size * rs1.prod) (hN2 : (N : Int) = c2.size * rs2.prod) :
    ∀ (rem k fuel : Nat) (s : σ), 1 ≤ rem → k + rem = N → rem ≤ fuel →
      whileLoop2 CODE fuel (c1.atPos rs1 rst1 k) (c2.atPos rs2 rst2 k) false s
        = some ((List.range' k rem).foldl
            (fun s j => CODE (c1.atPos rs1 rst1 (j : Nat)) (c2.atPos rs2 rst2 (j : Nat)) s) s) := by
  intro rem
  induction rem using Nat.strong_induction_on with
  | _ rem ih =>
    intro k fuel s h1 hk hfuel
    have hs1 := hR1.size_pos
    have hs2 := hR2.size_pos
    have hm1 := Int.emod_nonneg (k : Int) (by omega : c1.size ≠ 0)
    have hm2 := Int.emod_nonneg (k : Int) (by omega : c2.size ≠ 0)
    have hl1 := Int.emod_lt_of_pos (k : Int) (by omega : 0 < c1.size)
    have hl2 := Int.emod_lt_of_pos (k : Int) (by omega : 0 < c2.size)
    obtain ⟨a1, ha1⟩ : ∃ a : Nat, (a : Int) = c1.size - (k : Int) % c1.size :=
      ⟨(c1.size - (k : Int) % c1.size).toNat, by omega⟩
    obtain ⟨a2, ha2⟩ : ∃ a : Nat, (a : Int) = c2.size - (k : Int) % c2.size :=
      ⟨(c2.size - (k : Int) % c2.size).toNat, by omega⟩
    have hroom1 := run_room hR1 (k : Int) (by rw [← hN1]; omega)
    have hroom2 := run_room hR2 (k : Int) (by rw [← hN2]; omega)
    rw [← hN1, ← ha1] at hroom1
    rw [← hN2, ← ha2] at hroom2
    obtain ⟨r, hr⟩ : ∃ r : Nat, r = min a1 a2 := ⟨_, rfl⟩
    have hr1 : 1 ≤ r := by omega
    have hrN : k + r ≤ N := by omega
    cases fuel with
    | zero => omega
    | succ fuel =>
      have hinner : ((c1.atPos rs1 rst1 k).size - (c1.atPos rs1 rst1 k).i).toNat = a1 := by
        simp only [Cursor.atPos]; omega
      have hfold : (List.range r).foldl (fun s t =>
            CODE ((c1.atPos rs1 rst1 k).adv t) ((c2.atPos rs2 rst2 k).adv t) s) s
          = (List.range' k r).foldl (fun s j =>
            CODE (c1.atPos rs1 rst1 (j : Nat)) (c2.atPos rs2 rst2 (j : Nat)) s) s := by
        apply foldl_range_shift
          (fun t => CODE ((c1.atPos rs1 rst1 k).adv t) ((c2.atPos rs2 rst2 k).adv t))
          (fun j => CODE (c1.atPos rs1 rst1 (j : Nat)) (c2.atPos rs2 rst2 (j : Nat)))
        intro t ht
        rw [adv_atPos hR1 k t (by omega), adv_atPos hR2 k t (by omega)]
        simp
      have hupd1 := fun fin => update_after hR1 k r false fin hr1 (by omega)
        (fun h => by simp at h)
      have hupd2 := fun fin => update_after hR2 k r false fin hr1 (by omega)
        (fun h => by simp at h)
      rw [whileLoop2]
      simp only [Bool.false_eq_true, if_false]
      rw [hinner, innerLoop2_spec CODE a1 r _ _ s (by omega)
        (by simp only [Cursor.atPos]; omega) (by simp only [Cursor.atPos]; omega)
        (by simp only [Cursor.atPos]; omega), hfold]
      simp only []
      by_cases hlast : k + r = N
      · have hrem : rem = r := by omega
        subst hrem
        have hf1 := (hupd1 false).2 (by rw [← hN1, ← hlast]; push_cast; rfl)
        by_cases hb1 : (TH_TENSOR_APPLYX_UPDATE_COUNTERS ((c1.atPos rs1 rst1 k).adv rem)
            false false).brk = true
        · rw [if_pos hb1]
        · rw [if_neg hb1]
          have hf1' := hf1.resolve_left hb1
          rw [hf1']
          have hf2 := (hupd2 true).2 (by rw [← hN2, ← hlast]; push_cast; rfl)
          by_cases hb2 : (TH_TENSOR_APPLYX_UPDATE_COUNTERS ((c2.atPos rs2 rst2 k).adv rem)
              false true).brk = true
          · rw [if_pos hb2]
          · rw [if_neg hb2, hf2.resolve_left hb2, whileLoop_done2]
      · rw [(hupd1 false).1 (by rw [← hN1]; omega)]
        simp only [Bool.false_eq_true, if_false]
        rw [(hupd2 false).1 (by rw [← hN2]; omega)]
        simp only [Bool.false_eq_true, if_false]
        rw [ih (rem - r) (by omega) (k + r) fuel _ (by omega) (by omega) (by omega)]
        rw [← List.foldl_append]
        have := List.range'_append_1 k r (rem - r)
        rw [this, show rem - r + r = rem by omega]

theorem whileLoop3_run {σ : Type} (CODE : Cursor → Cursor → Cursor → σ → σ)
    {c1 c2 c3 : Cursor} {rs1 rst1 rs2 rst2 rs3 rst3 : List Int}
    (hR1 : Ready c1 rs1 rst1) (hR2 : Ready c2 rs2 rst2) (hR3 : Ready c3 rs3 rst3) (N : Nat)
    (hN1 : (N : Int) = c1.size * rs1.prod) (hN2 : (N : Int) = c2.size * rs2.prod)
    (hN3 : (N : Int) = c3.size * rs3.prod) :
    ∀ (rem k fuel : Nat) (s : σ), 1 ≤ rem → k + rem = N → rem ≤ fuel →
      whileLoop3 CODE fuel (c1.atPos rs1 rst1 k) (c2.atPos rs2 rst2 k) (c3.atPos rs3 rst3 k)
          false s
        = some ((List.range' k rem).foldl
            (fun s j => CODE (c1.atPos rs1 rst1 (j : Nat)) (c2.atPos rs2 rst2 (j : Nat))
              (c3.atPos rs3 rst3 (j : Nat)) s) s) := by
  intro rem
  induction rem using Nat.strong_induction_on with
  | _ rem ih =>
    intro k fuel s h1 hk hfuel
    have hs1 := hR1.size_pos
    have hs2 := hR2.size_pos
    have hs3 := hR3.size_pos
    have hm1 := Int.emod_nonneg (k : Int) (by omega : c1.size ≠ 0)
    have hm2 := Int.emod_nonneg (k : Int) (by omega : c2.size ≠ 0)
    have hm3 := Int.emod_nonneg (k : Int) (by omega : c3.size ≠ 0)
    have hl1 := Int.emod_lt_of_pos (k : Int) (by omega : 0 < c1.size)
    have hl2 := Int.emod_lt_of_pos (k : Int) (by omega : 0 < c2.size)
    have hl3 := Int.emod_lt_of_pos (k : Int) (by omega : 0 < c3.size)
    obtain ⟨a1, ha1⟩ : ∃ a : Nat, (a : Int) = c1.size - (k : Int) % c1.size :=
      ⟨(c1.size - (k : Int) % c1.size).toNat, by omega⟩
    obtain ⟨a2, ha2⟩ : ∃ a : Nat, (a : Int) = c2.size - (k : Int) % c2.size :=
      ⟨(c2.size - (k : Int) % c2.size).toNat, by omega⟩
    obtain ⟨a3, ha3⟩ : ∃ a : Nat, (a : Int) = c3.size - (k : Int) % c3.size :=
      ⟨(c3.size - (k : Int) % c3.size).toNat, by omega⟩
    have hroom1 := run_room hR1 (k : Int) (by rw [← hN1]; omega)
    have hroom2 := run_room hR2 (k : Int) (by rw [← hN2]; omega)
    have hroom3 := run_room hR3 (k : Int) (by rw [← hN3]; omega)
    rw [← hN1, ← ha1] at hroom1
    rw [← hN2, ← ha2] at hroom2
    rw [← hN3, ← ha3] at hroom3
    obtain ⟨r, hr⟩ : ∃ r : Nat, r = min a1 (min a2 a3) := ⟨_, rfl⟩
    have hr1 : 1 ≤ r := by omega
    have hrN : k + r ≤ N := by omega
    cases fuel with
    | zero => omega
    | succ fuel =>
      have hinner : ((c1.atPos rs1 rst1 k).size - (c1.atPos rs1 rst1 k).i).toNat = a1 := by
        simp only [Cursor.atPos]; omega
      have hfold : (List.range r).foldl (fun s t =>
            CODE ((c1.atPos rs1 rst1 k).adv t) ((c2.atPos rs2 rst2 k).adv t)
              ((c3.atPos rs3 rst3 k).adv t) s) s
          = (List.range' k r).foldl (fun s j =>
            CODE (c1.atPos rs1 rst1 (j : Nat)) (c2.atPos rs2 rst2 (j : Nat))
              (c3.atPos rs3 rst3 (j : Nat)) s) s := by
        apply foldl_range_shift
          (fun t => CODE ((c1.atPos rs1 rst1 k).adv t) ((c2.atPos rs2 rst2 k).adv t)
            ((c3.atPos rs3 rst3 k).adv t))
          (fun j => CODE (c1.atPos rs1 rst1 (j : Nat)) (c2.atPos rs2 rst2 (j : Nat))
            (c3.atPos rs3 rst3 (j : Nat)))
        intro t ht
        rw [adv_atPos hR1 k t (by omega), adv_atPos hR2 k t (by omega),
          adv_atPos hR3 k t (by omega)]
        simp
      have hupd1 := fun fin => update_after hR1 k r false fin hr1 (by omega)
        (fun h => by simp at h)
      have hupd2 := fun fin => update_after hR2 k r false fin hr1 (by omega)
        (fun h => by simp at h)
      have hupd3 := fun fin => update_after hR3 k r false fin hr1 (by omega)
        (fun h => by simp at h)
      rw [whileLoop3]
      simp only [Bool.false_eq_true, if_false]
      rw [hinner, innerLoop3_spec CODE a1 r _ _ _ s (by omega)
        (by simp only [Cursor.atPos]; omega) (by simp only [Cursor.atPos]; omega)
        (by simp only [Cursor.atPos]; omega)
        (by simp only [Cursor.atPos]; omega), hfold]
      simp only []
      by_cases hlast : k + r = N
      · have hrem : rem = r := by omega
        subst hrem
        have hf1 := (hupd1 false).2 (by rw [← hN1, ← hlast]; push_cast; rfl)
        by_cases hb1 : (TH_TENSOR_APPLYX_UPDATE_COUNTERS ((c1.atPos rs1 rst1 k).adv rem)
            false false).brk = true
        · rw [if_pos hb1]
        · rw [if_neg hb1]
          have hf1' := hf1.resolve_left hb1
          rw [hf1']
          have hf2 := (hupd2 true).2 (by rw [← hN2, ← hlast]; push_cast; rfl)
          by_cases hb2 : (TH_TENSOR_APPLYX_UPDATE_COUNTERS ((c2.atPos rs2 rst2 k).adv rem)
              false true).brk = true
          · rw [if_pos hb2]
          · rw [if_neg hb2, hf2.resolve_left hb2]
            have hf3 := (hupd3 true).2 (by rw [← hN3, ← hlast]; push_cast; rfl)
            by_cases hb3 : (TH_TENSOR_APPLYX_UPDATE_COUNTERS ((c3.atPos rs3 rst3 k).adv rem)
                false true).brk = true
            · rw [if_pos hb3]
            · rw [if_neg hb3, hf3.resolve_left hb3, whileLoop_done3]
      · rw [(hupd1 false).1 (by rw [← hN1]; omega)]
        simp only [Bool.false_eq_true, if_false]
        rw [(hupd2 false).1 (by rw [← hN2]; omega)]
        simp only [Bool.false_eq_true, if_false]
        rw [(hupd3 false).1 (by rw [← hN3]; omega)]
        simp only [Bool.false_eq_true, if_false]
        rw [ih (rem - r) (by omega) (k + r) fuel _ (by omega) (by omega) (by omega)]
        rw [← List.foldl_append]
        have := List.range'_append_1 k r (rem - r)
        rw [this, show rem - r + r = rem by omega]

theorem rowMajor_eq_nested (sizes : List Int) :
    ∀ (strides : List Int) (base : Int), strides.length = sizes.length →
      (rowMajorIndices sizes).map (fun idx => base + dot idx strides)
        = nested (sizes.zip strides) base := by
  induction sizes with
  | nil => intro strides base h; simp [rowMajorIndices, nested, dot]
  | cons s sizes ih =>
    intro strides base h
    cases strides with
    | nil => simp at h
    | cons st strides =>
      rw [List.zip_cons_cons]
      simp only [rowMajorIndices, nested, List.map_flatMap, List.map_map]
      congr 1
      funext a
      rw [← ih strides (base + a * st) (by simpa using h)]
      apply List.map_congr_left
      intro idx _
      simp only [Function.comp, dot]
      ring

theorem nested_snoc (ds : List (Int × Int)) (s st : Int) :
    ∀ base, nested (ds ++ [(s, st)]) base
      = (nested ds base).flatMap fun b =>
          (List.range s.toNat).map fun (a : Nat) => b + (a : Int) * st := by
  induction ds with
  | nil =>
    intro base
    simp only [List.nil_append, nested, List.flatMap_cons, List.flatMap_nil, List.append_nil]
    induction (List.range s.toNat) with
    | nil => rfl
    | cons a l ih => simp [List.flatMap_cons, ih]
  | cons d ds ih =>
    intro base
    obtain ⟨s', st'⟩ := d
    simp only [List.cons_append, nested, List.flatMap_assoc]
    congr 1
    funext a
    exact ih _

theorem nested_eq_nestedRev (ds : List (Int × Int)) :
    ∀ base, nested ds base = nestedRev ds.reverse base := by
  induction ds using List.reverseRecOn with
  | nil => intro base; rfl
  | append_singleton ds d ih =>
    intro base
    obtain ⟨s, st⟩ := d
    rw [nested_snoc]
    simp [nestedRev, ih]

theorem range_mul_map {β : Type} (f : Nat → Nat → β) (s : Nat) (hs : 1 ≤ s) (P : Nat) :
    (List.range (P * s)).map (fun k => f (k / s) (k % s))
      = (List.range P).flatMap fun q => (List.range s).map fun a => f q a := by
  induction P with
  | zero => simp
  | succ P ih =>
    rw [Nat.succ_mul, List.range_add, List.map_append, ih, List.range_succ, List.flatMap_append]
    congr 1
    simp only [List.flatMap_cons, List.flatMap_nil, List.append_nil, List.map_map]
    apply List.map_congr_left
    intro a ha
    have ha' := List.mem_range.mp ha
    simp only [Function.comp]
    have h1 : (P * s + a) / s = P := by
      rw [Nat.add_comm, Nat.add_mul_div_right _ _ (by omega), Nat.div_eq_of_lt ha']; simp
    have h2 : (P * s + a) % s = a := by
      rw [Nat.add_comm, Nat.add_mul_mod_self_right, Nat.mod_eq_of_lt ha']
    rw [h1, h2]

theorem prod_pos_of_pos (l : List Int) (h : ∀ s ∈ l, 1 ≤ s) : 1 ≤ l.prod := by
  induction l with
  | nil => simp
  | cons a l ih =>
    have ha := h a (by simp)
    have hl := ih (fun s hs => h s (by simp [hs]))
    rw [List.prod_cons]
    nlinarith

theorem positions_eq_nestedRev (sizes : List Int) :
    ∀ (strides : List Int) (base : Int), strides.length = sizes.length →
      (∀ s ∈ sizes, 1 ≤ s) →
      (List.range sizes.prod.toNat).map (fun k => base + dot (digitsRev sizes (k : Nat)) strides)
        = nestedRev (sizes.zip strides) base := by
  induction sizes with
  | nil => intro strides base _ _; simp [digitsRev, dot, nestedRev]
  | cons s sizes ih =>
    intro strides base hlen hpos
    cases strides with
    | nil => simp at hlen
    | cons st strides =>
      have hs : 1 ≤ s := hpos s (by simp)
      have hP := prod_pos_of_pos sizes (fun x hx => hpos x (by simp [hx]))
      obtain ⟨sn, hsn⟩ : ∃ n : Nat, (n : Int) = s := ⟨s.toNat, by omega⟩
      obtain ⟨Pn, hPn⟩ : ∃ n : Nat, (n : Int) = sizes.prod := ⟨sizes.prod.toNat, by omega⟩
      have e1 : (s :: sizes).prod.toNat = Pn * sn := by
        rw [List.prod_cons, ← hsn, ← hPn, ← Int.natCast_mul, Int.toNat_natCast, Nat.mul_comm]
      rw [List.zip_cons_cons]
      simp only [nestedRev]
      rw [← ih strides base (by simpa using hlen) (fun x hx => hpos x (by simp [hx]))]
      rw [e1, ← hPn, Int.toNat_natCast, ← hsn, Int.toNat_natCast, List.flatMap_map]
      rw [← range_mul_map (fun q a => base + dot (digitsRev sizes (q : Nat)) strides + (a : Nat) * st)
        sn (by omega) Pn]
      apply List.map_congr_left
      intro k _
      simp only [digitsRev, dot]
      push_cast
      ring

theorem mergesAt_eq (T : THTensor) (DIM : Int) (i : Nat) :
    mergesAt T DIM i = sameRun T DIM i := by
  simp only [mergesAt, sameRun, Bool.decide_and, Bool.and_assoc]

theorem splitsAt_eq (T : THTensor) (DIM : Int) (i : Nat) :
    splitsAt T DIM i = !sameRun T DIM i := by
  simp only [splitsAt, sameRun, Bool.decide_and, Bool.not_and, Bool.or_assoc, ne_eq,
    decide_not, Bool.not_not]

theorem groupRuns_ne_nil (same : Nat → Bool) (i : Nat) (l : List Nat) :
    groupRuns same (i :: l) ≠ [] := by
  cases l with
  | nil => simp [groupRuns]
  | cons j rest =>
    rw [groupRuns]
    split
    · simp
    · split <;> simp

theorem groupRuns_cons_cons (same : Nat → Bool) (i j : Nat) (rest : List Nat) :
    ∃ r rs, groupRuns same (j :: rest) = r :: rs ∧
      groupRuns same (i :: j :: rest)
        = if same i then (i :: r) :: rs else [i] :: r :: rs := by
  cases h : groupRuns same (j :: rest) with
  | nil => exact absurd h (groupRuns_ne_nil same j rest)
  | cons r rs =>
    refine ⟨r, rs, rfl, ?_⟩
    rw [groupRuns, h]

theorem groupRuns_flatten (same : Nat → Bool) (l : List Nat) :
    (groupRuns same l).flatten = l := by
  induction l with
  | nil => rfl
  | cons i l ih =>
    cases l with
    | nil => simp [groupRuns]
    | cons j rest =>
      obtain ⟨r, rs, h1, h2⟩ := groupRuns_cons_cons same i j rest
      rw [h2]
      rw [h1] at ih
      split
      · simpa using ih
      · simpa using ih

theorem groupRuns_mem_ne_nil (same : Nat → Bool) (l : List Nat) :
    ∀ g ∈ groupRuns same l, g ≠ [] := by
  induction l with
  | nil => intro g hg; simp [groupRuns] at hg
  | cons i l ih =>
    cases l with
    | nil => intro g hg; simp [groupRuns] at hg; simp [hg]
    | cons j rest =>
      obtain ⟨r, rs, h1, h2⟩ := groupRuns_cons_cons same i j rest
      rw [h1] at ih
      rw [h2]
      intro g hg
      split at hg
      · rcases List.mem_cons.mp hg with rfl | hg
        · simp
        · exact ih g (List.mem_cons_of_mem _ hg)
      · rcases List.mem_cons.mp hg with rfl | hg
        · simp
        · exact ih g hg

theorem dimLoop_acc (T : THTensor) (DIM : Int) (k : Nat) :
    ∀ a, dimLoop T DIM k a = a + dimLoop T DIM k 0 := by
  induction k with
  | zero => intro a; simp [dimLoop]
  | succ k ih =>
    intro a
    simp only [dimLoop]
    rw [ih (if splitsAt T DIM k = true then a + 1 else a),
      ih (if splitsAt T DIM k = true then 0 + 1 else 0)]
    split <;> omega

theorem dimLoop_succ (T : THTensor) (DIM : Int) (k : Nat) :
    dimLoop T DIM (k + 1) 0
      = (if sameRun T DIM k then 0 else 1) + dimLoop T DIM k 0 := by
  rw [dimLoop, dimLoop_acc, splitsAt_eq]
  cases sameRun T DIM k <;> simp

theorem runSize_cons (T : THTensor) (i : Nat) (g : List Nat) :
    runSize T (i :: g) = T.size.getD i 0 * runSize T g := by
  simp [runSize]

theorem runStride_cons (T : THTensor) (i : Nat) (g : List Nat) (hg : g ≠ []) :
    runStride T (i :: g) = runStride T g := by
  cases g with
  | nil => exact absurd rfl hg
  | cons j g => simp [runStride, List.getLastD]

theorem runSize_single (T : THTensor) (i : Nat) : runSize T [i] = T.size.getD i 0 := by
  simp [runSize]

theorem runStride_single (T : THTensor) (i : Nat) : runStride T [i] = T.stride.getD i 0 := by
  simp [runStride]

theorem runsFrom_step (T : THTensor) (DIM : Int) (k : Nat) (hk : k + 1 < T.nDimension) :
    ∃ r rs, runsFrom T DIM (k + 1) = r :: rs ∧
      runsFrom T DIM k
        = if sameRun T DIM k then (k :: r) :: rs else [k] :: r :: rs := by
  have e1 : List.range' k (T.nDimension - k)
      = k :: (k + 1) :: List.range' (k + 2) (T.nDimension - k - 2) := by
    rw [show T.nDimension - k = (T.nDimension - k - 2) + 1 + 1 by omega]
    simp [List.range'_succ]
  have e2 : List.range' (k + 1) (T.nDimension - (k + 1))
      = (k + 1) :: List.range' (k + 2) (T.nDimension - k - 2) := by
    rw [show T.nDimension - (k + 1) = (T.nDimension - k - 2) + 1 by omega]
    simp [List.range'_succ]
  unfold runsFrom
  rw [e1, e2]
  exact groupRuns_cons_cons _ _ _ _

theorem runsFrom_last (T : THTensor) (DIM : Int) (k : Nat) (hk : k + 1 = T.nDimension) :
    runsFrom T DIM k = [[k]] := by
  unfold runsFrom
  rw [show T.nDimension - k = 1 by omega]
  simp [List.range'_succ, groupRuns]

theorem getD_replicate_append (c : Nat) (x : Int) (post : List Int) :
    (List.replicate c (0 : Int) ++ x :: post).getD c 0 = x := by
  have := getD_at_length (List.replicate c (0 : Int)) x post 0
  simpa using this

theorem set_replicate_append (c : Nat) (x y : Int) (post : List Int) :
    (List.replicate c (0 : Int) ++ x :: post).set c y = List.replicate c 0 ++ y :: post := by
  simp

theorem set_replicate_succ_append (c : Nat) (y : Int) (post : List Int) :
    (List.replicate (c + 1) (0 : Int) ++ post).set c y = List.replicate c 0 ++ y :: post := by
  rw [List.replicate_succ', List.append_assoc]
  exact set_replicate_append c 0 y post

theorem fillLoop_inv (T : THTensor) (DIM : Int) :
    ∀ (k : Nat) (st : FillState), k + 1 ≤ T.nDimension → FillInv T DIM k st →
      FillInv T DIM 0 (fillLoop T DIM k st) := by
  intro k
  induction k with
  | zero => intro st _ h; exact h
  | succ k ih =>
    intro st hk ⟨h1, h2, h3⟩
    obtain ⟨r, rs, e1, e2⟩ := runsFrom_step T DIM k (by omega)
    have hr : r ≠ [] := by
      apply groupRuns_mem_ne_nil (sameRun T DIM) (List.range' (k + 1) (T.nDimension - (k + 1)))
      unfold runsFrom at e1
      rw [e1]; simp
    rw [fillLoop, mergesAt_eq]
    rw [dimLoop_succ] at h1 h2 h3
    rw [e1] at h2 h3
    cases hs : sameRun T DIM k with
    | true =>
      simp only [hs, if_true, Nat.zero_add] at h1 h2 h3 e2 ⊢
      apply ih _ (by omega)
      refine ⟨h1, ?_, ?_⟩
      · simp only [h1, h2, List.map_cons, getD_replicate_append, set_replicate_append, e2,
          runSize_cons]
      · simp only [h3, List.map_cons, e2, runStride_cons T k r hr]
    | false =>
      simp only [hs, Bool.false_eq_true, if_false] at h1 h2 h3 e2 ⊢
      apply ih _ (by omega)
      have hd : st.dimIndex - 1 = dimLoop T DIM k 0 := by omega
      refine ⟨hd, ?_, ?_⟩
      · simp only [hd, h2, Nat.add_comm 1, set_replicate_succ_append, e2, List.map_cons,
          runSize_single]
      · simp only [hd, h3, Nat.add_comm 1, set_replicate_succ_append, e2, List.map_cons,
          runStride_single]

theorem fillLoop_length (T : THTensor) (DIM : Int) :
    ∀ (k : Nat) (st : FillState), (fillLoop T DIM k st).sizes.length = st.sizes.length := by
  intro k
  induction k with
  | zero => intro st; rfl
  | succ k ih =>
    intro st
    rw [fillLoop]
    split <;> rw [ih] <;> simp

theorem runsFrom_zero (T : THTensor) (DIM : Int) : runsFrom T DIM 0 = refRuns T DIM := by
  simp [runsFrom, refRuns, List.range_eq_range']

theorem dimLoop_zero (T : THTensor) (DIM : Int) (a : Nat) : dimLoop T DIM 0 a = a := rfl

/-- The fill loop started as in the preamble ends with the reference runs. -/
theorem fillLoop_preamble (T : THTensor) (DIM : Int) (hn : T.nDimension ≠ 0) (off : DimOffset) :
    let dim := dimLoop T DIM (T.nDimension - 1) 1
    let st := fillLoop T DIM (T.nDimension - 1)
      { dimIndex := dim - 1
        sizes := (List.replicate dim 0).set (dim - 1) (T.size.getD (T.nDimension - 1) 0)
        strides := (List.replicate dim 0).set (dim - 1) (T.stride.getD (T.nDimension - 1) 0)
        dimOffset := off }
    st.sizes = (refRuns T DIM).map (runSize T) ∧
    st.strides = (refRuns T DIM).map (runStride T) ∧
    dim = (refRuns T DIM).length := by
  intro dim st
  have hdim : dim = dimLoop T DIM (T.nDimension - 1) 0 + 1 := by
    show dimLoop T DIM (T.nDimension - 1) 1 = _
    rw [dimLoop_acc]; omega
  have hinv : FillInv T DIM 0 st := by
    apply fillLoop_inv T DIM _ _ (by omega)
    have hl := runsFrom_last T DIM (T.nDimension - 1) (by omega)
    refine ⟨by simp only [hdim]; omega, ?_, ?_⟩
    · simp only [hl, hdim, Nat.add_sub_cancel, List.map_cons, List.map_nil, runSize_single]
      rw [← List.append_nil (List.replicate (dimLoop T DIM (T.nDimension - 1) 0 + 1) 0)]
      exact set_replicate_succ_append _ _ _
    · simp only [hl, hdim, Nat.add_sub_cancel, List.map_cons, List.map_nil, runStride_single]
      rw [← List.append_nil (List.replicate (dimLoop T DIM (T.nDimension - 1) 0 + 1) 0)]
      exact set_replicate_succ_append _ _ _
  obtain ⟨_, h2, h3⟩ := hinv
  rw [dimLoop_zero, runsFrom_zero] at h2 h3
  simp only [List.replicate_zero, List.nil_append] at h2 h3
  refine ⟨h2, h3, ?_⟩
  have hlen := fillLoop_length T DIM (T.nDimension - 1)
    { dimIndex := dim - 1
      sizes := (List.replicate dim 0).set (dim - 1) (T.size.getD (T.nDimension - 1) 0)
      strides := (List.replicate dim 0).set (dim - 1) (T.stride.getD (T.nDimension - 1) 0)
      dimOffset := off }
  have h2' : (fillLoop T DIM (T.nDimension - 1)
      { dimIndex := dim - 1
        sizes := (List.replicate dim 0).set (dim - 1) (T.size.getD (T.nDimension - 1) 0)
        strides := (List.replicate dim 0).set (dim - 1) (T.stride.getD (T.nDimension - 1) 0)
        dimOffset := off }).sizes = (refRuns T DIM).map (runSize T) := h2
  rw [h2'] at hlen
  simpa using hlen.symm

theorem range_mul_flatMap {β : Type} (F : Nat → Nat → List β) (s : Nat) (hs : 1 ≤ s) (P : Nat) :
    (List.range (P * s)).flatMap (fun k => F (k / s) (k % s))
      = (List.range P).flatMap fun q => (List.range s).flatMap fun a => F q a := by
  induction P with
  | zero => simp
  | succ P ih =>
    rw [Nat.succ_mul, List.range_add, List.flatMap_append, ih, List.range_succ,
      List.flatMap_append]
    congr 1
    simp only [List.flatMap_cons, List.flatMap_nil, List.append_nil, List.flatMap_map]
    have : ∀ a ∈ List.range s, F ((P * s + a) / s) ((P * s + a) % s) = F P a := by
      intro a ha
      have ha' := List.mem_range.mp ha
      have h1 : (P * s + a) / s = P := by
        rw [Nat.add_comm, Nat.add_mul_div_right _ _ (by omega), Nat.div_eq_of_lt ha']; simp
      have h2 : (P * s + a) % s = a := by
        rw [Nat.add_comm, Nat.add_mul_mod_self_right, Nat.mod_eq_of_lt ha']
      rw [h1, h2]
    simp only [List.flatMap, List.map_congr_left this]

theorem nested_merge (s rsz rst : Int) (hs : 1 ≤ s) (hr : 1 ≤ rsz) (rest : List (Int × Int))
    (base : Int) :
    nested ((s * rsz, rst) :: rest) base
      = nested ((s, rst * rsz) :: (rsz, rst) :: rest) base := by
  obtain ⟨sn, rfl⟩ : ∃ n : Nat, (n : Int) = s := ⟨s.toNat, by omega⟩
  obtain ⟨rn, rfl⟩ : ∃ n : Nat, (n : Int) = rsz := ⟨rsz.toNat, by omega⟩
  simp only [nested]
  rw [← Int.natCast_mul, Int.toNat_natCast, Int.toNat_natCast, Int.toNat_natCast]
  rw [← range_mul_flatMap
    (fun q a => nested rest (base + (q : Int) * (rst * (rn : Int)) + (a : Int) * rst))
    rn (by omega) sn]
  congr 1
  funext k
  congr 1
  have := Nat.div_add_mod k rn
  have h2 : (k : Int) = (rn : Int) * ((k / rn : Nat) : Int) + ((k % rn : Nat) : Int) := by
    exact_mod_cast this.symm
  conv_lhs => rw [h2]
  ring

theorem nested_runs (T : THTensor) (DIM : Int)
    (hpos : ∀ j, j < T.nDimension → 1 ≤ T.size.getD j 0) :
    ∀ (m k : Nat), k + m + 1 = T.nDimension →
      (∀ base, nested ((runsFrom T DIM k).map (runPair T)) base
        = nested ((List.range' k (T.nDimension - k)).map (dimPair T)) base) ∧
      ∃ r rs, runsFrom T DIM k = r :: rs ∧
        runStride T r * runSize T r = T.stride.getD k 0 * T.size.getD k 0 ∧
        1 ≤ runSize T r := by
  intro m
  induction m with
  | zero =>
    intro k hk
    have hl := runsFrom_last T DIM k (by omega)
    rw [hl, show T.nDimension - k = 1 by omega]
    refine ⟨fun base => by simp [runPair, dimPair, runSize_single, runStride_single, List.range'_succ], [k], [],
      rfl, by simp [runSize_single, runStride_single], ?_⟩
    rw [runSize_single]; exact hpos k (by omega)
  | succ m ih =>
    intro k hk
    obtain ⟨hnest, r, rs, e1, hinv, hr1⟩ := ih (k + 1) (by omega)
    obtain ⟨r', rs', e1', e2⟩ := runsFrom_step T DIM k (by omega)
    rw [e1] at e1'
    obtain ⟨rfl, rfl⟩ : r = r' ∧ rs = rs' := by
      simpa using e1'
    have hrne : r ≠ [] := by
      apply groupRuns_mem_ne_nil (sameRun T DIM) (List.range' (k + 1) (T.nDimension - (k + 1)))
      unfold runsFrom at e1
      rw [e1]; simp
    have hrange : List.range' k (T.nDimension - k)
        = k :: List.range' (k + 1) (T.nDimension - (k + 1)) := by
      rw [show T.nDimension - k = (T.nDimension - (k + 1)) + 1 by omega]
      simp [List.range'_succ]
    have hsk := hpos k (by omega)
    rw [e1] at hnest
    cases hs : sameRun T DIM k with
    | true =>
      rw [hs] at e2
      simp only [if_true] at e2
      have hcond : T.stride.getD k 0 = T.stride.getD (k + 1) 0 * T.size.getD (k + 1) 0 := by
        simp only [sameRun, decide_eq_true_eq] at hs
        exact hs.1
      refine ⟨fun base => ?_, k :: r, rs, e2, ?_, ?_⟩
      · rw [e2, hrange]
        simp only [List.map_cons, runPair, runSize_cons, runStride_cons T k r hrne]
        rw [nested_merge _ _ _ hsk hr1]
        simp only [nested, dimPair]
        congr 1
        funext a
        have := hnest (base + (a : Int) * (runStride T r * runSize T r))
        simp only [List.map_cons, runPair, nested] at this
        rw [this, hcond, hinv]
      · rw [runSize_cons, runStride_cons T k r hrne, hcond, ← hinv]; ring
      · rw [runSize_cons]; nlinarith
    | false =>
      rw [hs] at e2
      simp only [Bool.false_eq_true, if_false] at e2
      refine ⟨fun base => ?_, [k], r :: rs, e2, by simp [runSize_single, runStride_single], ?_⟩
      · rw [e2, hrange]
        simp only [List.map_cons, runPair, runSize_single, runStride_single, nested, dimPair]
        congr 1
        funext a
        have := hnest (base + (a : Int) * T.stride.getD k 0)
        simp only [List.map_cons, runPair, nested] at this
        rw [this]
      · rw [runSize_single]; exact hsk

theorem groupRuns_mem_sub (same : Nat → Bool) (l : List Nat) (g : List Nat)
    (hg : g ∈ groupRuns same l) : ∀ j ∈ g, j ∈ l := by
  intro j hj
  rw [← groupRuns_flatten same l]
  exact List.mem_flatten.mpr ⟨g, hg, hj⟩

theorem runSize_pos (T : THTensor) (DIM : Int)
    (hpos : ∀ j, j < T.nDimension → 1 ≤ T.size.getD j 0) :
    ∀ g ∈ refRuns T DIM, 1 ≤ runSize T g := by
  intro g hg
  unfold runSize
  apply prod_pos_of_pos
  intro s hs
  obtain ⟨j, hj, rfl⟩ := List.mem_map.mp hs
  have := groupRuns_mem_sub _ _ g hg j hj
  exact hpos j (List.mem_range.mp this)

theorem prod_runs (T : THTensor) (G : List (List Nat)) :
    (G.map (runSize T)).prod = (G.flatten.map fun j => T.size.getD j 0).prod := by
  induction G with
  | nil => simp
  | cons g G ih => simp [runSize, ih, List.prod_append]

theorem map_getD_range (l : List Int) : (List.range l.length).map (fun j => l.getD j 0) = l := by
  apply List.ext_getElem
  · simp
  · intro i h1 h2
    simp [List.getD_eq_getElem?_getD, List.getElem?_eq_getElem h2]

theorem foldl_mul_eq (l : List Int) (a : Int) : l.foldl (fun n s => n * s) a = a * l.prod := by
  induction l generalizing a with
  | nil => simp
  | cons x l ih => simp [ih, mul_assoc]

theorem elementCount_eq (T : THTensor) (hn : T.nDimension ≠ 0) :
    elementCount T = T.size.prod := by
  simp [elementCount, foldl_mul_eq, hn]

theorem prod_refRuns (T : THTensor) (DIM : Int) :
    ((refRuns T DIM).map (runSize T)).prod = T.size.prod := by
  rw [prod_runs, refRuns, groupRuns_flatten]
  unfold THTensor.nDimension
  rw [map_getD_range]

theorem map_dimPair_range (T : THTensor) (h : T.WF) :
    (List.range T.nDimension).map (dimPair T) = T.size.zip T.stride := by
  unfold THTensor.WF at h
  apply List.ext_getElem
  · simp [THTensor.nDimension, h]
  · intro i h1 h2
    have h3 : i < T.size.length := by simpa [THTensor.nDimension] using h1
    have h4 : i < T.stride.length := by omega
    simp [dimPair, List.getD_eq_getElem?_getD, List.getElem?_eq_getElem h3,
      List.getElem?_eq_getElem h4]

theorem digitsRev_zero (rs : List Int) : digitsRev rs 0 = List.replicate rs.length 0 := by
  induction rs with
  | nil => rfl
  | cons s rs ih => simp [digitsRev, ih, List.replicate_succ]

theorem dot_replicate_zero (n : Nat) (l : List Int) : dot (List.replicate n 0) l = 0 := by
  induction n generalizing l with
  | zero => cases l <;> rfl
  | succ n ih =>
    cases l with
    | nil => rfl
    | cons a l => simp [List.replicate_succ, dot, ih]

theorem atPos_zero {c : Cursor} {rs rst : List Int} (hR : Ready c rs rst)
    (hc : c.counter = List.replicate c.dim 0) (hi : c.i = 0) : c.atPos rs rst 0 = c := by
  have h1 : (digitsRev rs 0).reverse ++ [(0 : Int)] = c.counter := by
    rw [hc, hR.dim_eq, digitsRev_zero, List.reverse_replicate, List.replicate_succ']
  have h2 : c.data + 0 % c.size * c.stride + dot (digitsRev rs (0 / c.size)) rst = c.data := by
    simp [digitsRev_zero, dot_replicate_zero]
  simp only [Cursor.atPos, h2]
  rw [show (0 : Int) / c.size = 0 by simp, h1, show (0 : Int) % c.size = 0 by simp, ← hi]

theorem ptrs_eq_nested {c : Cursor} {rs rst : List Int} (hR : Ready c rs rst) (N : Nat)
    (hN : (N : Int) = c.size * rs.prod) :
    (List.range N).map (fun k => (c.atPos rs rst (k : Nat)).data)
      = nested (c.sizes.zip c.strides) c.data := by
  have hpos : ∀ s ∈ c.size :: rs, 1 ≤ s := by
    intro s hs
    rcases List.mem_cons.mp hs with rfl | hs
    · exact hR.size_pos
    · exact hR.pos s hs
  have h1 := positions_eq_nestedRev (c.size :: rs) (c.stride :: rst) c.data
    (by simp [hR.len]) hpos
  have hNn : (c.size :: rs).prod.toNat = N := by
    rw [List.prod_cons, ← hN]; simp
  rw [hNn] at h1
  have h2 : c.sizes.zip c.strides = ((c.size :: rs).zip (c.stride :: rst)).reverse := by
    rw [hR.sizes_eq, hR.strides_eq]
    have : ((c.size :: rs).zip (c.stride :: rst)).reverse
        = (c.size :: rs).reverse.zip (c.stride :: rst).reverse := by
      unfold List.zip
      exact List.reverse_zipWith (by simp [hR.len])
    rw [this]
    simp
  rw [nested_eq_nestedRev, h2, List.reverse_reverse, ← h1]
  apply List.map_congr_left
  intro k _
  simp only [Cursor.atPos, digitsRev, dot]
  ring

theorem preamble_nested (T : THTensor) (DIM : Int) (allow fin : Bool)
    (hn : T.nDimension ≠ 0)
    (hc : (contigLoop T DIM T.nDimension (1, allow && decide (DIM < 0))).2 = false) :
    NestedPlan T DIM (TH_TENSOR_APPLYX_PREAMBLE T DIM allow fin).1 ∧
    (TH_TENSOR_APPLYX_PREAMBLE T DIM allow fin).2 = fin := by
  obtain ⟨h1, h2, h3⟩ := fillLoop_preamble T DIM hn
    (if DIM = (T.nDimension : Int) - 1 then DimOffset.ofI else DimOffset.ofCounter DIM)
  simp only [TH_TENSOR_APPLYX_PREAMBLE, hn, if_false, hc, Bool.not_false, if_true]
  exact ⟨⟨rfl, rfl, h1, h2, h3, rfl, rfl, rfl, rfl, rfl, rfl⟩, trivial⟩

theorem preamble_contig (T : THTensor) (DIM : Int) (allow fin : Bool)
    (hn : T.nDimension ≠ 0)
    (hc : (contigLoop T DIM T.nDimension (1, allow && decide (DIM < 0))).2 = true) :
    TH_TENSOR_APPLYX_PREAMBLE T DIM allow fin = (contigCursor T, fin) := by
  simp only [TH_TENSOR_APPLYX_PREAMBLE, hn, if_false, hc, Bool.not_true, Bool.false_eq_true,
    contigCursor]

theorem preamble_empty (T : THTensor) (DIM : Int) (allow fin : Bool)
    (hn : T.nDimension = 0) :
    TH_TENSOR_APPLYX_PREAMBLE T DIM allow fin =
      ({ data := 0, counter := [], sizes := [], strides := [], dimOffset := .null,
         stride := 0, size := 0, dim := 0, i := 0, n := elementCount T,
         contiguous := allow && decide (DIM < 0), allocated := false }, true) := by
  simp only [TH_TENSOR_APPLYX_PREAMBLE, hn, if_true]

theorem preamble_n (T : THTensor) (DIM : Int) (allow fin : Bool) :
    (TH_TENSOR_APPLYX_PREAMBLE T DIM allow fin).1.n = elementCount T := by
  unfold TH_TENSOR_APPLYX_PREAMBLE
  simp only []
  split
  · rfl
  · split <;> rfl

theorem getD_pos_of_mem (T : THTensor) (hpos : ∀ s ∈ T.size, 1 ≤ s) :
    ∀ j, j < T.nDimension → 1 ≤ T.size.getD j 0 := by
  intro j hj
  have hj' : j < T.size.length := hj
  rw [List.getD_eq_getElem _ _ hj']
  exact hpos _ (List.getElem_mem hj')

theorem refRuns_ne_nil (T : THTensor) (DIM : Int) (hn : T.nDimension ≠ 0) :
    refRuns T DIM ≠ [] := by
  unfold refRuns
  obtain ⟨m, hm⟩ : ∃ m, T.nDimension = m + 1 := ⟨T.nDimension - 1, by omega⟩
  rw [hm, List.range_succ_eq_map]
  exact groupRuns_ne_nil _ _ _

theorem rowMajorPointers_eq_nested (T : THTensor) (hwf : T.WF) :
    T.rowMajorPointers = nested (T.size.zip T.stride) (T.storage + T.storageOffset) := by
  rw [← rowMajor_eq_nested T.size T.stride _ hwf]
  rfl

theorem nested_walk (T : THTensor) (DIM : Int) (c : Cursor) (hwf : T.WF)
    (hn : T.nDimension ≠ 0) (hpos : ∀ s ∈ T.size, 1 ≤ s) (hP : NestedPlan T DIM c) :
    ∃ rs rst, Walk T c rs rst := by
  have hposD := getD_pos_of_mem T hpos
  obtain ⟨runs, g, hruns⟩ : ∃ L b, refRuns T DIM = L ++ [b] := by
    rcases List.eq_nil_or_concat (refRuns T DIM) with h | ⟨L, b, h⟩
    · exact absurd h (refRuns_ne_nil T DIM hn)
    · exact ⟨L, b, by rw [h, List.concat_eq_append]⟩
  have hsizes : c.sizes = runs.map (runSize T) ++ [runSize T g] := by
    rw [hP.sizes_eq, hruns]; simp
  have hstrides : c.strides = runs.map (runStride T) ++ [runStride T g] := by
    rw [hP.strides_eq, hruns]; simp
  have hdim : c.dim = runs.length + 1 := by
    rw [hP.dim_eq, hruns]; simp
  have hsize : c.size = runSize T g := by
    rw [hP.size_eq, hsizes, hdim, Nat.add_sub_cancel]
    simp
  have hstride : c.stride = runStride T g := by
    rw [hP.stride_eq, hstrides, hdim, Nat.add_sub_cancel]
    simp
  have hrpos := runSize_pos T DIM hposD
  have hready : Ready c (runs.map (runSize T)).reverse (runs.map (runStride T)).reverse :=
    { sizes_eq := by rw [List.reverse_reverse, hsize, hsizes]
      strides_eq := by rw [List.reverse_reverse, hstride, hstrides]
      len := by simp
      dim_eq := by simp [hdim]
      pos := by
        intro s hs
        rw [List.mem_reverse] at hs
        obtain ⟨g', hg', rfl⟩ := List.mem_map.mp hs
        exact hrpos g' (by rw [hruns]; simp [hg'])
      size_pos := by
        rw [hsize]; exact hrpos g (by rw [hruns]; simp)
      contig := by
        intro h; rw [hP.contiguous_eq] at h; exact absurd h (by simp) }
  refine ⟨_, _, hready, atPos_zero hready hP.counter_eq hP.i_eq, ?_, ?_⟩
  · rw [List.prod_reverse, hsize, ← prod_refRuns T DIM, hruns]
    simp [mul_comm]
  · rw [hP.sizes_eq, hP.strides_eq, List.zip_map', hP.data_eq, rowMajorPointers_eq_nested T hwf,
      ← map_dimPair_range T hwf]
    have := (nested_runs T DIM hposD (T.nDimension - 1) 0 (by omega)).1
      (T.storage + T.storageOffset)
    rw [runsFrom_zero, Nat.sub_zero, ← List.range_eq_range'] at this
    exact this

theorem dense_step (s st P : Int) (rest : List (Int × Int)) (h : s = 1 ∨ st = P)
    (hs : 1 ≤ s) (hP : 1 ≤ P)
    (hrest : ∀ base, nested rest base
      = (List.range P.toNat).map fun (a : Nat) => base + (a : Int)) :
    ∀ base, nested ((s, st) :: rest) base
      = (List.range (s * P).toNat).map fun (a : Nat) => base + (a : Int) := by
  intro base
  obtain ⟨Pn, rfl⟩ : ∃ n : Nat, (n : Int) = P := ⟨P.toNat, by omega⟩
  rcases h with rfl | rfl
  · simp [nested, hrest, List.range_succ]
  · obtain ⟨sn, rfl⟩ : ∃ n : Nat, (n : Int) = s := ⟨s.toNat, by omega⟩
    simp only [nested, hrest]
    rw [← Int.natCast_mul, Int.toNat_natCast, Int.toNat_natCast, Int.toNat_natCast]
    rw [← range_mul_map (fun q a => base + (q : Int) * (Pn : Int) + (a : Int)) Pn (by omega) sn]
    apply List.map_congr_left
    intro k _
    have := Nat.div_add_mod k Pn
    have h2 : (k : Int) = (Pn : Int) * ((k / Pn : Nat) : Int) + ((k % Pn : Nat) : Int) := by
      exact_mod_cast this.symm
    conv_rhs => rw [h2]
    ring

theorem tailProd_succ (T : THTensor) (k : Nat) (hk : k < T.nDimension) :
    tailProd T k = T.size.getD k 0 * tailProd T (k + 1) := by
  unfold tailProd
  rw [show T.nDimension - k = (T.nDimension - (k + 1)) + 1 by omega]
  simp [List.range'_succ]

theorem tailProd_zero (T : THTensor) : tailProd T 0 = T.size.prod := by
  unfold tailProd
  rw [Nat.sub_zero, ← List.range_eq_range']
  unfold THTensor.nDimension
  rw [map_getD_range]

theorem tailProd_pos (T : THTensor) (hpos : ∀ j, j < T.nDimension → 1 ≤ T.size.getD j 0)
    (k : Nat) : 1 ≤ tailProd T k := by
  unfold tailProd
  apply prod_pos_of_pos
  intro s hs
  obtain ⟨j, hj, rfl⟩ := List.mem_map.mp hs
  have := List.mem_range'_1.mp hj
  exact hpos j (by omega)

theorem contigLoop_dense (T : THTensor) (DIM : Int)
    (hpos : ∀ j, j < T.nDimension → 1 ≤ T.size.getD j 0) :
    ∀ (k : Nat), k ≤ T.nDimension → ∀ (sz : Int) (c : Bool), sz = tailProd T k →
      (∀ base, nested ((List.range' k (T.nDimension - k)).map (dimPair T)) base
        = (List.range (tailProd T k).toNat).map fun (a : Nat) => base + (a : Int)) →
      (contigLoop T DIM k (sz, c)).2 = true →
      ∀ base, nested ((List.range T.nDimension).map (dimPair T)) base
        = (List.range T.size.prod.toNat).map fun (a : Nat) => base + (a : Int) := by
  intro k
  induction k with
  | zero =>
    intro _ sz c _ h _
    rw [tailProd_zero, Nat.sub_zero, ← List.range_eq_range'] at h
    exact h
  | succ k ih =>
    intro hk sz c hsz hd hc
    have hrange : List.range' k (T.nDimension - k)
        = k :: List.range' (k + 1) (T.nDimension - (k + 1)) := by
      rw [show T.nDimension - k = (T.nDimension - (k + 1)) + 1 by omega]
      simp [List.range'_succ]
    have hstep : (T.size.getD k 0 = 1 ∨ T.stride.getD k 0 = tailProd T (k + 1)) →
        ∀ base, nested ((List.range' k (T.nDimension - k)).map (dimPair T)) base
          = (List.range (tailProd T k).toNat).map fun (a : Nat) => base + (a : Int) := by
      intro h
      rw [hrange, tailProd_succ T k (by omega), List.map_cons]
      exact dense_step _ _ _ _ h (hpos k (by omega)) (tailProd_pos T hpos _) hd
    rw [contigLoop] at hc
    by_cases h1 : T.size.getD k 0 ≠ 1
    · rw [if_pos h1] at hc
      by_cases h2 : T.stride.getD k 0 = sz ∧ (k : Int) ≠ DIM
      · rw [if_pos h2] at hc
        exact ih (by omega) _ c (by rw [tailProd_succ T k (by omega), hsz, mul_comm])
          (hstep (Or.inr (by rw [h2.1, hsz]))) hc
      · rw [if_neg h2] at hc
        simp at hc
    · rw [if_neg h1] at hc
      have h1' : T.size.getD k 0 = 1 := by
        by_contra h; exact h1 h
      exact ih (by omega) _ c (by rw [tailProd_succ T k (by omega), hsz, h1', one_mul])
        (hstep (Or.inl h1')) hc

theorem contig_walk (T : THTensor) (DIM : Int) (allow : Bool) (hwf : T.WF)
    (hn : T.nDimension ≠ 0) (hpos : ∀ s ∈ T.size, 1 ≤ s)
    (hc : (contigLoop T DIM T.nDimension (1, allow && decide (DIM < 0))).2 = true) :
    Walk T (contigCursor T) [] [] := by
  have hposD := getD_pos_of_mem T hpos
  have hprod : 1 ≤ T.size.prod := prod_pos_of_pos _ hpos
  have hready : Ready (contigCursor T) [] [] :=
    { sizes_eq := rfl, strides_eq := rfl, len := rfl, dim_eq := rfl
      pos := by intro s hs; simp at hs
      size_pos := by
        show 1 ≤ elementCount T
        rw [elementCount_eq T hn]; exact hprod
      contig := fun _ => rfl }
  refine ⟨hready, atPos_zero hready rfl rfl, ?_, ?_⟩
  · show elementCount T * _ = _
    simp [elementCount_eq T hn]
  have hd := contigLoop_dense T DIM hposD T.nDimension (le_refl _) 1 _
    (by simp [tailProd]) (by intro base; simp [tailProd, nested, List.range_succ]) hc
  rw [rowMajorPointers_eq_nested T hwf, ← map_dimPair_range T hwf, hd]
  show nested ([elementCount T].zip [1]) (T.storage + T.storageOffset) = _
  rw [elementCount_eq T hn]
  simp only [List.zip_cons_cons, List.zip_nil_right, nested, mul_one]
  induction (List.range T.size.prod.toNat) with
  | nil => rfl
  | cons a l ih => simp [List.flatMap_cons, ih]

/-- Planning on a well-formed non-empty view yields a cursor from which the
traversal lemmas apply, on either path. -/
theorem preamble_walk (T : THTensor) (DIM : Int) (allow fin : Bool) (hwf : T.WF)
    (hn : T.nDimension ≠ 0) (hpos : ∀ s ∈ T.size, 1 ≤ s) :
    (∃ rs rst, Walk T (TH_TENSOR_APPLYX_PREAMBLE T DIM allow fin).1 rs rst) ∧
    (TH_TENSOR_APPLYX_PREAMBLE T DIM allow fin).2 = fin ∧
    (TH_TENSOR_APPLYX_PREAMBLE T DIM allow fin).1.allocated = true := by
  cases hc : (contigLoop T DIM T.nDimension (1, allow && decide (DIM < 0))).2 with
  | false =>
    obtain ⟨hP, h2⟩ := preamble_nested T DIM allow fin hn hc
    exact ⟨nested_walk T DIM _ hwf hn hpos hP, h2, hP.allocated_eq⟩
  | true =>
    rw [preamble_contig T DIM allow fin hn hc]
    exact ⟨⟨[], [], contig_walk T DIM allow hwf hn hpos hc⟩, rfl, rfl⟩

theorem walk_count {T : THTensor} {c : Cursor} {rs rst : List Int} (hW : Walk T c rs rst)
    (hpos : ∀ s ∈ T.size, 1 ≤ s) :
    ((T.size.prod.toNat : Nat) : Int) = c.size * rs.prod ∧ 1 ≤ T.size.prod.toNat := by
  have := prod_pos_of_pos _ hpos
  rw [hW.count]
  omega

theorem walk_ptrs {T : THTensor} {c : Cursor} {rs rst : List Int} (hW : Walk T c rs rst)
    (hpos : ∀ s ∈ T.size, 1 ≤ s) :
    (List.range T.size.prod.toNat).map (fun k => (c.atPos rs rst (k : Nat)).data)
      = T.rowMajorPointers := by
  rw [ptrs_eq_nested hW.ready _ (walk_count hW hpos).1, hW.ptrs]

theorem blocks_of_allocated {c : Cursor} (h : c.allocated = true) : c.blocks = 1 := by
  simp [Cursor.blocks, h]

/-- General form for one tensor: the statement block runs once per position,
in order, on the cursor of that position. -/
theorem apply1_fold {σ : Type} (T : THTensor) (DIM : Int) (CODE : Cursor → σ → σ) (s : σ)
    (hwf : T.WF) (hn : T.nDimension ≠ 0) (hpos : ∀ s ∈ T.size, 1 ≤ s) :
    ∃ rs rst, Walk T (TH_TENSOR_APPLYX_PREAMBLE T DIM false false).1 rs rst ∧
      ∀ fuel, T.size.prod.toNat ≤ fuel →
        TH_TENSOR_APPLY_D T DIM CODE s fuel
          = some { raised := false
                   state := (List.range T.size.prod.toNat).foldl
                     (fun s k => CODE ((TH_TENSOR_APPLYX_PREAMBLE T DIM false false).1.atPos
                       rs rst (k : Nat)) s) s
                   allocated := 1, freed := 1 } := by
  obtain ⟨⟨rs, rst, hW⟩, hfin, hal⟩ := preamble_walk T DIM false false hwf hn hpos
  refine ⟨rs, rst, hW, fun fuel hfuel => ?_⟩
  obtain ⟨hN, hN1⟩ := walk_count hW hpos
  have hrun := whileLoop1_run CODE hW.ready _ hN T.size.prod.toNat 0 fuel s hN1 (by omega)
    (by simp) hfuel
  rw [Nat.cast_zero, hW.start, ← List.range_eq_range'] at hrun
  unfold TH_TENSOR_APPLY_D
  simp only [hfin, hrun, Option.map_some', blocks_of_allocated hal]

theorem apply2_fold {σ : Type} (T1 T2 : THTensor) (DIM : Int)
    (CODE : Cursor → Cursor → σ → σ) (s : σ)
    (hwf1 : T1.WF) (hn1 : T1.nDimension ≠ 0) (hpos1 : ∀ s ∈ T1.size, 1 ≤ s)
    (hwf2 : T2.WF) (hn2 : T2.nDimension ≠ 0) (hpos2 : ∀ s ∈ T2.size, 1 ≤ s)
    (heq : T1.size.prod = T2.size.prod) :
    ∃ rs1 rst1 rs2 rst2,
      Walk T1 (TH_TENSOR_APPLYX_PREAMBLE T1 DIM true false).1 rs1 rst1 ∧
      Walk T2 (TH_TENSOR_APPLYX_PREAMBLE T2 DIM true false).1 rs2 rst2 ∧
      ∀ fuel, T1.size.prod.toNat ≤ fuel →
        TH_TENSOR_APPLY2_D T1 T2 DIM CODE s fuel
          = some { raised := false
                   state := (List.range T1.size.prod.toNat).foldl
                     (fun s k => CODE
                       ((TH_TENSOR_APPLYX_PREAMBLE T1 DIM true false).1.atPos rs1 rst1 (k : Nat))
                       ((TH_TENSOR_APPLYX_PREAMBLE T2 DIM true false).1.atPos rs2 rst2 (k : Nat))
                       s) s
                   allocated := 2, freed := 2 } := by
  obtain ⟨⟨rs1, rst1, hW1⟩, hfin1, hal1⟩ := preamble_walk T1 DIM true false hwf1 hn1 hpos1
  obtain ⟨⟨rs2, rst2, hW2⟩, hfin2, hal2⟩ := preamble_walk T2 DIM true false hwf2 hn2 hpos2
  refine ⟨rs1, rst1, rs2, rst2, hW1, hW2, fun fuel hfuel => ?_⟩
  obtain ⟨hN1, hN⟩ := walk_count hW1 hpos1
  obtain ⟨hN2, _⟩ := walk_count hW2 hpos2
  rw [← heq] at hN2
  have hrun := whileLoop2_run CODE hW1.ready hW2.ready _ hN1 hN2 T1.size.prod.toNat 0 fuel s hN
    (by omega) hfuel
  rw [Nat.cast_zero, hW1.start, hW2.start, ← List.range_eq_range'] at hrun
  have hne : ¬ (TH_TENSOR_APPLYX_PREAMBLE T1 DIM true false).1.n
      ≠ (TH_TENSOR_APPLYX_PREAMBLE T2 DIM true false).1.n := by
    rw [preamble_n, preamble_n, elementCount_eq T1 hn1, elementCount_eq T2 hn2, heq]
    simp
  unfold TH_TENSOR_APPLY2_D
  simp only [hfin1, hfin2, hrun, Option.map_some', blocks_of_allocated hal1,
    blocks_of_allocated hal2, if_neg hne]

theorem apply3_fold {σ : Type} (T1 T2 T3 : THTensor) (DIM : Int)
    (CODE : Cursor → Cursor → Cursor → σ → σ) (s : σ)
    (hwf1 : T1.WF) (hn1 : T1.nDimension ≠ 0) (hpos1 : ∀ s ∈ T1.size, 1 ≤ s)
    (hwf2 : T2.WF) (hn2 : T2.nDimension ≠ 0) (hpos2 : ∀ s ∈ T2.size, 1 ≤ s)
    (hwf3 : T3.WF) (hn3 : T3.nDimension ≠ 0) (hpos3 : ∀ s ∈ T3.size, 1 ≤ s)
    (heq2 : T1.size.prod = T2.size.prod) (heq3 : T1.size.prod = T3.size.prod) :
    ∃ rs1 rst1 rs2 rst2 rs3 rst3,
      Walk T1 (TH_TENSOR_APPLYX_PREAMBLE T1 DIM true false).1 rs1 rst1 ∧
      Walk T2 (TH_TENSOR_APPLYX_PREAMBLE T2 DIM true false).1 rs2 rst2 ∧
      Walk T3 (TH_TENSOR_APPLYX_PREAMBLE T3 DIM true false).1 rs3 rst3 ∧
      ∀ fuel, T1.size.prod.toNat ≤ fuel →
        TH_TENSOR_APPLY3_D T1 T2 T3 DIM CODE s fuel
          = some { raised := false
                   state := (List.range T1.size.prod.toNat).foldl
                     (fun s k => CODE
                       ((TH_TENSOR_APPLYX_PREAMBLE T1 DIM true false).1.atPos rs1 rst1 (k : Nat))
                       ((TH_TENSOR_APPLYX_PREAMBLE T2 DIM true false).1.atPos rs2 rst2 (k : Nat))
                       ((TH_TENSOR_APPLYX_PREAMBLE T3 DIM true false).1.atPos rs3 rst3 (k : Nat))
                       s) s
                   allocated := 3, freed := 3 } := by
  obtain ⟨⟨rs1, rst1, hW1⟩, hfin1, hal1⟩ := preamble_walk T1 DIM true false hwf1 hn1 hpos1
  obtain ⟨⟨rs2, rst2, hW2⟩, hfin2, hal2⟩ := preamble_walk T2 DIM true false hwf2 hn2 hpos2
  obtain ⟨⟨rs3, rst3, hW3⟩, hfin3, hal3⟩ := preamble_walk T3 DIM true false hwf3 hn3 hpos3
  refine ⟨rs1, rst1, rs2, rst2, rs3, rst3, hW1, hW2, hW3, fun fuel hfuel => ?_⟩
  obtain ⟨hN1, hN⟩ := walk_count hW1 hpos1
  obtain ⟨hN2, _⟩ := walk_count hW2 hpos2
  obtain ⟨hN3, _⟩ := walk_count hW3 hpos3
  rw [← heq2] at hN2
  rw [← heq3] at hN3
  have hrun := whileLoop3_run CODE hW1.ready hW2.ready hW3.ready _ hN1 hN2 hN3
    T1.size.prod.toNat 0 fuel s hN (by omega) hfuel
  rw [Nat.cast_zero, hW1.start, hW2.start, hW3.start, ← List.range_eq_range'] at hrun
  have hne2 : ¬ (TH_TENSOR_APPLYX_PREAMBLE T1 DIM true false).1.n
      ≠ (TH_TENSOR_APPLYX_PREAMBLE T2 DIM true false).1.n := by
    rw [preamble_n, preamble_n, elementCount_eq T1 hn1, elementCount_eq T2 hn2, heq2]
    simp
  have hne3 : ¬ (TH_TENSOR_APPLYX_PREAMBLE T1 DIM true false).1.n
      ≠ (TH_TENSOR_APPLYX_PREAMBLE T3 DIM true false).1.n := by
    rw [preamble_n, preamble_n, elementCount_eq T1 hn1, elementCount_eq T3 hn3, heq3]
    simp
  unfold TH_TENSOR_APPLY3_D
  simp only [hfin1, hfin2, hfin3, hrun, Option.map_some', blocks_of_allocated hal1,
    blocks_of_allocated hal2, blocks_of_allocated hal3, if_neg hne2, if_neg hne3]
  simp

theorem foldl_snoc_trace {α : Type} (l : List α) (acc : List α) :
    l.foldl (fun tr p => tr ++ [p]) acc = acc ++ l := by
  induction l generalizing acc with
  | nil => simp
  | cons a l ih => simp [ih]

theorem foldl_count {σ α : Type} (g : α → σ → σ) (l : List α) (s : σ) (n : Nat) :
    (l.foldl (fun (st : σ × Nat) k => (g k st.1, st.2 + 1)) (s, n)).2 = n + l.length := by
  induction l generalizing s n with
  | nil => simp
  | cons a l ih => simp [ih]; omega

/-- One tensor, statement block reading only the data pointer. -/
theorem apply1_data {σ : Type} (T : THTensor) (DIM : Int) (f : Int → σ → σ) (s : σ)
    (hwf : T.WF) (hn : T.nDimension ≠ 0) (hpos : ∀ s ∈ T.size, 1 ≤ s)
    (fuel : Nat) (hfuel : T.size.prod.toNat ≤ fuel) :
    TH_TENSOR_APPLY_D T DIM (fun c => f c.data) s fuel
      = some { raised := false
               state := T.rowMajorPointers.foldl (fun s p => f p s) s
               allocated := 1, freed := 1 } := by
  obtain ⟨rs, rst, hW, h⟩ := apply1_fold T DIM (fun c => f c.data) s hwf hn hpos
  rw [h fuel hfuel, ← walk_ptrs hW hpos, List.foldl_map]

theorem apply2_data {σ : Type} (T1 T2 : THTensor) (DIM : Int) (f : Int → Int → σ → σ) (s : σ)
    (hwf1 : T1.WF) (hn1 : T1.nDimension ≠ 0) (hpos1 : ∀ s ∈ T1.size, 1 ≤ s)
    (hwf2 : T2.WF) (hn2 : T2.nDimension ≠ 0) (hpos2 : ∀ s ∈ T2.size, 1 ≤ s)
    (heq : T1.size.prod = T2.size.prod)
    (fuel : Nat) (hfuel : T1.size.prod.toNat ≤ fuel) :
    TH_TENSOR_APPLY2_D T1 T2 DIM (fun c1 c2 => f c1.data c2.data) s fuel
      = some { raised := false
               state := (T1.rowMajorPointers.zip T2.rowMajorPointers).foldl
                 (fun s p => f p.1 p.2 s) s
               allocated := 2, freed := 2 } := by
  obtain ⟨rs1, rst1, rs2, rst2, hW1, hW2, h⟩ :=
    apply2_fold T1 T2 DIM (fun c1 c2 => f c1.data c2.data) s hwf1 hn1 hpos1 hwf2 hn2 hpos2 heq
  have h2 := walk_ptrs hW2 hpos2
  rw [← heq] at h2
  rw [h fuel hfuel, ← walk_ptrs hW1 hpos1, ← h2, List.zip_map', List.foldl_map]

theorem apply3_data {σ : Type} (T1 T2 T3 : THTensor) (DIM : Int)
    (f : Int → Int → Int → σ → σ) (s : σ)
    (hwf1 : T1.WF) (hn1 : T1.nDimension ≠ 0) (hpos1 : ∀ s ∈ T1.size, 1 ≤ s)
    (hwf2 : T2.WF) (hn2 : T2.nDimension ≠ 0) (hpos2 : ∀ s ∈ T2.size, 1 ≤ s)
    (hwf3 : T3.WF) (hn3 : T3.nDimension ≠ 0) (hpos3 : ∀ s ∈ T3.size, 1 ≤ s)
    (heq2 : T1.size.prod = T2.size.prod) (heq3 : T1.size.prod = T3.size.prod)
    (fuel : Nat) (hfuel : T1.size.prod.toNat ≤ fuel) :
    TH_TENSOR_APPLY3_D T1 T2 T3 DIM (fun c1 c2 c3 => f c1.data c2.data c3.data) s fuel
      = some { raised := false
               state := (T1.rowMajorPointers.zip
                   (T2.rowMajorPointers.zip T3.rowMajorPointers)).foldl
                 (fun s p => f p.1 p.2.1 p.2.2 s) s
               allocated := 3, freed := 3 } := by
  obtain ⟨rs1, rst1, rs2, rst2, rs3, rst3, hW1, hW2, hW3, h⟩ :=
    apply3_fold T1 T2 T3 DIM (fun c1 c2 c3 => f c1.data c2.data c3.data) s
      hwf1 hn1 hpos1 hwf2 hn2 hpos2 hwf3 hn3 hpos3 heq2 heq3
  have h2 := walk_ptrs hW2 hpos2
  have h3 := walk_ptrs hW3 hpos3
  rw [← heq2] at h2
  rw [← heq3] at h3
  rw [h fuel hfuel, ← walk_ptrs hW1 hpos1, ← h2, ← h3, List.zip_map', List.zip_map',
    List.foldl_map]

theorem length_rowMajorPointers (T : THTensor) (hwf : T.WF) (hn : T.nDimension ≠ 0)
    (hpos : ∀ s ∈ T.size, 1 ≤ s) : T.rowMajorPointers.length = T.size.prod.toNat := by
  obtain ⟨⟨rs, rst, hW⟩, _, _⟩ := preamble_walk T (-1) false false hwf hn hpos
  rw [← walk_ptrs hW hpos]
  simp

theorem elementCount_eq_nElement (T : THTensor) : elementCount T = T.nElement := by
  unfold THTensor.nElement
  by_cases hn : T.nDimension = 0
  · rw [if_pos hn]
    have : T.size = [] := List.length_eq_zero.mp hn
    simp [elementCount, hn, this]
  · rw [if_neg hn, elementCount_eq T hn]

theorem elements_equal_eq (a b c : Int) :
    (if a ≠ b then false else if a ≠ c then false else true) = decide (a = b ∧ a = c) := by
  by_cases h1 : a = b <;> by_cases h2 : a = c <;> simp [h1, h2]

theorem fold_add_spec (l : List (Int × Int × Int)) :
    ∀ (mem : Int → Int), (l.map fun x => x.2.2).Nodup →
      (∀ x ∈ l, ∀ y ∈ l, x.2.2 ≠ y.1 ∧ x.2.2 ≠ y.2.1) →
      (∀ x ∈ l, (l.foldl (fun m p => Function.update m p.2.2 (m p.1 + m p.2.1)) mem) x.2.2
          = mem x.1 + mem x.2.1) ∧
      (∀ p, p ∉ (l.map fun x => x.2.2) →
        (l.foldl (fun m p => Function.update m p.2.2 (m p.1 + m p.2.1)) mem) p = mem p) := by
  induction l with
  | nil => intro mem _ _; simp
  | cons x l ih =>
    intro mem hnd hdis
    rw [List.map_cons, List.nodup_cons] at hnd
    have hdis' : ∀ a ∈ l, ∀ b ∈ l, a.2.2 ≠ b.1 ∧ a.2.2 ≠ b.2.1 :=
      fun a ha b hb => hdis a (List.mem_cons_of_mem _ ha) b (List.mem_cons_of_mem _ hb)
    obtain ⟨ih1, ih2⟩ := ih (Function.update mem x.2.2 (mem x.1 + mem x.2.1)) hnd.2 hdis'
    have hread : ∀ y ∈ x :: l, Function.update mem x.2.2 (mem x.1 + mem x.2.1) y.1 = mem y.1 ∧
        Function.update mem x.2.2 (mem x.1 + mem x.2.1) y.2.1 = mem y.2.1 := by
      intro y hy
      have := hdis x (List.mem_cons_self _ _) y hy
      exact ⟨Function.update_noteq (Ne.symm this.1) _ _,
        Function.update_noteq (Ne.symm this.2) _ _⟩
    simp only [List.foldl_cons]
    constructor
    · intro y hy
      rcases List.mem_cons.mp hy with rfl | hy'
      · rw [ih2 _ hnd.1, Function.update_same]
      · rw [ih1 y hy', (hread y hy).1, (hread y hy).2]
    · intro p hp
      rw [List.map_cons, List.mem_cons, not_or] at hp
      rw [ih2 p hp.2, Function.update_noteq hp.1]

theorem preamble_contiguous (T : THTensor) (DIM : Int) (allow fin : Bool)
    (hn : T.nDimension ≠ 0) :
    (TH_TENSOR_APPLYX_PREAMBLE T DIM allow fin).1.contiguous
      = (contigLoop T DIM T.nDimension (1, allow && decide (DIM < 0))).2 := by
  cases hc : (contigLoop T DIM T.nDimension (1, allow && decide (DIM < 0))).2 with
  | false => exact (preamble_nested T DIM allow fin hn hc).1.contiguous_eq
  | true => rw [preamble_contig T DIM allow fin hn hc]; rfl

theorem dimLoop_count (T : THTensor) (DIM : Int) (k : Nat) :
    dimLoop T DIM k 0 = ((List.range k).filter fun i => !sameRun T DIM i).length := by
  induction k with
  | zero => rfl
  | succ k ih =>
    rw [dimLoop_succ, ih, List.range_succ, List.filter_append, List.length_append]
    cases hs : sameRun T DIM k <;> simp [List.filter_cons, hs]
    omega

theorem contigLoop_false (T : THTensor) (DIM : Int) :
    ∀ (k : Nat) (sz : Int), (contigLoop T DIM k (sz, false)).2 = false := by
  intro k
  induction k with
  | zero => intro sz; rfl
  | succ k ih =>
    intro sz
    rw [contigLoop]
    split
    · split
      · exact ih _
      · rfl
    · exact ih _

theorem contigLoop_of_dense (T : THTensor) (DIM : Int) :
    ∀ (k : Nat), k ≤ T.nDimension → ∀ (sz : Int) (c : Bool), sz = tailProd T k →
      (∀ i, i < k → T.size.getD i 0 ≠ 1 →
        T.stride.getD i 0 = tailProd T (i + 1) ∧ (i : Int) ≠ DIM) →
      (contigLoop T DIM k (sz, c)).2 = c := by
  intro k
  induction k with
  | zero => intro _ sz c _ _; rfl
  | succ k ih =>
    intro hk sz c hsz hd
    rw [contigLoop]
    by_cases h1 : T.size.getD k 0 ≠ 1
    · rw [if_pos h1]
      have := hd k (by omega) h1
      rw [if_pos ⟨by rw [this.1, hsz], this.2⟩]
      exact ih (by omega) _ c (by rw [tailProd_succ T k (by omega), hsz, mul_comm])
        (fun i hi => hd i (by omega))
    · rw [if_neg h1]
      have h1' : T.size.getD k 0 = 1 := by
        by_contra h; exact h1 h
      exact ih (by omega) _ c (by rw [tailProd_succ T k (by omega), hsz, h1', one_mul])
        (fun i hi => hd i (by omega))

theorem tailProd_top (T : THTensor) : tailProd T T.nDimension = 1 := by
  simp [tailProd]

theorem groupRuns_isolated (same : Nat → Bool) (D : Nat) (hD : same D = false)
    (hD' : ∀ i, i + 1 = D → same i = false) :
    ∀ (m k : Nat), k ≤ D → D < k + m →
      ∃ pre post, groupRuns same (List.range' k m) = pre ++ [D] :: post ∧
        pre.flatten = List.range' k (D - k) := by
  intro m
  induction m using Nat.strong_induction_on with
  | _ m ih =>
    intro k hk1 hk2
    match m, ih with
    | 0, _ => omega
    | 1, _ =>
      obtain rfl : D = k := by omega
      exact ⟨[], [], by simp [List.range'_succ, groupRuns], by simp⟩
    | m + 2, ih =>
      have hl : List.range' k (m + 2) = k :: (k + 1) :: List.range' (k + 2) m := by
        simp [List.range'_succ]
      have hl1 : List.range' (k + 1) (m + 1) = (k + 1) :: List.range' (k + 2) m := by
        simp [List.range'_succ]
      obtain ⟨r, rs, e1, e2⟩ := groupRuns_cons_cons same k (k + 1) (List.range' (k + 2) m)
      rw [hl, e2]
      by_cases hkD : k = D
      · subst hkD
        rw [hD]
        exact ⟨[], r :: rs, by simp, by simp⟩
      · obtain ⟨pre, post, e3, e4⟩ := ih (m + 1) (by omega) (k + 1) (by omega) (by omega)
        rw [hl1, e1] at e3
        cases hs : same k with
        | false =>
          refine ⟨[k] :: pre, post, by simp [e3], ?_⟩
          rw [List.flatten_cons, e4, show D - k = (D - (k + 1)) + 1 by omega]
          simp [List.range'_succ]
        | true =>
          have hk1D : k + 1 ≠ D := by
            intro h; rw [hD' k h] at hs; exact absurd hs (by simp)
          cases pre with
          | nil =>
            rw [show D - (k + 1) = (D - (k + 2)) + 1 by omega] at e4
            simp [List.range'_succ] at e4
          | cons r' pre' =>
            simp only [List.cons_append, List.cons.injEq] at e3
            obtain ⟨rfl, rfl⟩ := e3
            refine ⟨(k :: r) :: pre', post, by simp, ?_⟩
            rw [List.flatten_cons] at e4 ⊢
            rw [List.cons_append, e4, show D - k = (D - (k + 1)) + 1 by omega]
            simp [List.range'_succ]

theorem nElement_of_empty (T : THTensor) (hn : T.nDimension = 0) : T.nElement = 0 := by
  simp [THTensor.nElement, hn]

theorem nElement_of_nonempty (T : THTensor) (hn : T.nDimension ≠ 0) :
    T.nElement = T.size.prod := by
  simp [THTensor.nElement, hn]

theorem nElement_pos (T : THTensor) (hn : T.nDimension ≠ 0) (hpos : ∀ s ∈ T.size, 1 ≤ s) :
    1 ≤ T.nElement := by
  rw [nElement_of_nonempty T hn]
  exact prod_pos_of_pos _ hpos

theorem elementPointers_of_empty (T : THTensor) (hn : T.nDimension = 0) :
    T.elementPointers = [] := by
  simp [THTensor.elementPointers, hn]

theorem elementPointers_of_nonempty (T : THTensor) (hn : T.nDimension ≠ 0) :
    T.elementPointers = T.rowMajorPointers := by
  simp [THTensor.elementPointers, hn]

theorem length_elementPointers (T : THTensor) (hwf : T.WF) (hpos : ∀ s ∈ T.size, 1 ≤ s) :
    T.elementPointers.length = T.nElement.toNat := by
  by_cases hn : T.nDimension = 0
  · rw [elementPointers_of_empty T hn, nElement_of_empty T hn]; rfl
  · rw [elementPointers_of_nonempty T hn, nElement_of_nonempty T hn,
      length_rowMajorPointers T hwf hn hpos]

theorem apply2_empty {σ : Type} (T1 T2 : THTensor) (DIM : Int)
    (CODE : Cursor → Cursor → σ → σ) (s : σ) (fuel : Nat)
    (h1 : T1.nDimension = 0) (h2 : T2.nDimension = 0) :
    TH_TENSOR_APPLY2_D T1 T2 DIM CODE s fuel
      = some { raised := false, state := s, allocated := 0, freed := 0 } := by
  unfold TH_TENSOR_APPLY2_D
  simp only [preamble_empty T1 DIM true false h1, preamble_empty T2 DIM true true h2,
    elementCount_eq_nElement, nElement_of_empty T1 h1, nElement_of_empty T2 h2,
    whileLoop_done2, Cursor.blocks]
  simp

theorem apply3_empty {σ : Type} (T1 T2 T3 : THTensor) (DIM : Int)
    (CODE : Cursor → Cursor → Cursor → σ → σ) (s : σ) (fuel : Nat)
    (h1 : T1.nDimension = 0) (h2 : T2.nDimension = 0) (h3 : T3.nDimension = 0) :
    TH_TENSOR_APPLY3_D T1 T2 T3 DIM CODE s fuel
      = some { raised := false, state := s, allocated := 0, freed := 0 } := by
  unfold TH_TENSOR_APPLY3_D
  simp only [preamble_empty T1 DIM true false h1, preamble_empty T2 DIM true true h2,
    preamble_empty T3 DIM true true h3,
    elementCount_eq_nElement, nElement_of_empty T1 h1, nElement_of_empty T2 h2,
    nElement_of_empty T3 h3, whileLoop_done3, Cursor.blocks]
  simp

theorem nonempty_of_nElement_eq (T1 T2 : THTensor) (hpos1 : ∀ s ∈ T1.size, 1 ≤ s)
    (heq : T1.nElement = T2.nElement) (h1 : T1.nDimension ≠ 0) : T2.nDimension ≠ 0 := by
  intro h2
  have := nElement_pos T1 h1 hpos1
  rw [heq, nElement_of_empty T2 h2] at this
  omega

/-- Two tensors of equal element count, statement block reading only the data
pointers; zero-dimensional views included. -/
theorem apply2_elements {σ : Type} (A B : THTensor) (DIM : Int)
    (f : Int → Int → σ → σ) (s : σ)
    (hwfA : A.WF) (hposA : ∀ s ∈ A.size, 1 ≤ s)
    (hwfB : B.WF) (hposB : ∀ s ∈ B.size, 1 ≤ s)
    (heq : A.nElement = B.nElement)
    (fuel : Nat) (hfuel : A.nElement.toNat ≤ fuel) :
    ∃ r, TH_TENSOR_APPLY2_D A B DIM (fun a b => f a.data b.data) s fuel = some r ∧
      r.raised = false ∧
      r.state = (A.elementPointers.zip B.elementPointers).foldl (fun s p => f p.1 p.2 s) s := by
  by_cases hA : A.nDimension = 0
  · have hB : B.nDimension = 0 := by
      by_contra hB
      exact nonempty_of_nElement_eq B A hposB heq.symm hB hA
    refine ⟨_, apply2_empty A B DIM _ s fuel hA hB, rfl, ?_⟩
    rw [elementPointers_of_empty A hA]
    rfl
  · have hB := nonempty_of_nElement_eq A B hposA heq hA
    rw [nElement_of_nonempty A hA] at hfuel
    rw [nElement_of_nonempty A hA, nElement_of_nonempty B hB] at heq
    refine ⟨_, apply2_data A B DIM f s hwfA hA hposA hwfB hB hposB heq fuel hfuel, rfl, ?_⟩
    rw [elementPointers_of_nonempty A hA, elementPointers_of_nonempty B hB]

theorem apply3_elements {σ : Type} (A B C : THTensor) (DIM : Int)
    (f : Int → Int → Int → σ → σ) (s : σ)
    (hwfA : A.WF) (hposA : ∀ s ∈ A.size, 1 ≤ s)
    (hwfB : B.WF) (hposB : ∀ s ∈ B.size, 1 ≤ s)
    (hwfC : C.WF) (hposC : ∀ s ∈ C.size, 1 ≤ s)
    (heqB : A.nElement = B.nElement) (heqC : A.nElement = C.nElement)
    (fuel : Nat) (hfuel : A.nElement.toNat ≤ fuel) :
    ∃ r, TH_TENSOR_APPLY3_D A B C DIM (fun a b c => f a.data b.data c.data) s fuel = some r ∧
      r.raised = false ∧
      r.state = (A.elementPointers.zip (B.elementPointers.zip C.elementPointers)).foldl
        (fun s p => f p.1 p.2.1 p.2.2 s) s := by
  by_cases hA : A.nDimension = 0
  · have hB : B.nDimension = 0 := by
      by_contra hB
      exact nonempty_of_nElement_eq B A hposB heqB.symm hB hA
    have hC : C.nDimension = 0 := by
      by_contra hC
      exact nonempty_of_nElement_eq C A hposC heqC.symm hC hA
    refine ⟨_, apply3_empty A B C DIM _ s fuel hA hB hC, rfl, ?_⟩
    rw [elementPointers_of_empty A hA]
    rfl
  · have hB := nonempty_of_nElement_eq A B hposA heqB hA
    have hC := nonempty_of_nElement_eq A C hposA heqC hA
    rw [nElement_of_nonempty A hA] at hfuel
    rw [nElement_of_nonempty A hA, nElement_of_nonempty B hB] at heqB
    rw [nElement_of_nonempty A hA, nElement_of_nonempty C hC] at heqC
    refine ⟨_, apply3_data A B C DIM f s hwfA hA hposA hwfB hB hposB hwfC hC hposC heqB heqC
      fuel hfuel, rfl, ?_⟩
    rw [elementPointers_of_nonempty A hA, elementPointers_of_nonempty B hB,
      elementPointers_of_nonempty C hC]

theorem whileLoop_done1 {σ : Type} (CODE : Cursor → σ → σ) (fuel : Nat)
    (c : Cursor) (s : σ) : whileLoop1 CODE fuel c true s = some s := by
  cases fuel <;> simp [whileLoop1]

theorem apply1_empty {σ : Type} (T : THTensor) (DIM : Int)
    (CODE : Cursor → σ → σ) (s : σ) (fuel : Nat) (h : T.nDimension = 0) :
    TH_TENSOR_APPLY_D T DIM CODE s fuel
      = some { raised := false, state := s, allocated := 0, freed := 0 } := by
  unfold TH_TENSOR_APPLY_D
  simp only [preamble_empty T DIM false false h, whileLoop_done1, Cursor.blocks]
  simp

theorem line_index_bounds (SIZE T t : Nat) (ht : t < T) :
    line_index_offset SIZE T t ≤ line_index_end SIZE T t ∧ line_index_end SIZE T t ≤ SIZE := by
  unfold line_index_end line_index_offset
  have hq : T * (SIZE / T) ≤ SIZE := Nat.mul_div_le SIZE T
  have h1 : t * (SIZE / T) + SIZE / T = (t + 1) * (SIZE / T) := by ring
  have h2 : (t + 1) * (SIZE / T) ≤ T * (SIZE / T) := Nat.mul_le_mul_right _ (by omega)
  have h3 : t * (SIZE / T) ≤ (t + 1) * (SIZE / T) := Nat.mul_le_mul_right _ (by omega)
  split <;> omega

theorem line_index_end_succ (SIZE T t : Nat) (ht : t + 1 < T) :
    line_index_end SIZE T t = line_index_offset SIZE T (t + 1) := by
  unfold line_index_end line_index_offset
  rw [if_neg (by omega)]
  ring

theorem line_index_end_last (SIZE T : Nat) : line_index_end SIZE T (T - 1) = SIZE := by
  simp [line_index_end]

theorem line_index_owner (SIZE T x : Nat) (hT : 1 ≤ T) (hx : x < SIZE) :
    ∃ t, (t < T ∧ line_index_offset SIZE T t ≤ x ∧ x < line_index_end SIZE T t) ∧
      ∀ u, (u < T ∧ line_index_offset SIZE T u ≤ x ∧ x < line_index_end SIZE T u) → u = t := by
  by_cases hq : SIZE / T = 0
  · refine ⟨T - 1, ⟨by omega, by simp [line_index_offset, hq], by
      rw [line_index_end_last]; exact hx⟩, ?_⟩
    rintro u ⟨hu, h1, h2⟩
    by_contra hne
    unfold line_index_end line_index_offset at h2
    rw [if_neg hne, hq] at h2
    omega
  · have hqpos : 0 < SIZE / T := Nat.pos_of_ne_zero hq
    by_cases hlast : x / (SIZE / T) < T - 1
    · refine ⟨x / (SIZE / T), ⟨by omega, ?_, ?_⟩, ?_⟩
      · unfold line_index_offset
        exact Nat.div_mul_le_self x (SIZE / T)
      · unfold line_index_end line_index_offset
        rw [if_neg (by omega)]
        have h1 : x / (SIZE / T) * (SIZE / T) + SIZE / T = (SIZE / T) * (x / (SIZE / T) + 1) := by
          ring
        have h2 : (SIZE / T) * (x / (SIZE / T) + 1) = (SIZE / T) * (x / (SIZE / T)) + SIZE / T := by
          ring
        have h3 := Nat.div_add_mod x (SIZE / T)
        have h4 := Nat.mod_lt x hqpos
        omega
      · rintro u ⟨hu, h1, h2⟩
        unfold line_index_offset at h1
        unfold line_index_end line_index_offset at h2
        by_cases hu1 : u = T - 1
        · subst hu1
          have : T - 1 ≤ x / (SIZE / T) := (Nat.le_div_iff_mul_le hqpos).mpr h1
          omega
        · rw [if_neg hu1] at h2
          have hle : u ≤ x / (SIZE / T) := (Nat.le_div_iff_mul_le hqpos).mpr h1
          have hlt : x / (SIZE / T) < u + 1 := by
            rw [Nat.div_lt_iff_lt_mul hqpos]
            have : (u + 1) * (SIZE / T) = u * (SIZE / T) + SIZE / T := by ring
            omega
          omega
    · refine ⟨T - 1, ⟨by omega, ?_, by rw [line_index_end_last]; exact hx⟩, ?_⟩
      · unfold line_index_offset
        have h1 : (T - 1) * (SIZE / T) ≤ x / (SIZE / T) * (SIZE / T) :=
          Nat.mul_le_mul_right _ (by omega)
        have h2 := Nat.div_mul_le_self x (SIZE / T)
        omega
      · rintro u ⟨hu, h1, h2⟩
        by_contra hne
        unfold line_index_offset at h1
        unfold line_index_end line_index_offset at h2
        rw [if_neg hne] at h2
        have hlt : x / (SIZE / T) < u + 1 := by
          rw [Nat.div_lt_iff_lt_mul hqpos]
          have : (u + 1) * (SIZE / T) = u * (SIZE / T) + SIZE / T := by ring
          omega
        omega

theorem calOffsetLoop_digits (rs : List Int) :
    ∀ (rst : List Int) (c : Cursor) (st : CalState) (tS tSt tC : List Int),
      rst.length = rs.length → (∀ s ∈ rs, 1 ≤ s) → 0 ≤ st.quot →
      c.sizes = rs.reverse ++ tS → c.strides = rst.reverse ++ tSt →
      st.counter_tmp = List.replicate rs.length 0 ++ tC →
      (calOffsetLoop c rs.length st).counter_tmp = (digitsRev rs st.quot).reverse ++ tC ∧
      (calOffsetLoop c rs.length st).offset = st.offset + dot (digitsRev rs st.quot) rst := by
  induction rs with
  | nil =>
    intro rst c st tS tSt tC hlen _ _ _ _ hC
    cases rst with
    | nil => simpa [calOffsetLoop, digitsRev, dot] using hC
    | cons a b => simp at hlen
  | cons s rs ih =>
    intro rst c st tS tSt tC hlen hpos h0 hS hSt hC
    obtain ⟨t, rst, rfl⟩ : ∃ t r, rst = t :: r := by
      cases rst with
      | nil => simp at hlen
      | cons a b => exact ⟨a, b, rfl⟩
    have hs : 1 ≤ s := hpos s (by simp)
    have hlen2 : rst.length = rs.length := by simpa using hlen
    simp only [List.reverse_cons, List.append_assoc, List.singleton_append] at hS hSt
    have e2 : c.sizes.getD rs.length 0 = s := by
      rw [hS, ← List.length_reverse rs]; exact getD_at_length _ _ _ _
    have e3 : c.strides.getD rs.length 0 = t := by
      rw [hSt, ← hlen2, ← List.length_reverse rst]; exact getD_at_length _ _ _ _
    have hmod : Int.tmod st.quot s = st.quot % s := Int.tmod_eq_emod h0 (by omega)
    have hdiv : Int.tdiv st.quot s = st.quot / s := Int.tdiv_eq_ediv h0 (by omega)
    simp only [List.length_cons, calOffsetLoop, e2, e3, hmod, hdiv]
    have hC' : st.counter_tmp.set rs.length (st.quot % s)
        = List.replicate rs.length 0 ++ (st.quot % s :: tC) := by
      rw [hC]; exact set_replicate_succ_append _ _ _
    obtain ⟨h1, h2⟩ := ih rst c
      { counter_tmp := st.counter_tmp.set rs.length (st.quot % s)
        quot := st.quot / s
        offset := st.offset + st.quot % s * t }
      (s :: tS) (t :: tSt) (st.quot % s :: tC) hlen2
      (fun x hx => hpos x (by simp [hx])) (Int.ediv_nonneg h0 (by omega)) hS hSt hC'
    rw [h1, h2]
    simp only [digitsRev, dot, List.reverse_cons, List.append_assoc, List.singleton_append]
    exact ⟨trivial, by ring⟩

theorem cal_offset_eq (c : Cursor) (L : Int) (hS : c.sizes.length = c.dim)
    (hSt : c.strides.length = c.dim) (hpos : ∀ s ∈ c.sizes, 1 ≤ s) (h0 : 0 ≤ L) :
    (TH_TENSOR_APPLYX_CAL_OFFSET c L).counter_tmp = (digitsRev c.sizes.reverse L).reverse ∧
    (TH_TENSOR_APPLYX_CAL_OFFSET c L).offset
      = dot (digitsRev c.sizes.reverse L) c.strides.reverse := by
  have h := calOffsetLoop_digits c.sizes.reverse c.strides.reverse c
    { counter_tmp := List.replicate c.dim 0, offset := 0, quot := L } [] [] []
    (by simp [hS, hSt]) (fun s hs => hpos s (List.mem_reverse.mp hs)) h0
    (by simp) (by simp) (by simp [hS])
  simp only [List.length_reverse, hS, List.append_nil, zero_add] at h
  exact h

theorem digitsRev_bounds (rs : List Int) (hpos : ∀ s ∈ rs, 1 ≤ s) :
    ∀ L, List.Forall₂ (fun d s => 0 ≤ d ∧ d < s) (digitsRev rs L) rs := by
  induction rs with
  | nil => intro L; exact List.Forall₂.nil
  | cons s rs ih =>
    intro L
    have hs := hpos s (by simp)
    exact List.Forall₂.cons
      ⟨Int.emod_nonneg L (by omega), Int.emod_lt_of_pos L (by omega)⟩
      (ih (fun x hx => hpos x (by simp [hx])) _)

theorem forall₂_getD {R : Int → Int → Prop} {l1 l2 : List Int} (h : List.Forall₂ R l1 l2) :
    ∀ i, i < l1.length → R (l1.getD i 0) (l2.getD i 0) := by
  induction h with
  | nil => intro i hi; simp at hi
  | cons hab _ ih =>
    intro i hi
    cases i with
    | zero => simpa using hab
    | succ i => simpa using ih i (by simpa using hi)

theorem mixedRadixValue_snoc (ss : List Int) :
    ∀ (cs : List Int) (s c : Int), cs.length = ss.length →
      mixedRadixValue (ss ++ [s]) (cs ++ [c]) = mixedRadixValue ss cs * s + c := by
  induction ss with
  | nil =>
    intro cs s c h
    cases cs with
    | nil => simp [mixedRadixValue]
    | cons a b => simp at h
  | cons x ss ih =>
    intro cs s c h
    cases cs with
    | nil => simp at h
    | cons y cs =>
      have e := ih cs s c (by simpa using h)
      show y * (ss ++ [s]).prod + mixedRadixValue (ss ++ [s]) (cs ++ [c])
        = (y * ss.prod + mixedRadixValue ss cs) * s + c
      rw [e, List.prod_append, List.prod_singleton]
      ring

theorem mixedRadixValue_digits (rs : List Int) (hpos : ∀ s ∈ rs, 1 ≤ s) :
    ∀ L, 0 ≤ L → L < rs.prod →
      mixedRadixValue rs.reverse (digitsRev rs L).reverse = L := by
  induction rs with
  | nil => intro L h0 h1; simp at h1; simp [mixedRadixValue, digitsRev]; omega
  | cons s rs ih =>
    intro L h0 h1
    have hs := hpos s (by simp)
    have hq : L / s < rs.prod := by
      rw [Int.ediv_lt_iff_lt_mul (by omega)]
      rw [List.prod_cons, mul_comm] at h1
      exact h1
    simp only [digitsRev, List.reverse_cons]
    rw [mixedRadixValue_snoc _ _ _ _ (by simp [length_digitsRev]),
      ih (fun x hx => hpos x (by simp [hx])) _ (Int.ediv_nonneg h0 (by omega)) hq]
    have := Int.emod_add_ediv L s
    rw [mul_comm]; omega

theorem dot_snoc (a : List Int) :
    ∀ (b : List Int) (x y : Int), a.length = b.length →
      dot (a ++ [x]) (b ++ [y]) = dot a b + x * y := by
  induction a with
  | nil =>
    intro b x y h
    cases b with
    | nil => simp [dot]
    | cons c d => simp at h
  | cons u a ih =>
    intro b x y h
    cases b with
    | nil => simp at h
    | cons v b =>
      show u * v + dot (a ++ [x]) (b ++ [y]) = u * v + dot a b + x * y
      rw [ih b x y (by simpa using h)]
      ring

theorem dot_reverse (a : List Int) :
    ∀ (b : List Int), a.length = b.length → dot a.reverse b.reverse = dot a b := by
  induction a with
  | nil => intro b h; cases b <;> simp [dot]
  | cons u a ih =>
    intro b h
    cases b with
    | nil => simp at h
    | cons v b =>
      simp only [List.reverse_cons, dot]
      rw [dot_snoc _ _ _ _ (by simpa using h), ih b (by simpa using h)]
      ring

theorem preamble_data (T : THTensor) (DIM : Int) (allow fin : Bool) (hn : T.nDimension ≠ 0) :
    (TH_TENSOR_APPLYX_PREAMBLE T DIM allow fin).1.data = T.storage + T.storageOffset := by
  cases hc : (contigLoop T DIM T.nDimension (1, allow && decide (DIM < 0))).2 with
  | false => exact (preamble_nested T DIM allow fin hn hc).1.data_eq
  | true => rw [preamble_contig T DIM allow fin hn hc]; rfl

theorem atPos_data_eq {c : Cursor} {rs rst : List Int} (hR : Ready c rs rst) (k : Int) :
    (c.atPos rs rst k).data
      = c.data + dot (digitsRev c.sizes.reverse k) c.strides.reverse := by
  rw [hR.sizes_eq, hR.strides_eq]
  simp only [List.reverse_append, List.reverse_cons, List.reverse_nil, List.nil_append,
    List.reverse_reverse, List.singleton_append, digitsRev, dot, Cursor.atPos]
  ring

theorem rowMajorPointers_getD {T : THTensor} {c : Cursor} {rs rst : List Int}
    (hW : Walk T c rs rst) (hpos : ∀ s ∈ T.size, 1 ≤ s) (k : Nat)
    (hk : k < T.size.prod.toNat) :
    T.rowMajorPointers.getD k 0 = (c.atPos rs rst (k : Nat)).data := by
  have h := walk_ptrs hW hpos
  rw [← h, List.getD_eq_getElem _ _ (by simpa using hk)]
  simp

theorem apply1_elements {σ : Type} (T : THTensor) (DIM : Int) (f : Int → σ → σ) (s : σ)
    (hwf : T.WF) (hpos : ∀ s ∈ T.size, 1 ≤ s)
    (fuel : Nat) (hfuel : T.nElement.toNat ≤ fuel) :
    ∃ r, TH_TENSOR_APPLY_D T DIM (fun c => f c.data) s fuel = some r ∧
      r.raised = false ∧
      r.state = T.elementPointers.foldl (fun s p => f p s) s := by
  by_cases hT : T.nDimension = 0
  · refine ⟨_, apply1_empty T DIM _ s fuel hT, rfl, ?_⟩
    rw [elementPointers_of_empty T hT]
    rfl
  · rw [nElement_of_nonempty T hT] at hfuel
    refine ⟨_, apply1_data T DIM f s hwf hT hpos fuel hfuel, rfl, ?_⟩
    rw [elementPointers_of_nonempty T hT]

theorem foldl_zip_fst_trace (l1 l2 : List Int) (h : l1.length ≤ l2.length) :
    (l1.zip l2).foldl (fun tr p => tr ++ [p.1]) [] = l1 := by
  have h1 : (l1.zip l2).foldl (fun tr p => tr ++ [p.1]) []
      = ((l1.zip l2).map Prod.fst).foldl (fun tr p => tr ++ [p]) [] := by
    rw [List.foldl_map]
  rw [h1, foldl_snoc_trace, List.map_fst_zip _ _ h, List.nil_append]

theorem foldl_zip_snd_trace (l1 l2 : List Int) (h : l2.length ≤ l1.length) :
    (l1.zip l2).foldl (fun tr p => tr ++ [p.2]) [] = l2 := by
  have h1 : (l1.zip l2).foldl (fun tr p => tr ++ [p.2]) []
      = ((l1.zip l2).map Prod.snd).foldl (fun tr p => tr ++ [p]) [] := by
    rw [List.foldl_map]
  rw [h1, foldl_snoc_trace, List.map_snd_zip _ _ h, List.nil_append]

theorem contigLoop_true_of_dense (T : THTensor) (DIM : Int) (hDIM : DIM < 0)
    (hdense : ∀ i, i < T.nDimension → T.size.getD i 0 ≠ 1 →
      T.stride.getD i 0 = tailProd T (i + 1)) :
    (contigLoop T DIM T.nDimension (1, true && decide (DIM < 0))).2 = true := by
  rw [contigLoop_of_dense T DIM T.nDimension (le_refl _) 1 _ (tailProd_top T).symm]
  · simp [hDIM]
  · intro i hi h1
    exact ⟨hdense i hi h1, by omega⟩

theorem fold_copy_spec (l : List (Int × Int)) :
    ∀ (mem : Int → Int), (l.map Prod.snd).Nodup → (∀ x ∈ l, ∀ y ∈ l, x.2 ≠ y.1) →
      (∀ x ∈ l, (l.foldl (fun m p => Function.update m p.2 (m p.1)) mem) x.2 = mem x.1) ∧
      (∀ p, p ∉ l.map Prod.snd →
        (l.foldl (fun m p => Function.update m p.2 (m p.1)) mem) p = mem p) := by
  induction l with
  | nil => intro mem _ _; simp
  | cons x l ih =>
    intro mem hnd hdis
    rw [List.map_cons, List.nodup_cons] at hnd
    have hdis' : ∀ a ∈ l, ∀ b ∈ l, a.2 ≠ b.1 :=
      fun a ha b hb => hdis a (List.mem_cons_of_mem _ ha) b (List.mem_cons_of_mem _ hb)
    obtain ⟨ih1, ih2⟩ := ih (Function.update mem x.2 (mem x.1)) hnd.2 hdis'
    have hread : ∀ y ∈ x :: l, Function.update mem x.2 (mem x.1) y.1 = mem y.1 := by
      intro y hy
      have := hdis x (List.mem_cons_self _ _) y hy
      exact Function.update_noteq (Ne.symm this) _ _
    simp only [List.foldl_cons]
    constructor
    · intro y hy
      rcases List.mem_cons.mp hy with rfl | hy'
      · rw [ih2 _ hnd.1, Function.update_same]
      · rw [ih1 y hy', hread y hy]
    · intro p hp
      rw [List.map_cons, List.mem_cons, not_or] at hp
      rw [ih2 p hp.2, Function.update_noteq hp.1]

theorem fold_copy_back (l : List (Int × Int)) :
    ∀ (m : Int → Int), (∀ x ∈ l, m x.1 = m x.2) →
      l.foldl (fun m p => Function.update m p.2 (m p.1)) m = m := by
  induction l with
  | nil => intro m _; rfl
  | cons x l ih =>
    intro m h
    have hx : Function.update m x.2 (m x.1) = m := by
      rw [h x (List.mem_cons_self _ _)]
      exact Function.update_eq_self _ _
    rw [List.foldl_cons, hx]
    exact ih m fun y hy => h y (List.mem_cons_of_mem _ hy)

theorem mem_elementPointers_inStorage (T : THTensor) (len : Int) (h : T.viewInvariant len) :
    ∀ p ∈ T.elementPointers, T.inStorage len p := by
  intro p hp
  unfold THTensor.elementPointers at hp
  split at hp
  · simp at hp
  · unfold THTensor.rowMajorPointers at hp
    obtain ⟨idx, hidx, rfl⟩ := List.mem_map.mp hp
    exact h idx hidx

theorem whileLoop1_zero_outer_diverges {σ : Type} (CODE : Cursor → σ → σ) (off : DimOffset)
    (n : Int) :
    ∀ (fuel : Nat) (k d : Int) (s : σ), 0 ≤ k →
      whileLoop1 CODE fuel
        { data := d, counter := [k, 0], sizes := [0, 3], strides := [1, 1], dimOffset := off,
          stride := 1, size := 3, dim := 2, i := 0, n := n, contiguous := false,
          allocated := true } false s = none := by
  intro fuel
  induction fuel with
  | zero => intro k d s _; rfl
  | succ fuel ih =>
    intro k d s hk
    rw [whileLoop1]
    have h3 : ((3 : Int) - 0).toNat = 3 := by decide
    have hk1 : ¬ (k + 1 = 0) := by omega
    simp only [Bool.false_eq_true, if_false, h3, innerLoop1, Cursor.next,
      TH_TENSOR_APPLYX_UPDATE_COUNTERS, carryLoop]
    simp [hk1]
    exact ih _ _ _ (by omega)

theorem preamble_zero_outer :
    TH_TENSOR_APPLYX_PREAMBLE ⟨[0, 3], [1, 1], 0, 0⟩ (-1) false false
      = ({ data := 0, counter := [0, 0], sizes := [0, 3], strides := [1, 1],
           dimOffset := .ofCounter (-1), stride := 1, size := 3, dim := 2, i := 0, n := 0,
           contiguous := false, allocated := true }, false) := by
  decide

theorem whileLoop1_zero_inner {σ : Type} (CODE : Cursor → σ → σ) (rs rst : List Int)
    (st base : Int) (hlen : rst.length = rs.length) (hpos : ∀ s ∈ rs, 1 ≤ s) :
    ∀ (rem : Nat) (L : Int) (fuel : Nat) (s : σ) (c : Cursor),
      0 ≤ L → 1 ≤ rem → L + rem = rs.prod → rem ≤ fuel →
      c.sizes = rs.reverse ++ [0] → c.strides = rst.reverse ++ [st] →
      c.dim = rs.length + 1 → c.size = 0 → c.contiguous = false → c.i = 0 →
      c.counter = (digitsRev rs L).reverse ++ [0] →
      c.data = base + dot (digitsRev rs L) rst →
      whileLoop1 CODE fuel c false s = some s := by
  intro rem
  induction rem with
  | zero => intro L fuel s c _ h1; omega
  | succ rem ih =>
    intro L fuel s c h0 _ hL hfuel hS hSt hdim hsize hc hi hC hD
    cases fuel with
    | zero => omega
    | succ fuel =>
      rw [whileLoop1]
      have hin : (c.size - c.i).toNat = 0 := by rw [hsize, hi]; rfl
      simp only [Bool.false_eq_true, if_false, hin, innerLoop1]
      unfold TH_TENSOR_APPLYX_UPDATE_COUNTERS
      rw [if_pos (Or.inr rfl)]
      have hc2 : ¬ c.contiguous = true := by rw [hc]; simp
      rw [if_neg hc2]
      by_cases hd : c.dim = 1
      · rw [if_pos hd]
        simp
      · rw [if_neg hd]
        have hdim1 : c.dim - 1 = rs.length := by omega
        have hrs : rs ≠ [] := by
          rintro rfl
          exact hd (by simpa using hdim)
        simp only [hdim1]
        by_cases hlast : L + 1 = rs.prod
        · have hfin := carryLoop_finish rs L
            { c with data := c.data - c.size * c.stride } false [0] [0] hrs hpos h0 hlast hS hC
          simp only [Bool.false_eq_true, if_false]
          rw [hfin]
          exact whileLoop_done1 CODE fuel _ s
        · have key := carryLoop_digits rs rst L
            { c with data := c.data - c.size * c.stride } false [0] [st] [0] base hlen hpos h0
            (by omega) hS hSt hC (by simp only [hsize, hD]; ring)
          rw [key]
          simp only [Bool.false_eq_true, if_false]
          exact ih (L + 1) fuel s _ (by omega) (by omega) (by omega) (by omega) hS hSt hdim
            hsize hc rfl rfl rfl

theorem apply1_zero_inner {σ : Type} (T : THTensor) (DIM : Int) (CODE : Cursor → σ → σ)
    (s : σ) (outer : List (List Nat)) (g : List Nat)
    (hruns : refRuns T DIM = outer ++ [g]) (hz : runSize T g = 0)
    (hpos : ∀ h ∈ outer, 1 ≤ runSize T h)
    (fuel : Nat) (hfuel : (outer.map (runSize T)).prod.toNat ≤ fuel) :
    TH_TENSOR_APPLY_D T DIM CODE s fuel
      = some { raised := false, state := s, allocated := 1, freed := 1 } := by
  have hn : T.nDimension ≠ 0 := by
    intro h0
    have : refRuns T DIM = [] := by
      unfold refRuns
      rw [h0]
      rfl
    rw [this] at hruns
    simp at hruns
  have hcl : (contigLoop T DIM T.nDimension (1, false && decide (DIM < 0))).2 = false := by
    simpa using contigLoop_false T DIM T.nDimension 1
  obtain ⟨hP, hfin⟩ := preamble_nested T DIM false false hn hcl
  have hposr : ∀ x ∈ (outer.map (runSize T)).reverse, 1 ≤ x := by
    intro x hx
    rw [List.mem_reverse, List.mem_map] at hx
    obtain ⟨h, hh, rfl⟩ := hx
    exact hpos h hh
  have hP1 := prod_pos_of_pos _ hposr
  rw [List.prod_reverse] at hP1
  have hdim : (TH_TENSOR_APPLYX_PREAMBLE T DIM false false).1.dim
      = ((outer.map (runSize T)).reverse).length + 1 := by
    rw [hP.dim_eq, hruns]; simp
  have hS : (TH_TENSOR_APPLYX_PREAMBLE T DIM false false).1.sizes
      = ((outer.map (runSize T)).reverse).reverse ++ [0] := by
    rw [hP.sizes_eq, hruns, List.reverse_reverse, List.map_append, List.map_singleton, hz]
  have hSt : (TH_TENSOR_APPLYX_PREAMBLE T DIM false false).1.strides
      = ((outer.map (runStride T)).reverse).reverse ++ [runStride T g] := by
    rw [hP.strides_eq, hruns, List.reverse_reverse, List.map_append, List.map_singleton]
  have hsize : (TH_TENSOR_APPLYX_PREAMBLE T DIM false false).1.size = 0 := by
    rw [hP.size_eq, hdim, hS, Nat.add_sub_cancel, ← List.length_reverse
      ((outer.map (runSize T)).reverse)]
    exact getD_at_length _ _ _ _
  have hrun := whileLoop1_zero_inner CODE (outer.map (runSize T)).reverse
    (outer.map (runStride T)).reverse (runStride T g) (T.storage + T.storageOffset)
    (by simp) hposr (outer.map (runSize T)).prod.toNat 0 fuel s
    (TH_TENSOR_APPLYX_PREAMBLE T DIM false false).1 (le_refl _) (by omega)
    (by rw [List.prod_reverse]; omega) hfuel hS hSt hdim hsize hP.contiguous_eq hP.i_eq
    (by
      rw [hP.counter_eq, hdim, digitsRev_zero, List.reverse_replicate, List.replicate_succ']
      )
    (by rw [hP.data_eq, digitsRev_zero, dot_replicate_zero, add_zero])
  unfold TH_TENSOR_APPLY_D
  simp only [hfin, hrun, Option.map_some', blocks_of_allocated hP.allocated_eq]

theorem carryLoopOmp_digits (rs : List Int) :
    ∀ (rst : List Int) (L : Int) (c : Cursor) (tS tSt tC : List Int) (base : Int),
      rst.length = rs.length → (∀ s ∈ rs, 1 ≤ s) → 0 ≤ L → L + 1 < rs.prod →
      c.sizes = rs.reverse ++ tS → c.strides = rst.reverse ++ tSt →
      c.counter = (digitsRev rs L).reverse ++ tC →
      c.data = base + dot (digitsRev rs L) rst →
      ∃ iv, carryLoopOmp rs.length c =
        { c with counter := (digitsRev rs (L + 1)).reverse ++ tC
                 data := base + dot (digitsRev rs (L + 1)) rst
                 i := iv } := by
  induction rs with
  | nil =>
    intro rst L c tS tSt tC base _ _ h0 h1
    simp at h1; omega
  | cons s rs ih =>
    intro rst L c tS tSt tC base hlen hpos h0 h1 hS hSt hC hD
    obtain ⟨st, rst, rfl⟩ : ∃ st r, rst = st :: r := by
      cases rst with
      | nil => simp at hlen
      | cons a b => exact ⟨a, b, rfl⟩
    have hs : 1 ≤ s := hpos s (by simp)
    have hlen2 : rst.length = rs.length := by simpa using hlen
    have hdl : (digitsRev rs (L / s)).reverse.length = rs.length := by
      simp [length_digitsRev]
    have hSl : rs.reverse.length = rs.length := by simp
    have hStl : rst.reverse.length = rs.length := by simp [hlen2]
    simp only [digitsRev, List.reverse_cons, List.append_assoc, List.singleton_append] at hS hSt hC hD ⊢
    simp only [List.length_cons, carryLoopOmp]
    have e1 : c.counter.getD rs.length 0 = L % s := by
      rw [hC, ← hdl]; exact getD_at_length _ _ _ _
    have e2 : c.sizes.getD rs.length 0 = s := by
      rw [hS, ← hSl]; exact getD_at_length _ _ _ _
    have e3 : c.strides.getD rs.length 0 = st := by
      rw [hSt, ← hStl]; exact getD_at_length _ _ _ _
    have e4 : ∀ y, c.counter.set rs.length y = (digitsRev rs (L / s)).reverse ++ y :: tC := by
      intro y; rw [hC]; conv_lhs => rw [← hdl]
      exact set_at_length _ _ _ _
    have e5 : ∀ y, ((digitsRev rs (L / s)).reverse ++ y :: tC).getD rs.length 0 = y := by
      intro y; conv_lhs => rw [← hdl]
      exact getD_at_length _ _ _ _
    have e6 : ∀ y z, ((digitsRev rs (L / s)).reverse ++ y :: tC).set rs.length z
        = (digitsRev rs (L / s)).reverse ++ z :: tC := by
      intro y z; conv_lhs => rw [← hdl]
      exact set_at_length _ _ _ _
    simp only [e1, e2, e3, e4, e5, e6]
    by_cases hw : L % s + 1 = s
    · rw [if_pos hw]
      obtain ⟨w1, w2⟩ := succ_wrap hs hw
      have hprod : L / s + 1 < rs.prod := by
        have h3 : s * (L / s + 1) < s * rs.prod := by
          have := Int.emod_add_ediv L s
          rw [mul_add]; simp only [List.prod_cons] at h1; omega
        exact lt_of_mul_lt_mul_left h3 (by omega)
      obtain ⟨iv, key⟩ := ih rst (L / s)
        { c with data := c.data + st - s * st
                 counter := (digitsRev rs (L / s)).reverse ++ 0 :: tC }
        (s :: tS) (st :: tSt) (0 :: tC) base hlen2
        (fun x hx => hpos x (by simp [hx])) (Int.ediv_nonneg h0 (by omega)) hprod hS hSt rfl
        (by simp only [hD, dot]; linear_combination st * hw)
      refine ⟨iv, ?_⟩
      rw [key]
      simp only [w1, w2, dot]
      congr 2
      ring
    · rw [if_neg hw]
      obtain ⟨w1, w2⟩ := succ_nowrap hs hw
      refine ⟨(rs.length : Int) - 1, ?_⟩
      simp only [w1, w2, dot, hD]
      congr 1
      ring

theorem ompAt_adv {c0 : Cursor} {rs rst : List Int} (hR : Ready c0 rs rst) (z k : Int) (r : Nat)
    (h : k % c0.size + r < c0.size) :
    ((ompAt c0 rs rst z k).adv r).cur = (ompAt c0 rs rst z (k + r)).cur := by
  obtain ⟨w1, w2⟩ := divmod_within hR.size_pos (Int.ofNat_nonneg r) h
  simp only [OmpLocal.adv, Cursor.adv, ompAt, w1, w2]
  congr 1
  ring

theorem ompAt_data (c0 : Cursor) (rs rst : List Int) (z k : Int) :
    (ompAt c0 rs rst z k).cur.data = (c0.atPos rs rst k).data := rfl

theorem ompInit_eq {c : Cursor} {rs rst : List Int} (hR : Ready c rs rst) (L : Int)
    (h0 : 0 ≤ L) :
    (fun (l : OmpLocal) => { l with cur := { l.cur with i := l.start } })
        (ompLocalInit c c.data L)
      = ompAt c rs rst (L % c.size) L := by
  have hS : c.sizes.length = c.dim := by rw [hR.sizes_eq, hR.dim_eq]; simp
  have hSt : c.strides.length = c.dim := by rw [hR.strides_eq, hR.dim_eq]; simp [hR.len]
  have hpos : ∀ s ∈ c.sizes, 1 ≤ s := by
    intro s hs
    rw [hR.sizes_eq] at hs
    rcases List.mem_append.mp hs with h | h
    · exact hR.pos s (List.mem_reverse.mp h)
    · rw [List.mem_singleton] at h; rw [h]; exact hR.size_pos
  obtain ⟨e1, e2⟩ := cal_offset_eq c L hS hSt hpos h0
  have hrev : c.sizes.reverse = c.size :: rs := by rw [hR.sizes_eq]; simp
  have hrevs : c.strides.reverse = c.stride :: rst := by rw [hR.strides_eq]; simp
  rw [hrev] at e1
  rw [hrev, hrevs] at e2
  simp only [digitsRev, List.reverse_cons, dot] at e1 e2
  have hstart : ((digitsRev rs (L / c.size)).reverse ++ [L % c.size]).getD (c.dim - 1) 0
      = L % c.size := by
    have : c.dim - 1 = (digitsRev rs (L / c.size)).reverse.length := by
      rw [hR.dim_eq]; simp [length_digitsRev]
    rw [this]
    exact getD_at_length _ _ _ _
  simp only [ompLocalInit, ompAt, e1, e2, hstart]
  congr 2
  ring

theorem ompInner_spec {σ : Type} (CODE : List Cursor → σ → σ) (len : Int) :
    ∀ (fuel : Nat) (ls : List OmpLocal) (count : Int) (s : σ),
      count ≤ len → (len - count).toNat ≤ fuel → (∀ l ∈ ls, l.cur.i ≤ l.cur.size) →
      ∃ r : Nat, count + r ≤ len ∧ (∀ l ∈ ls, l.cur.i + r ≤ l.cur.size) ∧
        (count + r = len ∨ ∃ l ∈ ls, l.cur.i + r = l.cur.size) ∧
        ompInner CODE len fuel ls count s
          = (ls.map fun l => l.adv r, count + r,
              (List.range r).foldl (fun s t => CODE (ls.map fun l => (l.adv t).cur) s) s) := by
  intro fuel
  induction fuel with
  | zero =>
    intro ls count s hc hf hi
    refine ⟨0, by simpa using hc, by simpa using hi, Or.inl (by simp; omega), ?_⟩
    simp [ompInner, OmpLocal.adv, adv_zero]
  | succ fuel ih =>
    intro ls count s hc hf hi
    rw [ompInner]
    by_cases hcond : count < len ∧ ∀ l ∈ ls, l.cur.i < l.cur.size
    · rw [if_pos hcond]
      obtain ⟨r, h1, h2, h3, h4⟩ := ih (ls.map OmpLocal.next) (count + 1)
        (CODE (ls.map fun l => l.cur) s) (by omega) (by omega)
        (by
          intro l hl
          obtain ⟨l0, hl0, rfl⟩ := List.mem_map.mp hl
          have := hcond.2 l0 hl0
          simp only [OmpLocal.next, Cursor.next]
          omega)
      refine ⟨r + 1, by push_cast; omega, ?_, ?_, ?_⟩
      · intro l hl
        have := h2 _ (List.mem_map_of_mem OmpLocal.next hl)
        simp only [OmpLocal.next, Cursor.next] at this
        push_cast; omega
      · rcases h3 with h | ⟨l, hl, h⟩
        · left; push_cast; omega
        · right
          obtain ⟨l0, hl0, rfl⟩ := List.mem_map.mp hl
          refine ⟨l0, hl0, ?_⟩
          simp only [OmpLocal.next, Cursor.next] at h
          push_cast; omega
      · have hadv : ∀ (l : OmpLocal) (t : Nat), l.next.adv t = l.adv (t + 1) := by
          intro l t
          simp only [OmpLocal.next, OmpLocal.adv, next_adv]
        have hmap : (ls.map OmpLocal.next).map (fun l => l.adv r)
            = ls.map fun l => l.adv (r + 1) := by
          rw [List.map_map]
          exact List.map_congr_left fun l _ => hadv l r
        have hfold : (fun (s : σ) (t : Nat) =>
              CODE ((ls.map OmpLocal.next).map fun l => (l.adv t).cur) s)
            = fun s t => CODE (ls.map fun l => (l.adv (t + 1)).cur) s := by
          funext s t
          congr 1
          rw [List.map_map]
          exact List.map_congr_left fun l _ => by
            show (l.next.adv t).cur = _
            rw [hadv]
        have hzero : (ls.map fun l => (l.adv 0).cur) = ls.map fun l => l.cur := by
          exact List.map_congr_left fun l _ => by
            show l.cur.adv 0 = l.cur
            exact adv_zero _
        have hcnt : count + 1 + (r : Int) = count + ((r + 1 : Nat) : Int) := by
          push_cast; ring
        rw [h4, foldl_range_succ, hmap, hfold, hzero, hcnt]
    · rw [if_neg hcond]
      refine ⟨0, by simpa using hc, by simpa using hi, ?_, ?_⟩
      · by_cases hlt : count < len
        · right
          have : ¬ ∀ l ∈ ls, l.cur.i < l.cur.size := fun h => hcond ⟨hlt, h⟩
          push_neg at this
          obtain ⟨l, hl, h⟩ := this
          exact ⟨l, hl, by have := hi l hl; simp; omega⟩
        · left; simp; omega
      · simp [OmpLocal.adv, adv_zero]

theorem ompWhile_done {σ : Type} (CODE : List Cursor → σ → σ) (len : Int) (fuel : Nat)
    (ls : List OmpLocal) (count : Int) (s : σ) (h : ¬ count < len) :
    ompWhile CODE len fuel ls count s = some s := by
  cases fuel <;> simp [ompWhile, h]

theorem ompUpdate_pos {c0 : Cursor} {rs rst : List Int} (hR : Ready c0 rs rst) (z : Int)
    (k r : Nat) (hle : (k : Int) % c0.size + r ≤ c0.size)
    (hn : (k : Int) + r < c0.size * rs.prod) :
    (fun (l : OmpLocal) => { l with cur := { l.cur with i := l.start } })
        (TH_TENSOR_APPLYX_UPDATE_COUNTERS_OMP ((ompAt c0 rs rst z k).adv r))
      = ompAt c0 rs rst z ((k + r : Nat) : Int) := by
  have hs := hR.size_pos
  have hk : (0 : Int) ≤ k := Int.ofNat_nonneg k
  push_cast
  by_cases hb : (k : Int) % c0.size + r = c0.size
  · obtain ⟨w1, w2⟩ := divmod_boundary hs hb
    have hdm := Int.emod_add_ediv (k : Int) c0.size
    have hq0 : 0 ≤ (k : Int) / c0.size := Int.ediv_nonneg hk (by omega)
    have hprod : (k : Int) / c0.size + 1 < rs.prod := by
      have h3 : c0.size * ((k : Int) / c0.size + 1) < c0.size * rs.prod := by
        rw [mul_add]; omega
      exact lt_of_mul_lt_mul_left h3 (by omega)
    have hrs : rs ≠ [] := by
      rintro rfl
      simp at hprod; omega
    have hd : c0.dim > 1 := by
      rw [hR.dim_eq]
      have : rs.length ≠ 0 := fun h0 => hrs (List.length_eq_zero.mp h0)
      omega
    have hi : ((ompAt c0 rs rst z k).adv r).cur.i = ((ompAt c0 rs rst z k).adv r).cur.size := by
      simp only [OmpLocal.adv, Cursor.adv, ompAt]; omega
    obtain ⟨iv, key⟩ := carryLoopOmp_digits rs rst ((k : Int) / c0.size)
      { ((ompAt c0 rs rst z k).adv r).cur with
        data := ((ompAt c0 rs rst z k).adv r).cur.data
          - ((ompAt c0 rs rst z k).adv r).cur.size * ((ompAt c0 rs rst z k).adv r).cur.stride }
      [c0.size] [c0.stride] [z] c0.data hR.len hR.pos hq0 hprod
      hR.sizes_eq hR.strides_eq rfl
      (by
        simp only [OmpLocal.adv, Cursor.adv, ompAt]
        have : (r : Int) = c0.size - (k : Int) % c0.size := by omega
        rw [this]; ring)
    have hdim : ((ompAt c0 rs rst z k).adv r).cur.dim - 1 = rs.length := by
      simp only [OmpLocal.adv, Cursor.adv, ompAt, hR.dim_eq]; omega
    have hd2 : ((ompAt c0 rs rst z k).adv r).cur.dim > 1 := by
      simpa only [OmpLocal.adv, Cursor.adv, ompAt] using hd
    unfold TH_TENSOR_APPLYX_UPDATE_COUNTERS_OMP
    rw [if_pos ⟨hi, hd2⟩]
    simp only [hdim]
    rw [key]
    simp only [OmpLocal.adv, Cursor.adv, ompAt, w1, w2]
    simp
  · obtain ⟨w1, w2⟩ := divmod_within hs (Int.ofNat_nonneg r) (by omega : (k : Int) % c0.size + r < c0.size)
    have hi : ¬ (((ompAt c0 rs rst z k).adv r).cur.i = ((ompAt c0 rs rst z k).adv r).cur.size
        ∧ ((ompAt c0 rs rst z k).adv r).cur.dim > 1) := by
      simp only [OmpLocal.adv, Cursor.adv, ompAt]
      intro h; omega
    unfold TH_TENSOR_APPLYX_UPDATE_COUNTERS_OMP
    rw [if_neg hi]
    simp only [OmpLocal.adv, Cursor.adv, ompAt, w1, w2]
    congr 2
    ring

theorem ompWhile_run {σ : Type} (CODE : List Cursor → σ → σ) (ps : List OmpPlan) (N : Int)
    (hR : ∀ p ∈ ps, Ready p.c0 p.rs p.rst ∧ p.c0.size * p.rs.prod = N)
    (off e : Nat) (he : (e : Int) ≤ N) :
    ∀ (rem k fuel : Nat) (s : σ) (ls : List OmpLocal) (count : Int),
      off ≤ k → k + rem = e → rem ≤ fuel → count = (k : Int) - off →
      ls.map (fun l => { l with cur := { l.cur with i := l.start } })
        = ps.map (fun p => p.pos (k : Nat)) →
      ompWhile CODE ((e : Int) - off) fuel ls count s
        = some ((List.range' k rem).foldl
            (fun s j => CODE (ps.map fun p => (p.pos ((j : Nat) : Int)).cur) s) s) := by
  intro rem
  induction rem using Nat.strong_induction_on with
  | _ rem ih =>
    intro k fuel s ls count hk hrem hfuel hcount hls
    by_cases h0 : rem = 0
    · subst h0
      rw [ompWhile_done CODE _ fuel ls count s (by omega)]
      rfl
    · cases fuel with
      | zero => omega
      | succ fuel =>
        have hlt : count < (e : Int) - off := by omega
        rw [ompWhile, if_pos hlt, hls]
        obtain ⟨r, h1, h2, h3, h4⟩ := ompInner_spec CODE ((e : Int) - off)
          (((e : Int) - off - count).toNat) (ps.map fun p => p.pos (k : Nat)) count s
          (by omega) (le_refl _)
          (by
            intro l hl
            obtain ⟨p, hp, rfl⟩ := List.mem_map.mp hl
            have hs := (hR p hp).1.size_pos
            have := Int.emod_lt_of_pos (k : Int) (by omega : 0 < p.c0.size)
            show (k : Int) % p.c0.size ≤ p.c0.size
            omega)
        have hbound : ∀ p ∈ ps, (k : Int) % p.c0.size + r ≤ p.c0.size := by
          intro p hp
          exact h2 _ (List.mem_map_of_mem (fun p => p.pos (k : Nat)) hp)
        have hr1 : 1 ≤ r := by
          by_contra hr
          have hr0 : r = 0 := by omega
          subst hr0
          rcases h3 with h | ⟨l, hl, h⟩
          · simp at h; omega
          · obtain ⟨p, hp, rfl⟩ := List.mem_map.mp hl
            have hs := (hR p hp).1.size_pos
            have := Int.emod_lt_of_pos (k : Int) (by omega : 0 < p.c0.size)
            have h' : (k : Int) % p.c0.size + ((0 : Nat) : Int) = p.c0.size := h
            simp at h'
            omega
        have hfold : (List.range r).foldl
              (fun s t => CODE ((ps.map fun p => p.pos (k : Nat)).map fun l => (l.adv t).cur) s) s
            = (List.range' k r).foldl
              (fun s j => CODE (ps.map fun p => (p.pos ((j : Nat) : Int)).cur) s) s := by
          apply foldl_range_shift
            (fun t => CODE ((ps.map fun p => p.pos (k : Nat)).map fun l => (l.adv t).cur))
            (fun j => CODE (ps.map fun p => (p.pos ((j : Nat) : Int)).cur))
          intro t ht
          have hl : ((ps.map fun p => p.pos (k : Nat)).map fun l => (l.adv t).cur)
              = ps.map fun p => (p.pos ((k + t : Nat) : Int)).cur := by
            rw [List.map_map]
            apply List.map_congr_left
            intro p hp
            have := ompAt_adv (hR p hp).1 p.z (k : Int) t (by have := hbound p hp; omega)
            show ((ompAt p.c0 p.rs p.rst p.z (k : Int)).adv t).cur
              = (ompAt p.c0 p.rs p.rst p.z ((k + t : Nat) : Int)).cur
            rw [this]
            push_cast
            rfl
          exact congrArg CODE hl
        rw [h4]
        simp only
        rw [hfold]
        by_cases hmore : count + (r : Int) < (e : Int) - off
        · rw [if_pos hmore]
          rw [ih (rem - r) (by omega) (k + r) fuel _ _ (count + r) (by omega) (by omega)
            (by omega) (by push_cast; omega)
            (by
              rw [List.map_map, List.map_map, List.map_map]
              apply List.map_congr_left
              intro p hp
              exact ompUpdate_pos (hR p hp).1 p.z k r (hbound p hp)
                (by rw [(hR p hp).2]; omega))]
          rw [← List.foldl_append]
          congr 1
          have := List.range'_append_1 k r (rem - r)
          rw [this, show rem - r + r = rem by omega]
        · rw [if_neg hmore]
          rw [ompWhile_done CODE _ fuel _ _ _ hmore]
          have : rem = r := by omega
          rw [this]

theorem ompPlanned_exists (SIZE off : Nat) (T : THTensor) (hwf : T.WF)
    (hn : T.nDimension ≠ 0) (hpos : ∀ s ∈ T.size, 1 ≤ s) (hsize : T.size.prod = (SIZE : Int)) :
    ∃ p, OmpPlanned SIZE off T p := by
  obtain ⟨⟨rs, rst, hW⟩, _, _⟩ := preamble_walk T (-1) true false hwf hn hpos
  exact ⟨⟨(TH_TENSOR_APPLYX_PREAMBLE T (-1) true false).1, rs, rst,
    (off : Int) % (TH_TENSOR_APPLYX_PREAMBLE T (-1) true false).1.size⟩,
    hn, hpos, hsize, rfl, hW, rfl⟩

theorem ompPlanned_data {SIZE off : Nat} {T : THTensor} {p : OmpPlan}
    (h : OmpPlanned SIZE off T p) (j : Nat) (hj : j < SIZE) :
    (p.pos ((j : Nat) : Int)).cur.data = T.elementPointers.getD j 0 := by
  obtain ⟨hn, hpos, hsize, _, hW, _⟩ := h
  rw [elementPointers_of_nonempty T hn,
    rowMajorPointers_getD hW hpos j (by rw [hsize]; simpa using hj)]
  rfl

theorem ompPlanned_ready {SIZE off : Nat} {Ts : List THTensor} {ps : List OmpPlan}
    (hps : List.Forall₂ (OmpPlanned SIZE off) Ts ps) :
    ∀ p ∈ ps, Ready p.c0 p.rs p.rst ∧ p.c0.size * p.rs.prod = (SIZE : Int) := by
  induction hps with
  | nil => intro p hp; simp at hp
  | @cons T p Ts ps h _ ih =>
    intro q hq
    rcases List.mem_cons.mp hq with rfl | hq
    · obtain ⟨_, _, hsize, _, hW, _⟩ := h
      exact ⟨hW.ready, by rw [hW.count, hsize]⟩
    · exact ih q hq

theorem ompPlanned_init {SIZE off : Nat} {Ts : List THTensor} {ps : List OmpPlan}
    (hps : List.Forall₂ (OmpPlanned SIZE off) Ts ps) :
    (Ts.map fun T =>
        ompLocalInit (TH_TENSOR_APPLYX_PREAMBLE T (-1) true false).1
          (T.storage + T.storageOffset) ((off : Nat) : Int)).map
        (fun l => { l with cur := { l.cur with i := l.start } })
      = ps.map fun p => p.pos ((off : Nat) : Int) := by
  induction hps with
  | nil => rfl
  | @cons T p Ts ps h _ ih =>
    rw [List.map_cons, List.map_cons, List.map_cons, ih]
    congr 1
    obtain ⟨hn, _, _, hc, hW, hz⟩ := h
    have hd := preamble_data T (-1) true false hn
    rw [← hd, ← hc]
    have := ompInit_eq hW.ready ((off : Nat) : Int) (Int.ofNat_nonneg _)
    rw [← hz] at this
    exact this

theorem ompThread_run {σ : Type} (SIZE num_threads tid : Nat) (Ts : List THTensor)
    (ps : List OmpPlan) (CODE : List Cursor → σ → σ) (s : σ) (fuel : Nat)
    (ht : tid < num_threads)
    (hps : List.Forall₂ (OmpPlanned SIZE (line_index_offset SIZE num_threads tid)) Ts ps)
    (hfuel : (line_seg_len SIZE num_threads tid).toNat ≤ fuel) :
    ompThread SIZE num_threads tid Ts CODE s fuel
      = some ((ompSegment SIZE num_threads tid).foldl
          (fun s j => CODE (ps.map fun p => (p.pos ((j : Nat) : Int)).cur) s) s) := by
  obtain ⟨hb1, hb2⟩ := line_index_bounds SIZE num_threads tid ht
  have hlen : (line_seg_len SIZE num_threads tid).toNat
      = line_index_end SIZE num_threads tid - line_index_offset SIZE num_threads tid := by
    unfold line_seg_len; omega
  unfold ompThread ompSegment
  rw [hlen]
  have hrun := ompWhile_run CODE ps (SIZE : Int) (ompPlanned_ready hps)
    (line_index_offset SIZE num_threads tid) (line_index_end SIZE num_threads tid)
    (by exact_mod_cast hb2)
    (line_index_end SIZE num_threads tid - line_index_offset SIZE num_threads tid)
    (line_index_offset SIZE num_threads tid) fuel s _ 0 (le_refl _) (by omega)
    (by omega) (by simp) (ompPlanned_init hps)
  exact hrun

theorem mem_ompSegment {SIZE num_threads tid : Nat} (ht : tid < num_threads) {j : Nat}
    (hj : j ∈ ompSegment SIZE num_threads tid) :
    line_index_offset SIZE num_threads tid ≤ j ∧ j < line_index_end SIZE num_threads tid ∧
      j < SIZE := by
  obtain ⟨hb1, hb2⟩ := line_index_bounds SIZE num_threads tid ht
  unfold ompSegment line_seg_len at hj
  rw [List.mem_range'_1] at hj
  omega

theorem length_ompSegment (SIZE num_threads tid : Nat) :
    ((ompSegment SIZE num_threads tid).length : Int)
      = max (line_seg_len SIZE num_threads tid) 0 := by
  unfold ompSegment
  rw [List.length_range']
  omega

theorem ompSegments_upto (SIZE T : Nat) (hT : 1 ≤ T) :
    ∀ m, m ≤ T → (List.range m).flatMap (ompSegment SIZE T)
      = List.range (if m = T then SIZE else line_index_offset SIZE T m) := by
  intro m
  induction m with
  | zero =>
    intro _
    rw [if_neg (by omega)]
    simp [line_index_offset]
  | succ m ih =>
    intro hm
    have hmT : m < T := by omega
    obtain ⟨hb1, hb2⟩ := line_index_bounds SIZE T m hmT
    rw [List.range_succ, List.flatMap_append, ih (by omega), if_neg (by omega)]
    simp only [List.flatMap_cons, List.flatMap_nil, List.append_nil]
    have hseg : ompSegment SIZE T m
        = List.range' (line_index_offset SIZE T m)
            (line_index_end SIZE T m - line_index_offset SIZE T m) := by
      unfold ompSegment line_seg_len
      congr 1
      omega
    have hend : (if m + 1 = T then SIZE else line_index_offset SIZE T (m + 1))
        = line_index_end SIZE T m := by
      by_cases h : m + 1 = T
      · rw [if_pos h]
        unfold line_index_end
        rw [if_pos (by omega)]
      · rw [if_neg h, line_index_end_succ SIZE T m (by omega)]
    rw [hseg, hend, List.range_eq_range', List.range_eq_range']
    have := List.range'_append_1 0 (line_index_offset SIZE T m)
      (line_index_end SIZE T m - line_index_offset SIZE T m)
    rw [Nat.zero_add] at this
    rw [this]
    congr 1
    omega

theorem ompSegments_cover (SIZE T : Nat) (hT : 1 ≤ T) :
    (List.range T).flatMap (ompSegment SIZE T) = List.range SIZE := by
  rw [ompSegments_upto SIZE T hT T (le_refl _), if_pos rfl]

theorem reduction_omp_thread {σ : Type} (SIZE num_threads tid : Nat) (A : THTensor)
    (f : Int → σ → σ) (s : σ) (fuel : Nat) (ht : tid < num_threads)
    (hwfA : A.WF) (hnA : A.nDimension ≠ 0) (hposA : ∀ s ∈ A.size, 1 ≤ s)
    (hA : A.size.prod = (SIZE : Int))
    (hfuel : (line_seg_len SIZE num_threads tid).toNat ≤ fuel) :
    ompThread SIZE num_threads tid [A]
        (fun cs s => match cs with
          | [c1] => f c1.data s
          | _ => s) s fuel
      = some ((ompSegment SIZE num_threads tid).foldl
          (fun s j => f (A.elementPointers.getD j 0) s) s) := by
  obtain ⟨pA, hpA⟩ := ompPlanned_exists SIZE (line_index_offset SIZE num_threads tid) A
    hwfA hnA hposA hA
  rw [ompThread_run SIZE num_threads tid [A] [pA] _ s fuel ht
    (List.Forall₂.cons hpA List.Forall₂.nil) hfuel]
  congr 1
  apply List.foldl_ext
  intro s j hj
  have hlt := (mem_ompSegment ht hj).2.2
  simp only [List.map_cons, List.map_nil]
  rw [ompPlanned_data hpA j hlt]

theorem apply2_omp_thread {σ : Type} (SIZE num_threads tid : Nat) (A B : THTensor)
    (f : Int → Int → σ → σ) (s : σ) (fuel : Nat) (ht : tid < num_threads)
    (hwfA : A.WF) (hnA : A.nDimension ≠ 0) (hposA : ∀ s ∈ A.size, 1 ≤ s)
    (hA : A.size.prod = (SIZE : Int))
    (hwfB : B.WF) (hnB : B.nDimension ≠ 0) (hposB : ∀ s ∈ B.size, 1 ≤ s)
    (hB : B.size.prod = (SIZE : Int))
    (hfuel : (line_seg_len SIZE num_threads tid).toNat ≤ fuel) :
    TH_TENSOR_APPLY2_OMP_thread SIZE num_threads tid A B (fun a b => f a.data b.data) s fuel
      = some ((ompSegment SIZE num_threads tid).foldl
          (fun s j => f (A.elementPointers.getD j 0) (B.elementPointers.getD j 0) s) s) := by
  obtain ⟨pA, hpA⟩ := ompPlanned_exists SIZE (line_index_offset SIZE num_threads tid) A
    hwfA hnA hposA hA
  obtain ⟨pB, hpB⟩ := ompPlanned_exists SIZE (line_index_offset SIZE num_threads tid) B
    hwfB hnB hposB hB
  unfold TH_TENSOR_APPLY2_OMP_thread
  rw [ompThread_run SIZE num_threads tid [B, A] [pB, pA] _ s fuel ht
    (List.Forall₂.cons hpB (List.Forall₂.cons hpA List.Forall₂.nil)) hfuel]
  congr 1
  apply List.foldl_ext
  intro s j hj
  have hlt := (mem_ompSegment ht hj).2.2
  simp only [List.map_cons, List.map_nil]
  rw [ompPlanned_data hpA j hlt, ompPlanned_data hpB j hlt]

theorem apply3_omp_thread {σ : Type} (SIZE num_threads tid : Nat) (A B C : THTensor)
    (f : Int → Int → Int → σ → σ) (s : σ) (fuel : Nat) (ht : tid < num_threads)
    (hwfA : A.WF) (hnA : A.nDimension ≠ 0) (hposA : ∀ s ∈ A.size, 1 ≤ s)
    (hA : A.size.prod = (SIZE : Int))
    (hwfB : B.WF) (hnB : B.nDimension ≠ 0) (hposB : ∀ s ∈ B.size, 1 ≤ s)
    (hB : B.size.prod = (SIZE : Int))
    (hwfC : C.WF) (hnC : C.nDimension ≠ 0) (hposC : ∀ s ∈ C.size, 1 ≤ s)
    (hC : C.size.prod = (SIZE : Int))
    (hfuel : (line_seg_len SIZE num_threads tid).toNat ≤ fuel) :
    TH_TENSOR_APPLY3_OMP_thread SIZE num_threads tid A B C
        (fun a b c => f a.data b.data c.data) s fuel
      = some ((ompSegment SIZE num_threads tid).foldl
          (fun s j => f (A.elementPointers.getD j 0) (B.elementPointers.getD j 0)
            (C.elementPointers.getD j 0) s) s) := by
  obtain ⟨pA, hpA⟩ := ompPlanned_exists SIZE (line_index_offset SIZE num_threads tid) A
    hwfA hnA hposA hA
  obtain ⟨pB, hpB⟩ := ompPlanned_exists SIZE (line_index_offset SIZE num_threads tid) B
    hwfB hnB hposB hB
  obtain ⟨pC, hpC⟩ := ompPlanned_exists SIZE (line_index_offset SIZE num_threads tid) C
    hwfC hnC hposC hC
  unfold TH_TENSOR_APPLY3_OMP_thread
  rw [ompThread_run SIZE num_threads tid [A, B, C] [pA, pB, pC] _ s fuel ht
    (List.Forall₂.cons hpA (List.Forall₂.cons hpB (List.Forall₂.cons hpC List.Forall₂.nil)))
    hfuel]
  congr 1
  apply List.foldl_ext
  intro s j hj
  have hlt := (mem_ompSegment ht hj).2.2
  simp only [List.map_cons, List.map_nil]
  rw [ompPlanned_data hpA j hlt, ompPlanned_data hpB j hlt, ompPlanned_data hpC j hlt]

theorem foldl_trace_map {α β : Type} (g : α → β) (l : List α) :
    ∀ acc : List β, l.foldl (fun tr j => tr ++ [g j]) acc = acc ++ l.map g := by
  induction l with
  | nil => intro acc; simp
  | cons x l ih => intro acc; simp [ih]

theorem map_getD_range_zip (A B : List Int) (n : Nat) (hA : A.length = n) (hB : B.length = n) :
    (List.range n).map (fun j => (A.getD j 0, B.getD j 0)) = A.zip B := by
  have h1 := map_getD_range A
  have h2 := map_getD_range B
  rw [hA] at h1
  rw [hB] at h2
  conv_rhs => rw [← h1, ← h2]
  rw [List.zip_map']

theorem map_getD_range_zip3 (A B C : List Int) (n : Nat) (hA : A.length = n)
    (hB : B.length = n) (hC : C.length = n) :
    (List.range n).map (fun j => (A.getD j 0, B.getD j 0, C.getD j 0)) = A.zip (B.zip C) := by
  have h1 := map_getD_range A
  have h2 := map_getD_range_zip B C n hB hC
  rw [hA] at h1
  conv_rhs => rw [← h1, ← h2]
  rw [List.zip_map']

theorem ompSegments_map {β : Type} (SIZE T : Nat) (hT : 1 ≤ T) (g : Nat → β) :
    (List.range T).flatMap (fun t => (ompSegment SIZE T t).map g) = (List.range SIZE).map g := by
  rw [← ompSegments_cover SIZE T hT, List.map_flatMap]

theorem apply2_omp_concat (SIZE T : Nat) (A B : THTensor) (hT : 1 ≤ T)
    (hwfA : A.WF) (hnA : A.nDimension ≠ 0) (hposA : ∀ s ∈ A.size, 1 ≤ s)
    (hA : A.size.prod = (SIZE : Int))
    (hwfB : B.WF) (hnB : B.nDimension ≠ 0) (hposB : ∀ s ∈ B.size, 1 ≤ s)
    (hB : B.size.prod = (SIZE : Int)) (fuel : Nat) (hfuel : SIZE ≤ fuel) :
    (List.range T).flatMap (fun t =>
        (TH_TENSOR_APPLY2_OMP_thread SIZE T t A B
          (fun a b tr => tr ++ [(a.data, b.data)]) [] fuel).getD [])
      = A.elementPointers.zip B.elementPointers := by
  have hlA : A.elementPointers.length = SIZE := by
    rw [length_elementPointers A hwfA hposA, nElement_of_nonempty A hnA, hA]; simp
  have hlB : B.elementPointers.length = SIZE := by
    rw [length_elementPointers B hwfB hposB, nElement_of_nonempty B hnB, hB]; simp
  rw [← map_getD_range_zip _ _ SIZE hlA hlB, ← ompSegments_map SIZE T hT]
  apply List.flatMap_congr
  intro t ht
  have htT : t < T := List.mem_range.mp ht
  obtain ⟨hb1, hb2⟩ := line_index_bounds SIZE T t htT
  rw [apply2_omp_thread SIZE T t A B (fun p q tr => tr ++ [(p, q)]) [] fuel htT
    hwfA hnA hposA hA hwfB hnB hposB hB (by unfold line_seg_len; omega)]
  rw [Option.getD_some, foldl_trace_map, List.nil_append]

theorem apply3_omp_concat (SIZE T : Nat) (A B C : THTensor) (hT : 1 ≤ T)
    (hwfA : A.WF) (hnA : A.nDimension ≠ 0) (hposA : ∀ s ∈ A.size, 1 ≤ s)
    (hA : A.size.prod = (SIZE : Int))
    (hwfB : B.WF) (hnB : B.nDimension ≠ 0) (hposB : ∀ s ∈ B.size, 1 ≤ s)
    (hB : B.size.prod = (SIZE : Int))
    (hwfC : C.WF) (hnC : C.nDimension ≠ 0) (hposC : ∀ s ∈ C.size, 1 ≤ s)
    (hC : C.size.prod = (SIZE : Int)) (fuel : Nat) (hfuel : SIZE ≤ fuel) :
    (List.range T).flatMap (fun t =>
        (TH_TENSOR_APPLY3_OMP_thread SIZE T t A B C
          (fun a b c tr => tr ++ [(a.data, b.data, c.data)]) [] fuel).getD [])
      = A.elementPointers.zip (B.elementPointers.zip C.elementPointers) := by
  have hlA : A.elementPointers.length = SIZE := by
    rw [length_elementPointers A hwfA hposA, nElement_of_nonempty A hnA, hA]; simp
  have hlB : B.elementPointers.length = SIZE := by
    rw [length_elementPointers B hwfB hposB, nElement_of_nonempty B hnB, hB]; simp
  have hlC : C.elementPointers.length = SIZE := by
    rw [length_elementPointers C hwfC hposC, nElement_of_nonempty C hnC, hC]; simp
  rw [← map_getD_range_zip3 _ _ _ SIZE hlA hlB hlC, ← ompSegments_map SIZE T hT]
  apply List.flatMap_congr
  intro t ht
  have htT : t < T := List.mem_range.mp ht
  obtain ⟨hb1, hb2⟩ := line_index_bounds SIZE T t htT
  rw [apply3_omp_thread SIZE T t A B C (fun p q r tr => tr ++ [(p, q, r)]) [] fuel htT
    hwfA hnA hposA hA hwfB hnB hposB hB hwfC hnC hposC hC (by unfold line_seg_len; omega)]
  rw [Option.getD_some, foldl_trace_map, List.nil_append]

theorem sum_indicator_range (a : Nat) (v : Int) :
    ∀ n, ((List.range n).map fun t => if a = t then v else 0).sum = if a < n then v else 0 := by
  intro n
  induction n with
  | zero => simp
  | succ n ih =>
    rw [List.range_succ, List.map_append, List.sum_append, ih]
    simp only [List.map_cons, List.map_nil, List.sum_cons, List.sum_nil, add_zero]
    by_cases h1 : a < n
    · rw [if_pos h1, if_neg (by omega), if_pos (by omega), add_zero]
    · rw [if_neg h1]
      by_cases h2 : a = n
      · rw [if_pos h2, if_pos (by omega), zero_add]
      · rw [if_neg h2, if_neg (by omega), add_zero]

theorem sum_by_owner (owner : Nat → Nat) (n : Nat) (g : Nat → Int) (l : List Nat)
    (h : ∀ x ∈ l, owner x < n) :
    ((List.range n).map fun t => ((l.filter fun x => owner x = t).map g).sum).sum
      = (l.map g).sum := by
  induction l with
  | nil => simp
  | cons x l ih =>
    have hstep : (fun t => (((x :: l).filter fun y => owner y = t).map g).sum)
        = fun t => (if owner x = t then g x else 0)
            + ((l.filter fun y => owner y = t).map g).sum := by
      funext t
      by_cases hx : owner x = t
      · simp [List.filter_cons, hx]
      · simp [List.filter_cons, hx]
    rw [hstep, List.sum_map_add, sum_indicator_range, if_pos (h x (List.mem_cons_self _ _)),
      ih fun y hy => h y (List.mem_cons_of_mem _ hy)]
    simp

theorem foldl_add_eq_sum {α : Type} (g : α → Int) (l : List α) :
    ∀ acc : Int, l.foldl (fun s j => s + g j) acc = acc + (l.map g).sum := by
  induction l with
  | nil => intro acc; simp
  | cons x l ih =>
    intro acc
    rw [List.foldl_cons, ih, List.map_cons, List.sum_cons]
    ring

theorem ompCombine_add (copies : Nat → Option Int) (part : Nat → Int) (order : List Nat) :
    ∀ orig : Int, (∀ t ∈ order, copies t = some (part t)) →
      ompCombine (fun a b => a + b) orig copies order = some (orig + (order.map part).sum) := by
  unfold ompCombine
  induction order with
  | nil => intro orig _; simp
  | cons t order ih =>
    intro orig h
    rw [List.foldl_cons, h t (List.mem_cons_self _ _)]
    simp only
    rw [ih (orig + part t) fun u hu => h u (List.mem_cons_of_mem _ hu), List.map_cons,
      List.sum_cons]
    congr 1
    ring

theorem ompCombine_sum (copies : Nat → Option Int) (part : Nat → Int) (order : List Nat)
    (n : Nat) (horder : order.Perm (List.range n)) (orig : Int)
    (h : ∀ t, t < n → copies t = some (part t)) :
    ompCombine (fun a b => a + b) orig copies order
      = some (orig + ((List.range n).map part).sum) := by
  rw [ompCombine_add copies part order orig
    fun t ht => h t (List.mem_range.mp (horder.mem_iff.mp ht)), (horder.map part).sum_eq]

theorem dense_elementPointers (T : THTensor) (hwf : T.WF) (hn : T.nDimension ≠ 0)
    (hpos : ∀ s ∈ T.size, 1 ≤ s)
    (hdense : ∀ i, i < T.nDimension → T.size.getD i 0 ≠ 1 →
      T.stride.getD i 0 = tailProd T (i + 1))
    (j : Nat) (hj : j < T.size.prod.toNat) :
    T.elementPointers.getD j 0 = T.storage + T.storageOffset + (j : Int) := by
  have hc := contigLoop_true_of_dense T (-1) (by decide) hdense
  have hW := contig_walk T (-1) true hwf hn hpos hc
  rw [elementPointers_of_nonempty T hn, rowMajorPointers_getD hW hpos j hj]
  have hmod : (j : Int) % T.size.prod = j := by
    apply Int.emod_eq_of_lt (Int.ofNat_nonneg j)
    omega
  simp only [Cursor.atPos, contigCursor, elementCount_eq T hn, hmod, digitsRev, dot]
  ring

theorem sum_by_segments (SIZE T : Nat) (hT : 1 ≤ T) (g : Nat → Int) :
    ((List.range T).map fun t => ((ompSegment SIZE T t).map g).sum).sum
      = ((List.range SIZE).map g).sum := by
  rw [← ompSegments_map SIZE T hT g, List.flatMap_def, List.sum_flatten, List.map_map]
  rfl

theorem map_getD_range_eq (l : List Int) (n : Nat) (h : l.length = n) (mem : Int → Int) :
    (List.range n).map (fun j => mem (l.getD j 0)) = l.map mem := by
  have h1 := map_getD_range l
  rw [h] at h1
  conv_rhs => rw [← h1]
  rw [List.map_map]
  rfl

theorem reduction_omp_sum (T1 : THTensor) (Contg : Bool) (mem : Int → Int) (orig : Int)
    (available : Nat) (owner : Nat → Nat) (order : List Nat) (fuel : Nat)
    (hwf : T1.WF) (hn : T1.nDimension ≠ 0) (hpos : ∀ s ∈ T1.size, 1 ≤ s)
    (hContg : Contg = true → ∀ i, i < T1.nDimension → T1.size.getD i 0 ≠ 1 →
      T1.stride.getD i 0 = tailProd T1 (i + 1))
    (hav : 1 ≤ available)
    (howner : ∀ iter, iter < T1.nElement.toNat →
      owner iter < ompTeamSize available (T1.nElement.toNat : Int))
    (horder : order.Perm (List.range (ompTeamSize available (T1.nElement.toNat : Int))))
    (hfuel : T1.nElement.toNat ≤ fuel) :
    TH_TENSOR_APPLY_REDUCTION_OMP T1 Contg T1.nElement.toNat (fun a b => a + b) 0
        (fun p acc => acc + mem p) orig available owner order fuel
      = some (orig + (T1.elementPointers.map mem).sum) := by
  have hne := nElement_of_nonempty T1 hn
  have hprod1 := prod_pos_of_pos T1.size hpos
  have hsz : T1.size.prod = ((T1.nElement.toNat : Nat) : Int) := by rw [hne]; omega
  have hlen : T1.elementPointers.length = T1.nElement.toNat :=
    length_elementPointers T1 hwf hpos
  have hteam : 1 ≤ ompTeamSize available (T1.nElement.toNat : Int) := by
    unfold ompTeamSize
    split <;> omega
  unfold TH_TENSOR_APPLY_REDUCTION_OMP
  simp only
  cases hC : Contg with
  | true =>
    have hd := hContg hC
    rw [ompCombine_sum _
      (fun t => (((List.range T1.nElement.toNat).filter fun iter => owner iter = t).map
        fun (iter : Nat) => mem (T1.storage + T1.storageOffset + (iter : Int))).sum) order _ horder orig
      (by
        intro t _
        simp only [if_true]
        rw [foldl_add_eq_sum (fun (iter : Nat) => mem (T1.storage + T1.storageOffset + (iter : Int)))]
        simp)]
    rw [sum_by_owner owner _ (fun (iter : Nat) => mem (T1.storage + T1.storageOffset + (iter : Int)))
        (List.range T1.nElement.toNat) (fun x hx => howner x (List.mem_range.mp hx))]
    rw [← map_getD_range_eq T1.elementPointers _ hlen mem]
    congr 3
    apply List.map_congr_left
    intro j hj
    rw [dense_elementPointers T1 hwf hn hpos hd j (by rw [← hne]; exact List.mem_range.mp hj)]
  | false =>
    rw [ompCombine_sum _
      (fun t => ((ompSegment T1.nElement.toNat
          (ompTeamSize available (T1.nElement.toNat : Int)) t).map
        fun j => mem (T1.elementPointers.getD j 0)).sum) order _ horder orig
      (by
        intro t htT
        obtain ⟨hb1, hb2⟩ := line_index_bounds T1.nElement.toNat
          (ompTeamSize available (T1.nElement.toNat : Int)) t htT
        simp only [Bool.false_eq_true, if_false]
        rw [reduction_omp_thread T1.nElement.toNat _ t T1 (fun p acc => acc + mem p) 0 fuel
          htT hwf hn hpos hsz (by unfold line_seg_len; omega)]
        rw [foldl_add_eq_sum (fun j => mem (T1.elementPointers.getD j 0))]
        simp)]
    rw [sum_by_segments _ _ hteam, map_getD_range_eq T1.elementPointers _ hlen mem]

theorem contigLoop_true_imp (T : THTensor) (DIM : Int) :
    ∀ (k : Nat), k ≤ T.nDimension → ∀ (sz : Int) (c : Bool), sz = tailProd T k →
      (contigLoop T DIM k (sz, c)).2 = true →
      c = true ∧ ∀ i, i < k → T.size.getD i 0 ≠ 1 →
        T.stride.getD i 0 = tailProd T (i + 1) ∧ (i : Int) ≠ DIM := by
  intro k
  induction k with
  | zero => intro _ sz c _ h; exact ⟨h, fun i hi => absurd hi (by omega)⟩
  | succ k ih =>
    intro hk sz c hsz h
    rw [contigLoop] at h
    by_cases h1 : T.size.getD k 0 ≠ 1
    · rw [if_pos h1] at h
      by_cases h2 : T.stride.getD k 0 = sz ∧ (k : Int) ≠ DIM
      · rw [if_pos h2] at h
        obtain ⟨hc, hrest⟩ := ih (by omega) _ c
          (by rw [tailProd_succ T k (by omega), hsz, mul_comm]) h
        refine ⟨hc, fun i hi hne => ?_⟩
        by_cases hik : i = k
        · subst hik
          exact ⟨by rw [h2.1, hsz], h2.2⟩
        · exact hrest i (by omega) hne
      · rw [if_neg h2] at h
        exact absurd h (by simp)
    · rw [if_neg h1] at h
      have h1' : T.size.getD k 0 = 1 := by
        by_contra hx; exact h1 hx
      obtain ⟨hc, hrest⟩ := ih (by omega) _ c
        (by rw [tailProd_succ T k (by omega), hsz, h1', one_mul]) h
      refine ⟨hc, fun i hi hne => ?_⟩
      by_cases hik : i = k
      · subst hik
        exact absurd h1' hne
      · exact hrest i (by omega) hne

theorem contigLoop_true_iff (T : THTensor) (DIM : Int) (allow : Bool) :
    (contigLoop T DIM T.nDimension (1, allow && decide (DIM < 0))).2 = true ↔
      allow = true ∧ DIM < 0 ∧ ∀ i, i < T.nDimension → T.size.getD i 0 ≠ 1 →
        T.stride.getD i 0 = tailProd T (i + 1) := by
  constructor
  · intro h
    obtain ⟨hc, hd⟩ := contigLoop_true_imp T DIM T.nDimension (le_refl _) 1 _
      (tailProd_top T).symm h
    simp only [Bool.and_eq_true, decide_eq_true_eq] at hc
    exact ⟨hc.1, hc.2, fun i hi hne => (hd i hi hne).1⟩
  · rintro ⟨ha, hD, hd⟩
    rw [contigLoop_of_dense T DIM T.nDimension (le_refl _) 1 _ (tailProd_top T).symm
      (fun i hi hne => ⟨hd i hi hne, by omega⟩)]
    simp [ha, hD]

theorem tailProd_congr (T U : THTensor) (h : U.size = T.size) (k : Nat) :
    tailProd U k = tailProd T k := by
  unfold tailProd THTensor.nDimension
  rw [h]

theorem preamble_blocks (T : THTensor) (DIM : Int) (allow fin : Bool) :
    (TH_TENSOR_APPLYX_PREAMBLE T DIM allow fin).1.blocks = if T.nDimension = 0 then 0 else 1 := by
  by_cases hn : T.nDimension = 0
  · rw [preamble_empty T DIM allow fin hn, if_pos hn]
    rfl
  · rw [if_neg hn]
    apply blocks_of_allocated
    unfold TH_TENSOR_APPLYX_PREAMBLE
    simp only [hn, if_false]
    split <;> rfl

theorem nDimension_of_nElement_ne (T1 T2 : THTensor) (h : T1.nElement ≠ T2.nElement) :
    T1.nDimension ≠ 0 ∨ T2.nDimension ≠ 0 := by
  by_contra hc
  push_neg at hc
  rw [nElement_of_empty T1 hc.1, nElement_of_empty T2 hc.2] at h
  exact h rfl

theorem apply1_release {σ : Type} (T : THTensor) (DIM : Int) (CODE : Cursor → σ → σ) (s : σ)
    (hwf : T.WF) (hpos : ∀ s ∈ T.size, 1 ≤ s) (fuel : Nat) (hfuel : T.nElement.toNat ≤ fuel) :
    ∃ r, TH_TENSOR_APPLY_D T DIM CODE s fuel = some r ∧ r.raised = false ∧
      r.allocated = (if T.nDimension = 0 then 0 else 1) ∧ r.freed = r.allocated := by
  by_cases hn : T.nDimension = 0
  · exact ⟨_, apply1_empty T DIM CODE s fuel hn, rfl, by simp [hn], rfl⟩
  · rw [nElement_of_nonempty T hn] at hfuel
    obtain ⟨rs, rst, _, h⟩ := apply1_fold T DIM CODE s hwf hn hpos
    exact ⟨_, h fuel hfuel, rfl, by simp [hn], rfl⟩

theorem apply2_release {σ : Type} (T1 T2 : THTensor) (DIM : Int)
    (CODE : Cursor → Cursor → σ → σ) (s : σ)
    (hwf1 : T1.WF) (hpos1 : ∀ s ∈ T1.size, 1 ≤ s)
    (hwf2 : T2.WF) (hpos2 : ∀ s ∈ T2.size, 1 ≤ s)
    (heq : T1.nElement = T2.nElement)
    (fuel : Nat) (hfuel : T1.nElement.toNat ≤ fuel) :
    ∃ r, TH_TENSOR_APPLY2_D T1 T2 DIM CODE s fuel = some r ∧ r.raised = false ∧
      r.allocated = (if T1.nDimension = 0 then 0 else 1) + (if T2.nDimension = 0 then 0 else 1) ∧
      r.freed = r.allocated := by
  by_cases h1 : T1.nDimension = 0
  · have h2 : T2.nDimension = 0 := by
      by_contra h2
      exact nonempty_of_nElement_eq T2 T1 hpos2 heq.symm h2 h1
    exact ⟨_, apply2_empty T1 T2 DIM CODE s fuel h1 h2, rfl, by simp [h1, h2], rfl⟩
  · have h2 := nonempty_of_nElement_eq T1 T2 hpos1 heq h1
    rw [nElement_of_nonempty T1 h1] at hfuel
    rw [nElement_of_nonempty T1 h1, nElement_of_nonempty T2 h2] at heq
    obtain ⟨_, _, _, _, _, _, h⟩ := apply2_fold T1 T2 DIM CODE s hwf1 h1 hpos1 hwf2 h2 hpos2 heq
    exact ⟨_, h fuel hfuel, rfl, by simp [h1, h2], rfl⟩

theorem apply3_release {σ : Type} (T1 T2 T3 : THTensor) (DIM : Int)
    (CODE : Cursor → Cursor → Cursor → σ → σ) (s : σ)
    (hwf1 : T1.WF) (hpos1 : ∀ s ∈ T1.size, 1 ≤ s)
    (hwf2 : T2.WF) (hpos2 : ∀ s ∈ T2.size, 1 ≤ s)
    (hwf3 : T3.WF) (hpos3 : ∀ s ∈ T3.size, 1 ≤ s)
    (heq2 : T1.nElement = T2.nElement) (heq3 : T1.nElement = T3.nElement)
    (fuel : Nat) (hfuel : T1.nElement.toNat ≤ fuel) :
    ∃ r, TH_TENSOR_APPLY3_D T1 T2 T3 DIM CODE s fuel = some r ∧ r.raised = false ∧
      r.allocated = (if T1.nDimension = 0 then 0 else 1) + (if T2.nDimension = 0 then 0 else 1)
        + (if T3.nDimension = 0 then 0 else 1) ∧
      r.freed = r.allocated := by
  by_cases h1 : T1.nDimension = 0
  · have h2 : T2.nDimension = 0 := by
      by_contra h2
      exact nonempty_of_nElement_eq T2 T1 hpos2 heq2.symm h2 h1
    have h3 : T3.nDimension = 0 := by
      by_contra h3
      exact nonempty_of_nElement_eq T3 T1 hpos3 heq3.symm h3 h1
    exact ⟨_, apply3_empty T1 T2 T3 DIM CODE s fuel h1 h2 h3, rfl, by simp [h1, h2, h3], rfl⟩
  · have h2 := nonempty_of_nElement_eq T1 T2 hpos1 heq2 h1
    have h3 := nonempty_of_nElement_eq T1 T3 hpos1 heq3 h1
    rw [nElement_of_nonempty T1 h1] at hfuel
    rw [nElement_of_nonempty T1 h1, nElement_of_nonempty T2 h2] at heq2
    rw [nElement_of_nonempty T1 h1, nElement_of_nonempty T3 h3] at heq3
    obtain ⟨_, _, _, _, _, _, _, _, _, h⟩ := apply3_fold T1 T2 T3 DIM CODE s hwf1 h1 hpos1
      hwf2 h2 hpos2 hwf3 h3 hpos3 heq2 heq3
    exact ⟨_, h fuel hfuel, rfl, by simp [h1, h2, h3], rfl⟩

theorem apply2_raise {σ : Type} (T1 T2 : THTensor) (DIM : Int)
    (CODE : Cursor → Cursor → σ → σ) (s : σ) (fuel : Nat) (hne : T1.nElement ≠ T2.nElement) :
    TH_TENSOR_APPLY2_D T1 T2 DIM CODE s fuel
      = some { raised := true, state := s
               allocated := (if T1.nDimension = 0 then 0 else 1)
                 + (if T2.nDimension = 0 then 0 else 1)
               freed := 0 } := by
  unfold TH_TENSOR_APPLY2_D
  simp only [preamble_n, elementCount_eq_nElement, if_pos hne, preamble_blocks]

theorem apply3_raise {σ : Type} (T1 T2 T3 : THTensor) (DIM : Int)
    (CODE : Cursor → Cursor → Cursor → σ → σ) (s : σ) (fuel : Nat)
    (hne : ¬ (T1.nElement = T2.nElement ∧ T1.nElement = T3.nElement)) :
    TH_TENSOR_APPLY3_D T1 T2 T3 DIM CODE s fuel
      = some { raised := true, state := s
               allocated := (if T1.nDimension = 0 then 0 else 1)
                 + (if T2.nDimension = 0 then 0 else 1)
                 + (if T3.nDimension = 0 then 0 else 1)
               freed := 0 } := by
  unfold TH_TENSOR_APPLY3_D
  simp only [preamble_n, elementCount_eq_nElement, elements_equal_eq, preamble_blocks]
  rw [decide_eq_false hne]
  simp only [if_true]

theorem map_getD_range_any {α : Type} (l : List α) (d : α) :
    (List.range l.length).map (fun j => l.getD j d) = l := by
  apply List.ext_getElem
  · simp
  · intro i h1 h2
    simp [List.getD_eq_getElem?_getD, List.getElem?_eq_getElem h2]

theorem length_flatMap_const {α β : Type} (f : α → List β) (R : Nat)
    (h : ∀ a, (f a).length = R) : ∀ l : List α, (l.flatMap f).length = l.length * R := by
  intro l
  induction l with
  | nil => simp
  | cons x l ih =>
    rw [List.flatMap_cons, List.length_append, h, ih, List.length_cons]
    ring

theorem length_rowMajorIndices (sizes : List Int) (hpos : ∀ s ∈ sizes, 1 ≤ s) :
    (rowMajorIndices sizes).length = sizes.prod.toNat := by
  induction sizes with
  | nil => simp [rowMajorIndices]
  | cons s rest ih =>
    have hs : 1 ≤ s := hpos s (by simp)
    have hr := ih fun x hx => hpos x (by simp [hx])
    have hp := prod_pos_of_pos rest fun x hx => hpos x (by simp [hx])
    have : (s * rest.prod).toNat = s.toNat * rest.prod.toNat := by
      have h1 : ((s.toNat * rest.prod.toNat : Nat) : Int) = s * rest.prod := by
        push_cast
        rw [Int.toNat_of_nonneg (by omega), Int.toNat_of_nonneg (by omega)]
      omega
    rw [rowMajorIndices, length_flatMap_const _ rest.prod.toNat (fun a => by simp [hr]),
      List.length_range, List.prod_cons, this]

theorem rowMajorIndices_cons (s : Int) (rest : List Int) (hpos : ∀ x ∈ rest, 1 ≤ x) :
    rowMajorIndices (s :: rest)
      = (List.range (s.toNat * rest.prod.toNat)).map fun k =>
          ((k / rest.prod.toNat : Nat) : Int)
            :: (rowMajorIndices rest).getD (k % rest.prod.toNat) [] := by
  have hp := prod_pos_of_pos rest hpos
  have hlen := length_rowMajorIndices rest hpos
  rw [range_mul_map (fun q a => ((q : Nat) : Int) :: (rowMajorIndices rest).getD a [])
    rest.prod.toNat (by omega) s.toNat]
  show ((List.range s.toNat).flatMap fun a =>
      (rowMajorIndices rest).map fun idx => (a : Int) :: idx) = _
  congr 1
  funext q
  conv_lhs => rw [← map_getD_range_any (rowMajorIndices rest) [], hlen]
  rw [List.map_map]
  rfl

theorem prod_take_drop (l : List Int) :
    ∀ D, D < l.length → l.prod = (l.take D).prod * (l.getD D 0 * (l.drop (D + 1)).prod) := by
  induction l with
  | nil => intro D h; simp at h
  | cons x l ih =>
    intro D h
    cases D with
    | zero => simp
    | succ D =>
      have := ih D (by simpa using h)
      simp only [List.take_succ_cons, List.prod_cons, List.drop_succ_cons, List.getD_cons_succ]
      rw [this]
      ring

theorem ediv_emod_of_mod (j A s B : Int) (hA : 1 ≤ A) :
    ((j % (B * (s * A))) / A) % s = (j / A) % s := by
  have h1 : j % (B * (s * A)) = j + A * (-(B * s * (j / (B * (s * A))))) := by
    rw [Int.emod_def]; ring
  rw [h1, Int.add_mul_ediv_left _ _ (by omega : A ≠ 0)]
  have h2 : j / A + -(B * s * (j / (B * (s * A)))) = j / A + s * (-(B * (j / (B * (s * A))))) := by
    ring
  rw [h2, Int.add_mul_emod_self_left]

theorem rowMajorIndices_component (sizes : List Int) (hpos : ∀ s ∈ sizes, 1 ≤ s) :
    ∀ (D j : Nat), D < sizes.length → j < sizes.prod.toNat →
      ((rowMajorIndices sizes).getD j []).getD D 0
        = ((j : Int) / (sizes.drop (D + 1)).prod) % sizes.getD D 0 := by
  induction sizes with
  | nil => intro D j h; simp at h
  | cons s rest ih =>
    intro D j hD hj
    have hs : 1 ≤ s := hpos s (by simp)
    have hrest : ∀ x ∈ rest, 1 ≤ x := fun x hx => hpos x (by simp [hx])
    have hp := prod_pos_of_pos rest hrest
    have hR : ((rest.prod.toNat : Nat) : Int) = rest.prod := Int.toNat_of_nonneg (by omega)
    have hjj : j < s.toNat * rest.prod.toNat := by
      have h1 : ((s.toNat * rest.prod.toNat : Nat) : Int) = s * rest.prod := by
        push_cast
        rw [Int.toNat_of_nonneg (by omega), hR]
      rw [List.prod_cons] at hj
      omega
    have hget : (rowMajorIndices (s :: rest)).getD j []
        = ((j / rest.prod.toNat : Nat) : Int)
            :: (rowMajorIndices rest).getD (j % rest.prod.toNat) [] := by
      rw [rowMajorIndices_cons s rest hrest, List.getD_eq_getElem _ _ (by simpa using hjj)]
      simp only [List.getElem_map, List.getElem_range]
    rw [hget]
    have hRpos : 0 < rest.prod.toNat := by omega
    cases D with
    | zero =>
      simp only [List.getD_cons_zero, List.drop_succ_cons, List.drop_zero]
      have hq : j / rest.prod.toNat < s.toNat := by
        rw [Nat.div_lt_iff_lt_mul hRpos]; exact hjj
      have hcast : ((j / rest.prod.toNat : Nat) : Int) = (j : Int) / rest.prod := by
        rw [Int.natCast_div, hR]
      rw [← hcast]
      symm
      apply Int.emod_eq_of_lt (Int.ofNat_nonneg _)
      omega
    | succ D =>
      simp only [List.getD_cons_succ, List.drop_succ_cons]
      have hD' : D < rest.length := by simpa using hD
      rw [ih hrest D (j % rest.prod.toNat) hD' (Nat.mod_lt _ hRpos)]
      have hcast : ((j % rest.prod.toNat : Nat) : Int) = (j : Int) % rest.prod := by
        rw [Int.natCast_mod, hR]
      rw [hcast, prod_take_drop rest D hD']
      have hA := prod_pos_of_pos (rest.drop (D + 1))
        fun x hx => hrest x (List.mem_of_mem_drop hx)
      exact ediv_emod_of_mod _ _ _ _ hA

theorem mergesBefore_succ (T : THTensor) (DIM : Int) (k : Nat) :
    mergesBefore T DIM (k + 1)
      = mergesBefore T DIM k + (if mergesAt T DIM k = true ∧ (k : Int) < DIM then 1 else 0) := by
  unfold mergesBefore
  rw [List.range_succ, List.filter_append, List.length_append]
  congr 1
  by_cases h : mergesAt T DIM k = true ∧ (k : Int) < DIM
  · rw [if_pos h]
    simp [List.filter_cons, h.1, h.2]
  · rw [if_neg h]
    have : (mergesAt T DIM k && decide ((k : Int) < DIM)) = false := by
      rw [Bool.and_eq_false_iff]
      by_cases h1 : mergesAt T DIM k = true
      · right
        simp only [decide_eq_false_iff_not]
        exact fun h2 => h ⟨h1, h2⟩
      · left
        simpa using h1
    simp [List.filter_cons, this]

theorem fillLoop_dimOffset_counter (T : THTensor) (DIM : Int)
    (hD : DIM ≠ (T.nDimension : Int) - 1) :
    ∀ (k : Nat) (st : FillState) (d : Int), st.dimOffset = .ofCounter d →
      (fillLoop T DIM k st).dimOffset = .ofCounter (d - mergesBefore T DIM k) := by
  intro k
  induction k with
  | zero =>
    intro st d h
    simp [fillLoop, mergesBefore, h]
  | succ k ih =>
    intro st d h
    rw [fillLoop, mergesBefore_succ]
    by_cases hm : mergesAt T DIM k = true
    · rw [if_pos hm]
      by_cases hk : (k : Int) < DIM
      · rw [ih _ (d - 1) (by simp [hD, hk, h, DimOffset.dec])]
        rw [if_pos ⟨hm, hk⟩]
        congr 1
        push_cast
        ring
      · rw [ih _ d (by simp [hk, h])]
        rw [if_neg (fun hx => hk hx.2)]
        simp
    · rw [if_neg hm, ih _ d (by simpa using h), if_neg (fun hx => hm hx.1)]
      simp

theorem fillLoop_dimOffset_last (T : THTensor) (DIM : Int)
    (hD : DIM = (T.nDimension : Int) - 1) :
    ∀ (k : Nat) (st : FillState), (fillLoop T DIM k st).dimOffset = st.dimOffset := by
  intro k
  induction k with
  | zero => intro st; rfl
  | succ k ih =>
    intro st
    rw [fillLoop]
    split
    · rw [ih]
      simp [hD]
    · rw [ih]

theorem preamble_dimOffset (T : THTensor) (DIM : Int) (allow fin : Bool)
    (hn : T.nDimension ≠ 0)
    (hc : (contigLoop T DIM T.nDimension (1, allow && decide (DIM < 0))).2 = false) :
    (TH_TENSOR_APPLYX_PREAMBLE T DIM allow fin).1.dimOffset
      = if DIM = (T.nDimension : Int) - 1 then .ofI
        else .ofCounter (DIM - mergesBefore T DIM (T.nDimension - 1)) := by
  simp only [TH_TENSOR_APPLYX_PREAMBLE, hn, if_false, hc, Bool.not_false, if_true]
  by_cases hD : DIM = (T.nDimension : Int) - 1
  · rw [fillLoop_dimOffset_last T DIM hD, if_pos hD]
    simp [hD]
  · rw [fillLoop_dimOffset_counter T DIM hD _ _ DIM (by simp [hD]), if_neg hD]

theorem groupRuns_isolated_count (same : Nat → Bool) (D : Nat) (hD : same D = false)
    (hD' : ∀ i, i + 1 = D → same i = false) :
    ∀ (m k : Nat), k ≤ D → D < k + m →
      ∃ pre post, groupRuns same (List.range' k m) = pre ++ [D] :: post ∧
        pre.flatten = List.range' k (D - k) ∧
        pre.length = ((List.range' k (D - k)).filter fun i => !same i).length := by
  intro m
  induction m using Nat.strong_induction_on with
  | _ m ih =>
    intro k hk1 hk2
    match m, ih with
    | 0, _ => omega
    | 1, _ =>
      obtain rfl : D = k := by omega
      exact ⟨[], [], by simp [List.range'_succ, groupRuns], by simp, by simp⟩
    | m + 2, ih =>
      have hl : List.range' k (m + 2) = k :: (k + 1) :: List.range' (k + 2) m := by
        simp [List.range'_succ]
      have hl1 : List.range' (k + 1) (m + 1) = (k + 1) :: List.range' (k + 2) m := by
        simp [List.range'_succ]
      obtain ⟨r, rs, e1, e2⟩ := groupRuns_cons_cons same k (k + 1) (List.range' (k + 2) m)
      rw [hl, e2]
      by_cases hkD : k = D
      · subst hkD
        rw [hD]
        exact ⟨[], r :: rs, by simp, by simp, by simp⟩
      · obtain ⟨pre, post, e3, e4, e5⟩ := ih (m + 1) (by omega) (k + 1) (by omega) (by omega)
        rw [hl1, e1] at e3
        have hr : List.range' k (D - k) = k :: List.range' (k + 1) (D - (k + 1)) := by
          rw [show D - k = (D - (k + 1)) + 1 by omega]
          simp [List.range'_succ]
        cases hs : same k with
        | false =>
          refine ⟨[k] :: pre, post, by simp [e3], ?_, ?_⟩
          · rw [List.flatten_cons, e4, hr]
            simp
          · rw [hr, List.filter_cons, hs]
            simp [e5]
        | true =>
          have hk1D : k + 1 ≠ D := by
            intro h; rw [hD' k h] at hs; exact absurd hs (by simp)
          cases pre with
          | nil =>
            rw [show D - (k + 1) = (D - (k + 2)) + 1 by omega] at e4
            simp [List.range'_succ] at e4
          | cons r' pre' =>
            simp only [List.cons_append, List.cons.injEq] at e3
            obtain ⟨rfl, rfl⟩ := e3
            refine ⟨(k :: r) :: pre', post, by simp, ?_, ?_⟩
            · rw [List.flatten_cons] at e4 ⊢
              rw [List.cons_append, e4, hr]
            · rw [hr, List.filter_cons, hs]
              simpa using e5

theorem mergesBefore_add (T : THTensor) (D : Nat) :
    ∀ k, k ≤ D →
      mergesBefore T (D : Int) k
        + ((List.range k).filter fun i => !sameRun T (D : Int) i).length = k := by
  intro k
  induction k with
  | zero => intro _; simp [mergesBefore]
  | succ k ih =>
    intro hk
    have := ih (by omega)
    rw [mergesBefore_succ, List.range_succ, List.filter_append, List.length_append,
      mergesAt_eq]
    have hkD : (k : Int) < (D : Int) := by omega
    cases hs : sameRun T (D : Int) k with
    | true =>
      simp only [hkD, and_self, if_true, List.filter_cons, hs, Bool.not_true,
        Bool.false_eq_true, if_false, List.filter_nil, List.length_nil]
      omega
    | false =>
      simp only [hkD, Bool.false_eq_true, false_and, if_false, List.filter_cons, hs,
        Bool.not_false, if_true, List.filter_nil, List.length_cons, List.length_nil]
      omega

theorem mergesBefore_ge (T : THTensor) (D : Nat) :
    ∀ k, D ≤ k → mergesBefore T (D : Int) k = mergesBefore T (D : Int) D := by
  intro k
  induction k with
  | zero =>
    intro h
    obtain rfl : D = 0 := by omega
    rfl
  | succ k ih =>
    intro h
    by_cases hk : D = k + 1
    · rw [hk]
    · rw [mergesBefore_succ, ih (by omega), if_neg (by intro hx; omega)]
      rfl

theorem refRuns_isolated (T : THTensor) (D : Nat) (hD : D < T.nDimension) :
    ∃ pre post, refRuns T (D : Int) = pre ++ [D] :: post ∧
      pre.flatten = List.range D ∧
      post.flatten = List.range' (D + 1) (T.nDimension - D - 1) ∧
      (pre.length : Int) = (D : Int) - mergesBefore T (D : Int) (T.nDimension - 1) := by
  obtain ⟨pre, post, e1, e2, e3⟩ := groupRuns_isolated_count (sameRun T (D : Int)) D
    (by simp [sameRun])
    (by intro i hi; simp only [sameRun, decide_eq_false_iff_not, not_and, not_not]
        intro _ _; subst hi; push_cast; rfl)
    T.nDimension 0 (by omega) (by omega)
  rw [← List.range_eq_range'] at e1
  rw [Nat.sub_zero, ← List.range_eq_range'] at e2 e3
  have hflat := groupRuns_flatten (sameRun T (D : Int)) (List.range T.nDimension)
  rw [e1, List.flatten_append, List.flatten_cons, e2] at hflat
  have hsplit : List.range T.nDimension
      = List.range D ++ ([D] ++ List.range' (D + 1) (T.nDimension - D - 1)) := by
    rw [List.range_eq_range', List.range_eq_range']
    have := List.range'_append_1 0 D (T.nDimension - D)
    rw [Nat.zero_add, show T.nDimension - D + D = T.nDimension by omega] at this
    rw [← this, show T.nDimension - D = (T.nDimension - D - 1) + 1 by omega]
    simp [List.range'_succ]
  rw [hsplit] at hflat
  have hpost := List.append_cancel_left (List.append_cancel_left hflat)
  refine ⟨pre, post, e1, e2, hpost, ?_⟩
  have h1 := mergesBefore_add T D D (le_refl _)
  have h2 := mergesBefore_ge T D (T.nDimension - 1) (by omega)
  rw [h2, e3]
  omega

theorem int_ediv_ediv (m n k : Int) (hn : 1 ≤ n) (hk : 1 ≤ k) : m / n / k = m / (n * k) := by
  have h1 := Int.emod_add_ediv m n
  have h2 := Int.emod_add_ediv (m / n) k
  have h3 := Int.emod_nonneg m (by omega : n ≠ 0)
  have h4 := Int.emod_lt_of_pos m (by omega : 0 < n)
  have h5 := Int.emod_nonneg (m / n) (by omega : k ≠ 0)
  have h6 := Int.emod_lt_of_pos (m / n) (by omega : 0 < k)
  have hnk : 0 < n * k := by positivity
  symm
  refine ((Int.ediv_emod_unique hnk).mpr
    (⟨?_, ?_, ?_⟩ : (m % n + n * (m / n % k)) + n * k * (m / n / k) = m
      ∧ 0 ≤ m % n + n * (m / n % k) ∧ m % n + n * (m / n % k) < n * k)).1
  · have : n * (m / n % k) + n * k * (m / n / k) = n * (m / n) := by
      linear_combination n * h2
    omega
  · have : 0 ≤ n * (m / n % k) := by positivity
    omega
  · have : n * (m / n % k) ≤ n * (k - 1) := by
      apply mul_le_mul_of_nonneg_left <;> omega
    have h7 : n * (k - 1) = n * k - n := by ring
    omega

theorem digitsRev_append_cons (A : List Int) (hA : ∀ a ∈ A, 1 ≤ a) (s : Int) (B : List Int) :
    ∀ q, digitsRev (A ++ s :: B) q
      = digitsRev A q ++ ((q / A.prod) % s) :: digitsRev B (q / A.prod / s) := by
  induction A with
  | nil => intro q; simp [digitsRev]
  | cons a A ih =>
    intro q
    have ha : 1 ≤ a := hA a (by simp)
    have hp := prod_pos_of_pos A fun x hx => hA x (by simp [hx])
    rw [List.cons_append, digitsRev, ih (fun x hx => hA x (by simp [hx])), digitsRev,
      List.prod_cons, int_ediv_ediv _ _ _ ha hp, List.cons_append]

theorem tailProd_eq_prod_runs (T : THTensor) (k : Nat) (G : List (List Nat))
    (h : G.flatten = List.range' k (T.nDimension - k)) :
    (G.map (runSize T)).prod = tailProd T k := by
  rw [prod_runs, h]
  rfl

theorem flatten_eq_nil_of_ne_nil (G : List (List Nat)) (hne : ∀ g ∈ G, g ≠ [])
    (h : G.flatten = []) : G = [] := by
  cases G with
  | nil => rfl
  | cons g G =>
    rw [List.flatten_cons, List.append_eq_nil] at h
    exact absurd h.1 (hne g (by simp))

theorem dimOffsetValue_atPos (T : THTensor) (D : Nat) (allow fin : Bool)
    (hD : D < T.nDimension) {rs rst : List Int}
    (hR : Ready (TH_TENSOR_APPLYX_PREAMBLE T (D : Int) allow fin).1 rs rst) (j : Nat) :
    ((TH_TENSOR_APPLYX_PREAMBLE T (D : Int) allow fin).1.atPos rs rst (j : Nat)).dimOffsetValue
      = some (((j : Int) / tailProd T (D + 1)) % T.size.getD D 0) := by
  have hn0 : T.nDimension ≠ 0 := by omega
  have hc : (contigLoop T (D : Int) T.nDimension (1, allow && decide ((D : Int) < 0))).2
      = false := by
    rw [show (allow && decide ((D : Int) < 0)) = false by simp]
    exact contigLoop_false T _ _ _
  obtain ⟨hP, _⟩ := preamble_nested T (D : Int) allow fin hn0 hc
  have hoff := preamble_dimOffset T (D : Int) allow fin hn0 hc
  obtain ⟨pre, post, hruns, hpre, hpost, hlen⟩ := refRuns_isolated T D hD
  generalize TH_TENSOR_APPLYX_PREAMBLE T (D : Int) allow fin = p at hR hP hoff ⊢
  have hsizes : p.1.sizes
      = pre.map (runSize T) ++ T.size.getD D 0 :: post.map (runSize T) := by
    rw [hP.sizes_eq, hruns, List.map_append, List.map_cons, runSize_single]
  have hmem : ∀ g ∈ post, g ≠ [] := by
    intro g hg
    apply groupRuns_mem_ne_nil (sameRun T (D : Int)) (List.range T.nDimension) g
    show g ∈ refRuns T (D : Int)
    rw [hruns]
    simp [hg]
  have hsz := hR.size_pos
  by_cases hlast : (D : Int) = (T.nDimension : Int) - 1
  · have hD1 : D + 1 = T.nDimension := by omega
    rw [if_pos hlast] at hoff
    have hpost0 : post = [] := by
      apply flatten_eq_nil_of_ne_nil post hmem
      rw [hpost, show T.nDimension - D - 1 = 0 by omega]
      rfl
    rw [hpost0, List.map_nil, hR.sizes_eq] at hsizes
    have hsize : p.1.size = T.size.getD D 0 := by
      have := List.append_inj_right' hsizes (by simp)
      simpa using this
    unfold Cursor.dimOffsetValue
    simp only [Cursor.atPos, hoff]
    rw [hD1, tailProd_top, Int.ediv_one, hsize]
  · rw [if_neg hlast] at hoff
    rw [← hlen] at hoff
    have hpne : post ≠ [] := by
      intro h0
      rw [h0, List.flatten_nil] at hpost
      have : (List.range' (D + 1) (T.nDimension - D - 1)).length = 0 := by rw [← hpost]; rfl
      rw [List.length_range'] at this
      omega
    obtain ⟨post', glast, hpl⟩ : ∃ L b, post = L ++ [b] := by
      rcases List.eq_nil_or_concat post with h | ⟨L, b, h⟩
      · exact absurd h hpne
      · exact ⟨L, b, by rw [h, List.concat_eq_append]⟩
    have hsizes2 : p.1.sizes
        = (pre.map (runSize T) ++ T.size.getD D 0 :: post'.map (runSize T))
            ++ [runSize T glast] := by
      rw [hsizes, hpl]; simp
    rw [hR.sizes_eq] at hsizes2
    have hrs := List.append_inj_left' hsizes2 (by simp)
    have hsize : [p.1.size] = [runSize T glast] := List.append_inj_right' hsizes2 (by simp)
    have hrs2 : rs = (post'.map (runSize T)).reverse
        ++ T.size.getD D 0 :: (pre.map (runSize T)).reverse := by
      have := congrArg List.reverse hrs
      rw [List.reverse_reverse] at this
      rw [this]; simp
    have hApos : ∀ a ∈ (post'.map (runSize T)).reverse, 1 ≤ a := by
      intro a ha
      have : a ∈ rs := by rw [hrs2]; simp [ha]
      exact hR.pos a this
    have hdim : ((pre.length : Nat) : Int) < (p.1.dim : Int) := by
      rw [hP.dim_eq, hruns]; simp
    have hprod : p.1.size * (post'.map (runSize T)).reverse.prod = tailProd T (D + 1) := by
      rw [← tailProd_eq_prod_runs T (D + 1) post
        (by rw [hpost]; congr 1), hpl, List.map_append, List.prod_append, List.prod_reverse]
      simp only [List.cons.injEq, and_true] at hsize
      rw [hsize]
      simp [mul_comm]
    unfold Cursor.dimOffsetValue
    simp only [Cursor.atPos, hoff]
    rw [if_pos ⟨Int.ofNat_nonneg _, hdim⟩, Int.toNat_natCast, hrs2,
      digitsRev_append_cons _ hApos, List.reverse_append, List.reverse_cons, List.append_assoc,
      List.append_assoc]
    have hl : (digitsRev (pre.map (runSize T)).reverse
        ((j : Int) / p.1.size / (post'.map (runSize T)).reverse.prod
          / T.size.getD D 0)).reverse.length = pre.length := by
      simp [length_digitsRev]
    have hg := getD_at_length
      (digitsRev (pre.map (runSize T)).reverse
        ((j : Int) / p.1.size / (post'.map (runSize T)).reverse.prod
          / T.size.getD D 0)).reverse
      (((j : Int) / p.1.size / (post'.map (runSize T)).reverse.prod) % T.size.getD D 0)
      ((digitsRev (post'.map (runSize T)).reverse ((j : Int) / p.1.size)).reverse ++ [0]) 0
    rw [hl] at hg
    rw [List.singleton_append, hg, int_ediv_ediv _ _ _ hsz (prod_pos_of_pos _ hApos), hprod]

theorem drop_eq_map_getD (l : List Int) (k : Nat) :
    (List.range' k (l.length - k)).map (fun j => l.getD j 0) = l.drop k := by
  apply List.ext_getElem
  · simp
  · intro i h1 h2
    have h3 : k + i < l.length := by
      rw [List.length_drop] at h2; omega
    simp [List.getD_eq_getElem?_getD, List.getElem?_eq_getElem h3]

theorem tailProd_eq_drop (T : THTensor) (k : Nat) : tailProd T k = (T.size.drop k).prod := by
  unfold tailProd THTensor.nDimension
  rw [drop_eq_map_getD]

theorem elementsWithIndex_eq (T : THTensor) (D : Nat) (allow fin : Bool)
    (hD : D < T.nDimension) (hpos : ∀ s ∈ T.size, 1 ≤ s) {rs rst : List Int}
    (hW : Walk T (TH_TENSOR_APPLYX_PREAMBLE T (D : Int) allow fin).1 rs rst) :
    (List.range T.size.prod.toNat).map (fun k =>
        (((TH_TENSOR_APPLYX_PREAMBLE T (D : Int) allow fin).1.atPos rs rst (k : Nat)).data,
          ((TH_TENSOR_APPLYX_PREAMBLE T (D : Int) allow fin).1.atPos rs rst
            (k : Nat)).dimOffsetValue))
      = T.elementsWithIndex D := by
  have hlen := length_rowMajorIndices T.size hpos
  unfold THTensor.elementsWithIndex
  conv_rhs => rw [← map_getD_range_any (rowMajorIndices T.size) [], hlen]
  rw [List.map_map]
  apply List.map_congr_left
  intro k hk
  have hk' : k < T.size.prod.toNat := List.mem_range.mp hk
  have hptr := rowMajorPointers_getD hW hpos k hk'
  have hidx : T.rowMajorPointers.getD k 0
      = T.offsetOf ((rowMajorIndices T.size).getD k []) := by
    unfold THTensor.rowMajorPointers
    rw [List.getD_eq_getElem _ _ (by simpa [hlen] using hk'),
      List.getD_eq_getElem _ _ (by simpa [hlen] using hk'), List.getElem_map]
  simp only [Function.comp]
  rw [dimOffsetValue_atPos T D allow fin hD hW.ready k, ← hptr, hidx,
    rowMajorIndices_component T.size hpos D k hD hk', tailProd_eq_drop]

theorem apply1_cursors (T : THTensor) (DIM : Int)
    (hwf : T.WF) (hn : T.nDimension ≠ 0) (hpos : ∀ s ∈ T.size, 1 ≤ s) :
    ∃ rs rst, Walk T (TH_TENSOR_APPLYX_PREAMBLE T DIM false false).1 rs rst ∧
      ∀ {σ : Type} (CODE : Cursor → σ → σ) (s : σ) (fuel : Nat), T.size.prod.toNat ≤ fuel →
        TH_TENSOR_APPLY_D T DIM CODE s fuel
          = some { raised := false
                   state := ((List.range T.size.prod.toNat).map fun k =>
                       (TH_TENSOR_APPLYX_PREAMBLE T DIM false false).1.atPos rs rst (k : Nat)).foldl
                     (fun s c => CODE c s) s
                   allocated := 1, freed := 1 } := by
  obtain ⟨⟨rs, rst, hW⟩, hfin, hal⟩ := preamble_walk T DIM false false hwf hn hpos
  refine ⟨rs, rst, hW, fun {σ} CODE s fuel hfuel => ?_⟩
  obtain ⟨hN, hN1⟩ := walk_count hW hpos
  have hrun := whileLoop1_run CODE hW.ready _ hN T.size.prod.toNat 0 fuel s hN1 (by omega)
    (by simp) hfuel
  rw [Nat.cast_zero, hW.start, ← List.range_eq_range'] at hrun
  unfold TH_TENSOR_APPLY_D
  simp only [hfin, hrun, Option.map_some', blocks_of_allocated hal, List.foldl_map]

theorem apply2_cursors (T1 T2 : THTensor) (DIM : Int)
    (hwf1 : T1.WF) (hn1 : T1.nDimension ≠ 0) (hpos1 : ∀ s ∈ T1.size, 1 ≤ s)
    (hwf2 : T2.WF) (hn2 : T2.nDimension ≠ 0) (hpos2 : ∀ s ∈ T2.size, 1 ≤ s)
    (heq : T1.size.prod = T2.size.prod) :
    ∃ rs1 rst1 rs2 rst2,
      Walk T1 (TH_TENSOR_APPLYX_PREAMBLE T1 DIM true false).1 rs1 rst1 ∧
      Walk T2 (TH_TENSOR_APPLYX_PREAMBLE T2 DIM true false).1 rs2 rst2 ∧
      ∀ {σ : Type} (CODE : Cursor → Cursor → σ → σ) (s : σ) (fuel : Nat),
        T1.size.prod.toNat ≤ fuel →
        TH_TENSOR_APPLY2_D T1 T2 DIM CODE s fuel
          = some { raised := false
                   state := ((List.range T1.size.prod.toNat).map fun k =>
                       ((TH_TENSOR_APPLYX_PREAMBLE T1 DIM true false).1.atPos rs1 rst1 (k : Nat),
                        (TH_TENSOR_APPLYX_PREAMBLE T2 DIM true false).1.atPos rs2 rst2
                          (k : Nat))).foldl
                     (fun s p => CODE p.1 p.2 s) s
                   allocated := 2, freed := 2 } := by
  obtain ⟨⟨rs1, rst1, hW1⟩, hfin1, hal1⟩ := preamble_walk T1 DIM true false hwf1 hn1 hpos1
  obtain ⟨⟨rs2, rst2, hW2⟩, hfin2, hal2⟩ := preamble_walk T2 DIM true false hwf2 hn2 hpos2
  refine ⟨rs1, rst1, rs2, rst2, hW1, hW2, fun {σ} CODE s fuel hfuel => ?_⟩
  obtain ⟨hN1, hN⟩ := walk_count hW1 hpos1
  obtain ⟨hN2, _⟩ := walk_count hW2 hpos2
  rw [← heq] at hN2
  have hrun := whileLoop2_run CODE hW1.ready hW2.ready _ hN1 hN2 T1.size.prod.toNat 0 fuel s hN
    (by omega) hfuel
  rw [Nat.cast_zero, hW1.start, hW2.start, ← List.range_eq_range'] at hrun
  have hne : ¬ (TH_TENSOR_APPLYX_PREAMBLE T1 DIM true false).1.n
      ≠ (TH_TENSOR_APPLYX_PREAMBLE T2 DIM true false).1.n := by
    rw [preamble_n, preamble_n, elementCount_eq T1 hn1, elementCount_eq T2 hn2, heq]
    simp
  unfold TH_TENSOR_APPLY2_D
  simp only [hfin1, hfin2, hrun, Option.map_some', blocks_of_allocated hal1,
    blocks_of_allocated hal2, if_neg hne, List.foldl_map]

theorem apply3_cursors (T1 T2 T3 : THTensor) (DIM : Int)
    (hwf1 : T1.WF) (hn1 : T1.nDimension ≠ 0) (hpos1 : ∀ s ∈ T1.size, 1 ≤ s)
    (hwf2 : T2.WF) (hn2 : T2.nDimension ≠ 0) (hpos2 : ∀ s ∈ T2.size, 1 ≤ s)
    (hwf3 : T3.WF) (hn3 : T3.nDimension ≠ 0) (hpos3 : ∀ s ∈ T3.size, 1 ≤ s)
    (heq2 : T1.size.prod = T2.size.prod) (heq3 : T1.size.prod = T3.size.prod) :
    ∃ rs1 rst1 rs2 rst2 rs3 rst3,
      Walk T1 (TH_TENSOR_APPLYX_PREAMBLE T1 DIM true false).1 rs1 rst1 ∧
      Walk T2 (TH_TENSOR_APPLYX_PREAMBLE T2 DIM true false).1 rs2 rst2 ∧
      Walk T3 (TH_TENSOR_APPLYX_PREAMBLE T3 DIM true false).1 rs3 rst3 ∧
      ∀ {σ : Type} (CODE : Cursor → Cursor → Cursor → σ → σ) (s : σ) (fuel : Nat),
        T1.size.prod.toNat ≤ fuel →
        TH_TENSOR_APPLY3_D T1 T2 T3 DIM CODE s fuel
          = some { raised := false
                   state := ((List.range T1.size.prod.toNat).map fun k =>
                       ((TH_TENSOR_APPLYX_PREAMBLE T1 DIM true false).1.atPos rs1 rst1 (k : Nat),
                        (TH_TENSOR_APPLYX_PREAMBLE T2 DIM true false).1.atPos rs2 rst2 (k : Nat),
                        (TH_TENSOR_APPLYX_PREAMBLE T3 DIM true false).1.atPos rs3 rst3
                          (k : Nat))).foldl
                     (fun s p => CODE p.1 p.2.1 p.2.2 s) s
                   allocated := 3, freed := 3 } := by
  obtain ⟨⟨rs1, rst1, hW1⟩, hfin1, hal1⟩ := preamble_walk T1 DIM true false hwf1 hn1 hpos1
  obtain ⟨⟨rs2, rst2, hW2⟩, hfin2, hal2⟩ := preamble_walk T2 DIM true false hwf2 hn2 hpos2
  obtain ⟨⟨rs3, rst3, hW3⟩, hfin3, hal3⟩ := preamble_walk T3 DIM true false hwf3 hn3 hpos3
  refine ⟨rs1, rst1, rs2, rst2, rs3, rst3, hW1, hW2, hW3, fun {σ} CODE s fuel hfuel => ?_⟩
  obtain ⟨hN1, hN⟩ := walk_count hW1 hpos1
  obtain ⟨hN2, _⟩ := walk_count hW2 hpos2
  obtain ⟨hN3, _⟩ := walk_count hW3 hpos3
  rw [← heq2] at hN2
  rw [← heq3] at hN3
  have hrun := whileLoop3_run CODE hW1.ready hW2.ready hW3.ready _ hN1 hN2 hN3
    T1.size.prod.toNat 0 fuel s hN (by omega) hfuel
  rw [Nat.cast_zero, hW1.start, hW2.start, hW3.start, ← List.range_eq_range'] at hrun
  have hne2 : ¬ (TH_TENSOR_APPLYX_PREAMBLE T1 DIM true false).1.n
      ≠ (TH_TENSOR_APPLYX_PREAMBLE T2 DIM true false).1.n := by
    rw [preamble_n, preamble_n, elementCount_eq T1 hn1, elementCount_eq T2 hn2, heq2]
    simp
  have hne3 : ¬ (TH_TENSOR_APPLYX_PREAMBLE T1 DIM true false).1.n
      ≠ (TH_TENSOR_APPLYX_PREAMBLE T3 DIM true false).1.n := by
    rw [preamble_n, preamble_n, elementCount_eq T1 hn1, elementCount_eq T3 hn3, heq3]
    simp
  unfold TH_TENSOR_APPLY3_D
  simp only [hfin1, hfin2, hfin3, hrun, Option.map_some', blocks_of_allocated hal1,
    blocks_of_allocated hal2, blocks_of_allocated hal3, if_neg hne2, if_neg hne3,
    List.foldl_map]
  rfl

theorem wrap64_of_fits (x : Int) (h : fits64 x) : wrap64 x = x := by
  unfold fits64 at h
  unfold wrap64
  omega

theorem fits64_wrap64 (x : Int) : fits64 (wrap64 x) := by
  unfold fits64 wrap64
  omega

theorem wrap64_modEq (x : Int) : wrap64 x ≡ x [ZMOD 18446744073709551616] := by
  unfold wrap64
  have h := Int.mod_modEq (x + 9223372036854775808) 18446744073709551616
  have h2 := h.sub_right 9223372036854775808
  simpa using h2

theorem wrap64_congr (x y : Int) (h : x ≡ y [ZMOD 18446744073709551616]) :
    wrap64 x = wrap64 y := by
  unfold wrap64
  have h2 : (x + 9223372036854775808) % 18446744073709551616
      = (y + 9223372036854775808) % 18446744073709551616 := h.add_right 9223372036854775808
  rw [h2]

theorem wrap64_mul_wrap64_left (a b : Int) : wrap64 (wrap64 a * b) = wrap64 (a * b) :=
  wrap64_congr _ _ ((wrap64_modEq a).mul_right b)

theorem wrap64_mul_wrap64_right (a b : Int) : wrap64 (a * wrap64 b) = wrap64 (a * b) :=
  wrap64_congr _ _ ((wrap64_modEq b).mul_left a)

theorem wrap64_zero : wrap64 0 = 0 := by decide

theorem wrap64_one : wrap64 1 = 1 := by decide

theorem foldl_wrap64 (l : List Int) :
    ∀ a : Int, l.foldl (fun n s => wrap64 (n * s)) (wrap64 a)
      = wrap64 (l.foldl (fun n s => n * s) a) := by
  induction l with
  | nil => intro a; rfl
  | cons x l ih =>
    intro a
    rw [List.foldl_cons, List.foldl_cons, wrap64_mul_wrap64_left, ih]

theorem elementCount64_eq (T : THTensor) : elementCount64 T = wrap64 (elementCount T) := by
  unfold elementCount64 elementCount
  rw [← foldl_wrap64]
  split
  · rw [wrap64_zero]
  · rw [wrap64_one]

theorem elementCount64_eq_nElement (T : THTensor) : elementCount64 T = wrap64 T.nElement := by
  rw [elementCount64_eq, elementCount_eq_nElement]

theorem preamble64_n (T : THTensor) (DIM : Int) (allow fin : Bool) :
    (TH_TENSOR_APPLYX_PREAMBLE64 T DIM allow fin).1.n = elementCount64 T := by
  unfold TH_TENSOR_APPLYX_PREAMBLE64
  simp only []
  split
  · rfl
  · split <;> rfl

theorem strideFits_getD (T : THTensor) (h : T.strideFits) (i : Nat) :
    fits64 (T.stride.getD i 0 * T.size.getD i 0) := by
  by_cases hi : i < T.nDimension
  · exact h i hi
  · have : T.size.getD i 0 = 0 := by
      rw [List.getD_eq_default]
      unfold THTensor.nDimension at hi
      omega
    rw [this, mul_zero]
    decide

theorem mergesAt64_eq (T : THTensor) (DIM : Int) (h : T.strideFits) (i : Nat) :
    mergesAt64 T DIM i = mergesAt T DIM i := by
  unfold mergesAt64 mergesAt
  rw [wrap64_of_fits _ (strideFits_getD T h (i + 1))]

theorem splitsAt64_eq (T : THTensor) (DIM : Int) (h : T.strideFits) (i : Nat) :
    splitsAt64 T DIM i = splitsAt T DIM i := by
  unfold splitsAt64 splitsAt
  rw [wrap64_of_fits _ (strideFits_getD T h (i + 1))]

theorem dimLoop64_eq (T : THTensor) (DIM : Int) (h : T.strideFits) :
    ∀ (k dim : Nat), dimLoop64 T DIM k dim = dimLoop T DIM k dim := by
  intro k
  induction k with
  | zero => intro dim; rfl
  | succ k ih =>
    intro dim
    rw [dimLoop64, dimLoop, splitsAt64_eq T DIM h, ih]

theorem getD_map_wrap64 (l : List Int) (i : Nat) :
    (l.map wrap64).getD i 0 = wrap64 (l.getD i 0) := by
  rw [List.getD_eq_getElem?_getD, List.getD_eq_getElem?_getD, List.getElem?_map]
  cases l[i]? with
  | none => exact wrap64_zero.symm
  | some x => rfl

theorem set_map_wrap64 (l : List Int) (i : Nat) (x : Int) :
    (l.map wrap64).set i (wrap64 x) = (l.set i x).map wrap64 := by
  rw [List.map_set]

/-- The fill loop in `int64_t` runs in step with the exact one: same index,
strides and pointer, and each slot of `sizes` is the `int64_t` value of the
exact slot. -/
theorem fillLoop64_sim (T : THTensor) (DIM : Int) (hs : T.strideFits)
    (hfit : ∀ i, fits64 (T.size.getD i 0)) :
    ∀ (k di : Nat) (sz str : List Int) (off : DimOffset),
      fillLoop64 T DIM k ⟨di, sz.map wrap64, str, off⟩
        = ⟨(fillLoop T DIM k ⟨di, sz, str, off⟩).dimIndex,
           (fillLoop T DIM k ⟨di, sz, str, off⟩).sizes.map wrap64,
           (fillLoop T DIM k ⟨di, sz, str, off⟩).strides,
           (fillLoop T DIM k ⟨di, sz, str, off⟩).dimOffset⟩ := by
  intro k
  induction k with
  | zero => intro di sz str off; rfl
  | succ k ih =>
    intro di sz str off
    rw [fillLoop64, fillLoop, mergesAt64_eq T DIM hs]
    split
    · dsimp only
      rw [getD_map_wrap64, wrap64_mul_wrap64_right, set_map_wrap64]
      exact ih _ _ _ _
    · dsimp only
      rw [← wrap64_of_fits _ (hfit k), set_map_wrap64, wrap64_of_fits _ (hfit k)]
      exact ih _ _ _ _

theorem map_wrap64_of_fits (l : List Int) (h : ∀ x ∈ l, fits64 x) : l.map wrap64 = l := by
  induction l with
  | nil => rfl
  | cons a l ih =>
    rw [List.map_cons, wrap64_of_fits a (h a (by simp)),
      ih (fun x hx => h x (by simp [hx]))]

theorem le_prod_of_mem_pos (l : List Int) (h : ∀ s ∈ l, 1 ≤ s) : ∀ x ∈ l, x ≤ l.prod := by
  induction l with
  | nil => intro x hx; simp at hx
  | cons a l ih =>
    intro x hx
    have ha := h a (by simp)
    have hl := prod_pos_of_pos l (fun s hs => h s (by simp [hs]))
    rw [List.prod_cons]
    rcases List.mem_cons.mp hx with rfl | hx
    · nlinarith
    · have := ih (fun s hs => h s (by simp [hs])) x hx
      nlinarith

theorem fits64_getD (T : THTensor) (h : ∀ s ∈ T.size, fits64 s) (i : Nat) :
    fits64 (T.size.getD i 0) := by
  by_cases hi : i < T.size.length
  · rw [List.getD_eq_getElem _ _ hi]
    exact h _ (List.getElem_mem hi)
  · rw [List.getD_eq_default _ _ (by omega)]
    decide

theorem fits64_of_pos_prod (T : THTensor) (hpos : ∀ s ∈ T.size, 1 ≤ s)
    (hprod : T.size.prod < 9223372036854775808) : ∀ s ∈ T.size, fits64 s := by
  intro s hs
  have h1 := hpos s hs
  have h2 := le_prod_of_mem_pos T.size hpos s hs
  unfold fits64
  omega

theorem prod_take_le (l : List Int) (h : ∀ s ∈ l, 1 ≤ s) (i : Nat) :
    1 ≤ (l.take i).prod ∧ (l.take i).prod ≤ l.prod := by
  have h1 : 1 ≤ (l.take i).prod :=
    prod_pos_of_pos _ (fun s hs => h s (List.mem_of_mem_take hs))
  have h2 : 1 ≤ (l.drop i).prod :=
    prod_pos_of_pos _ (fun s hs => h s (List.mem_of_mem_drop hs))
  have h3 : (l.take i).prod * (l.drop i).prod = l.prod := by
    rw [← List.prod_append, List.take_append_drop]
  refine ⟨h1, ?_⟩
  nlinarith

theorem prod_take_succ_getD (l : List Int) (i : Nat) (hi : i < l.length) :
    (l.take (i + 1)).prod = (l.take i).prod * l.getD i 0 := by
  rw [List.take_succ, List.prod_append, List.getD_eq_getElem _ _ hi,
    List.getElem?_eq_getElem hi]
  simp

/-- The contiguity scan in `int64_t` agrees with the exact one as long as the
running size times the extents still to be scanned stays below `2^63`. -/
theorem contigLoop64_eq (T : THTensor) (DIM : Int) (hpos : ∀ s ∈ T.size, 1 ≤ s) :
    ∀ (i : Nat), i ≤ T.nDimension → ∀ (sz : Int) (c : Bool), 1 ≤ sz →
      sz * (T.size.take i).prod < 9223372036854775808 →
      contigLoop64 T DIM i (sz, c) = contigLoop T DIM i (sz, c) := by
  intro i
  induction i with
  | zero => intro _ sz c _ _; rfl
  | succ i ih =>
    intro hi sz c hsz hb
    have hi2 : i < T.size.length := hi
    have hs1 : 1 ≤ T.size.getD i 0 := by
      rw [List.getD_eq_getElem _ _ hi2]
      exact hpos _ (List.getElem_mem hi2)
    have ht := (prod_take_le T.size hpos i).1
    rw [prod_take_succ_getD T.size i hi2] at hb
    rw [contigLoop64, contigLoop]
    split
    · split
      · have hb2 : sz * T.size.getD i 0 * (T.size.take i).prod < 9223372036854775808 := by
          have : sz * T.size.getD i 0 * (T.size.take i).prod
              = sz * ((T.size.take i).prod * T.size.getD i 0) := by ring
          rw [this]; exact hb
        have h1 : 1 ≤ sz * T.size.getD i 0 := by nlinarith
        have hf : fits64 (sz * T.size.getD i 0) := by
          unfold fits64
          constructor
          · omega
          · nlinarith
        rw [wrap64_of_fits _ hf]
        exact ih (by omega) _ c h1 hb2
      · rfl
    · rename_i h1
      have h1 : T.size.getD i 0 = 1 := by
        by_contra hne
        exact h1 hne
      rw [h1, mul_one] at hb
      exact ih (by omega) sz c hsz hb

theorem fits64_runSize (T : THTensor) (DIM : Int) (hpos : ∀ s ∈ T.size, 1 ≤ s)
    (hprod : T.size.prod < 9223372036854775808) :
    ∀ x ∈ (refRuns T DIM).map (runSize T), fits64 x := by
  intro x hx
  have h1 : ∀ s ∈ (refRuns T DIM).map (runSize T), 1 ≤ s := by
    intro s hs
    obtain ⟨g, hg, rfl⟩ := List.mem_map.mp hs
    exact runSize_pos T DIM (getD_pos_of_mem T hpos) g hg
  have h2 := le_prod_of_mem_pos _ h1 x hx
  rw [prod_refRuns] at h2
  have h3 := h1 x hx
  unfold fits64
  omega

/-- The fill loop in `int64_t`, started as in the preamble, ends with the
`int64_t` values of the sizes of the reference runs. -/
theorem fillLoop64_preamble (T : THTensor) (DIM : Int)
    (hs : T.strideFits) (hfit : ∀ s ∈ T.size, fits64 s) (dim : Nat) (off : DimOffset) :
    fillLoop64 T DIM (T.nDimension - 1)
        { dimIndex := dim - 1
          sizes := (List.replicate dim 0).set (dim - 1) (T.size.getD (T.nDimension - 1) 0)
          strides := (List.replicate dim 0).set (dim - 1) (T.stride.getD (T.nDimension - 1) 0)
          dimOffset := off }
      = ⟨(fillLoop T DIM (T.nDimension - 1)
            { dimIndex := dim - 1
              sizes := (List.replicate dim 0).set (dim - 1) (T.size.getD (T.nDimension - 1) 0)
              strides :=
                (List.replicate dim 0).set (dim - 1) (T.stride.getD (T.nDimension - 1) 0)
              dimOffset := off }).dimIndex,
          (fillLoop T DIM (T.nDimension - 1)
            { dimIndex := dim - 1
              sizes := (List.replicate dim 0).set (dim - 1) (T.size.getD (T.nDimension - 1) 0)
              strides :=
                (List.replicate dim 0).set (dim - 1) (T.stride.getD (T.nDimension - 1) 0)
              dimOffset := off }).sizes.map wrap64,
          (fillLoop T DIM (T.nDimension - 1)
            { dimIndex := dim - 1
              sizes := (List.replicate dim 0).set (dim - 1) (T.size.getD (T.nDimension - 1) 0)
              strides :=
                (List.replicate dim 0).set (dim - 1) (T.stride.getD (T.nDimension - 1) 0)
              dimOffset := off }).strides,
          (fillLoop T DIM (T.nDimension - 1)
            { dimIndex := dim - 1
              sizes := (List.replicate dim 0).set (dim - 1) (T.size.getD (T.nDimension - 1) 0)
              strides :=
                (List.replicate dim 0).set (dim - 1) (T.stride.getD (T.nDimension - 1) 0)
              dimOffset := off }).dimOffset⟩ := by
  have h0 : ((List.replicate dim (0 : Int)).set (dim - 1)
      (T.size.getD (T.nDimension - 1) 0)).map wrap64
      = (List.replicate dim (0 : Int)).set (dim - 1) (T.size.getD (T.nDimension - 1) 0) := by
    apply map_wrap64_of_fits
    intro x hx
    rcases List.mem_or_eq_of_mem_set hx with h | h
    · rw [List.eq_of_mem_replicate h]; decide
    · rw [h]; exact fits64_getD T hfit _
  have h := fillLoop64_sim T DIM hs (fits64_getD T hfit) (T.nDimension - 1) (dim - 1)
    ((List.replicate dim (0 : Int)).set (dim - 1) (T.size.getD (T.nDimension - 1) 0))
    ((List.replicate dim (0 : Int)).set (dim - 1) (T.stride.getD (T.nDimension - 1) 0)) off
  rw [h0] at h
  exact h

/-- Where no product leaves the range of `int64_t`, planning in `int64_t` is
the exact planning. -/
theorem preamble64_eq (T : THTensor) (DIM : Int) (allow fin : Bool)
    (hs : T.strideFits) (hpos : ∀ s ∈ T.size, 1 ≤ s)
    (hprod : T.size.prod < 9223372036854775808) :
    TH_TENSOR_APPLYX_PREAMBLE64 T DIM allow fin = TH_TENSOR_APPLYX_PREAMBLE T DIM allow fin := by
  by_cases hn : T.nDimension = 0
  · have hsz : T.size = [] := List.length_eq_zero.mp hn
    simp [TH_TENSOR_APPLYX_PREAMBLE64, TH_TENSOR_APPLYX_PREAMBLE, hn, elementCount64,
      elementCount, hsz]
  · have hfit := fits64_of_pos_prod T hpos hprod
    have hp1 := prod_pos_of_pos T.size hpos
    have hcount : elementCount64 T = elementCount T := by
      rw [elementCount64_eq, elementCount_eq T hn]
      apply wrap64_of_fits
      unfold fits64
      omega
    have hcontig : contigLoop64 T DIM T.nDimension (1, allow && decide (DIM < 0))
        = contigLoop T DIM T.nDimension (1, allow && decide (DIM < 0)) := by
      apply contigLoop64_eq T DIM hpos T.nDimension (le_refl _) 1 _ (le_refl _)
      rw [one_mul]
      unfold THTensor.nDimension
      rw [List.take_length]
      exact hprod
    have hfill := fillLoop64_preamble T DIM hs hfit (dimLoop T DIM (T.nDimension - 1) 1)
      (if DIM = (T.nDimension : Int) - 1 then DimOffset.ofI else DimOffset.ofCounter DIM)
    obtain ⟨h1, _, _⟩ := fillLoop_preamble T DIM hn
      (if DIM = (T.nDimension : Int) - 1 then DimOffset.ofI else DimOffset.ofCounter DIM)
    rw [h1, map_wrap64_of_fits _ (fits64_runSize T DIM hpos hprod), ← h1] at hfill
    unfold TH_TENSOR_APPLYX_PREAMBLE64 TH_TENSOR_APPLYX_PREAMBLE
    simp only [hcount, hcontig, dimLoop64_eq T DIM hs, hfill]

/-- In range, the one-tensor driver over the `int64_t` planning is the exact one. -/
theorem apply1_64_eq {σ : Type} (T : THTensor) (DIM : Int) (CODE : Cursor → σ → σ) (s : σ)
    (fuel : Nat) (hs : T.strideFits) (hpos : ∀ s ∈ T.size, 1 ≤ s)
    (hprod : T.size.prod < 9223372036854775808) :
    TH_TENSOR_APPLY_D64 T DIM CODE s fuel = TH_TENSOR_APPLY_D T DIM CODE s fuel := by
  unfold TH_TENSOR_APPLY_D64 TH_TENSOR_APPLY_D
  rw [preamble64_eq T DIM false false hs hpos hprod]

theorem apply1_count {σ : Type} (T : THTensor) (DIM : Int)
    (CODE : Cursor → σ → σ) (s : σ) (hwf : T.WF)
    (hn : 1 ≤ T.nDimension) (hpos : ∀ s ∈ T.size, 1 ≤ s)
    (fuel : Nat) (hfuel : T.size.prod.toNat ≤ fuel) :
    ∃ r, TH_TENSOR_APPLY_D T DIM
          (fun c (st : σ × Nat) => (CODE c st.1, st.2 + 1)) (s, 0) fuel = some r ∧
      r.raised = false ∧ (r.state.2 : Int) = T.size.prod := by
  obtain ⟨rs, rst, _, h⟩ := apply1_fold T DIM
    (fun c (st : σ × Nat) => (CODE c st.1, st.2 + 1)) (s, 0) hwf (by omega) hpos
  refine ⟨_, h fuel hfuel, rfl, ?_⟩
  have hc := foldl_count
    (fun (k : Nat) s => CODE ((TH_TENSOR_APPLYX_PREAMBLE T DIM false false).1.atPos rs rst k) s)
    (List.range T.size.prod.toNat) s 0
  simp only [List.length_range, Nat.zero_add] at hc
  have hp := prod_pos_of_pos _ hpos
  dsimp only at hc ⊢
  rw [hc]
  omega

theorem plan_product (T : THTensor) (DIM : Int) (allow fin : Bool)
    (hn : 1 ≤ T.nDimension) :
    1 ≤ (TH_TENSOR_APPLYX_PREAMBLE T DIM allow fin).1.dim ∧
    (TH_TENSOR_APPLYX_PREAMBLE T DIM allow fin).1.sizes.length
      = (TH_TENSOR_APPLYX_PREAMBLE T DIM allow fin).1.dim ∧
    ((TH_TENSOR_APPLYX_PREAMBLE T DIM allow fin).1.sizes.take
        (TH_TENSOR_APPLYX_PREAMBLE T DIM allow fin).1.dim).prod
      = (TH_TENSOR_APPLYX_PREAMBLE T DIM allow fin).1.n ∧
    (TH_TENSOR_APPLYX_PREAMBLE T DIM allow fin).1.n = T.size.prod := by
  have hn0 : T.nDimension ≠ 0 := by omega
  cases hc : (contigLoop T DIM T.nDimension (1, allow && decide (DIM < 0))).2 with
  | false =>
    obtain ⟨hP, _⟩ := preamble_nested T DIM allow fin hn0 hc
    have hne := refRuns_ne_nil T DIM hn0
    have hlen : (TH_TENSOR_APPLYX_PREAMBLE T DIM allow fin).1.sizes.length
        = (TH_TENSOR_APPLYX_PREAMBLE T DIM allow fin).1.dim := by
      rw [hP.sizes_eq, hP.dim_eq]; simp
    refine ⟨?_, hlen, ?_, ?_⟩
    · rw [hP.dim_eq]
      exact Nat.pos_of_ne_zero (fun h => hne (List.length_eq_zero.mp h))
    · rw [← hlen, List.take_length, hP.sizes_eq, prod_refRuns, hP.n_eq, elementCount_eq T hn0]
    · rw [hP.n_eq, elementCount_eq T hn0]
  | true =>
    rw [preamble_contig T DIM allow fin hn0 hc]
    refine ⟨le_refl _, rfl, ?_, elementCount_eq T hn0⟩
    show ([elementCount T].take 1).prod = elementCount T
    simp

theorem preamble64_contig (T : THTensor) (DIM : Int) (allow fin : Bool)
    (hn : T.nDimension ≠ 0)
    (hc : (contigLoop64 T DIM T.nDimension (1, allow && decide (DIM < 0))).2 = true) :
    (TH_TENSOR_APPLYX_PREAMBLE64 T DIM allow fin).1.dim = 1 ∧
    (TH_TENSOR_APPLYX_PREAMBLE64 T DIM allow fin).1.sizes = [elementCount64 T] := by
  simp only [TH_TENSOR_APPLYX_PREAMBLE64, hn, if_false, hc, Bool.not_true, Bool.false_eq_true]
  exact ⟨trivial, trivial⟩

theorem preamble64_nested (T : THTensor) (DIM : Int) (allow fin : Bool)
    (hn : T.nDimension ≠ 0) (hs : T.strideFits) (hfit : ∀ s ∈ T.size, fits64 s)
    (hc : (contigLoop64 T DIM T.nDimension (1, allow && decide (DIM < 0))).2 = false) :
    (TH_TENSOR_APPLYX_PREAMBLE64 T DIM allow fin).1.dim = (refRuns T DIM).length ∧
    (TH_TENSOR_APPLYX_PREAMBLE64 T DIM allow fin).1.sizes
      = ((refRuns T DIM).map (runSize T)).map wrap64 := by
  obtain ⟨h1, _, h3⟩ := fillLoop_preamble T DIM hn
    (if DIM = (T.nDimension : Int) - 1 then DimOffset.ofI else DimOffset.ofCounter DIM)
  have hfill := fillLoop64_preamble T DIM hs hfit (dimLoop T DIM (T.nDimension - 1) 1)
    (if DIM = (T.nDimension : Int) - 1 then DimOffset.ofI else DimOffset.ofCounter DIM)
  simp only [TH_TENSOR_APPLYX_PREAMBLE64, hn, if_false, hc, Bool.not_false, if_true,
    dimLoop64_eq T DIM hs, hfill]
  exact ⟨h3, congrArg (List.map wrap64) h1⟩

theorem runSize_zero (T : THTensor) (DIM : Int) (z : Nat) (hz : z < T.nDimension)
    (h0 : T.size.getD z 0 = 0) : ∃ g ∈ refRuns T DIM, runSize T g = 0 := by
  have hmem : z ∈ (refRuns T DIM).flatten := by
    unfold refRuns
    rw [groupRuns_flatten]
    exact List.mem_range.mpr hz
  obtain ⟨g, hg, hzg⟩ := List.mem_flatten.mp hmem
  refine ⟨g, hg, ?_⟩
  unfold runSize
  apply List.prod_eq_zero
  exact List.mem_map.mpr ⟨z, hzg, h0⟩

/-- The plan invariant for planning in `int64_t`: extents that are `int64_t`
values and not negative, stride-extent products in range, and a product of
extents below `2^63`. -/
theorem plan_product64 (T : THTensor) (DIM : Int) (allow fin : Bool)
    (hn : 1 ≤ T.nDimension)
    (hfit : ∀ s ∈ T.size, 0 ≤ s ∧ s < 9223372036854775808) (hs : T.strideFits)
    (hprod : T.size.prod < 9223372036854775808) :
    1 ≤ (TH_TENSOR_APPLYX_PREAMBLE64 T DIM allow fin).1.dim ∧
    (TH_TENSOR_APPLYX_PREAMBLE64 T DIM allow fin).1.sizes.length
      = (TH_TENSOR_APPLYX_PREAMBLE64 T DIM allow fin).1.dim ∧
    ((TH_TENSOR_APPLYX_PREAMBLE64 T DIM allow fin).1.sizes.take
        (TH_TENSOR_APPLYX_PREAMBLE64 T DIM allow fin).1.dim).prod
      = (TH_TENSOR_APPLYX_PREAMBLE64 T DIM allow fin).1.n ∧
    (TH_TENSOR_APPLYX_PREAMBLE64 T DIM allow fin).1.n = T.size.prod := by
  have hn0 : T.nDimension ≠ 0 := by omega
  by_cases hpos : ∀ s ∈ T.size, 1 ≤ s
  · rw [preamble64_eq T DIM allow fin hs hpos hprod]
    exact plan_product T DIM allow fin hn
  · push_neg at hpos
    obtain ⟨s0, hs0, hlt⟩ := hpos
    have hs00 : s0 = 0 := by have := (hfit s0 hs0).1; omega
    subst hs00
    have hp0 : T.size.prod = 0 := List.prod_eq_zero hs0
    have hfit2 : ∀ s ∈ T.size, fits64 s := by
      intro s hs
      have := hfit s hs
      unfold fits64
      omega
    have hnz : (TH_TENSOR_APPLYX_PREAMBLE64 T DIM allow fin).1.n = 0 := by
      rw [preamble64_n, elementCount64_eq, elementCount_eq T hn0, hp0, wrap64_zero]
    rw [hnz, hp0]
    cases hc : (contigLoop64 T DIM T.nDimension (1, allow && decide (DIM < 0))).2 with
    | true =>
      obtain ⟨hd, hsz⟩ := preamble64_contig T DIM allow fin hn0 hc
      rw [preamble64_n] at hnz
      rw [hd, hsz, hnz]
      exact ⟨le_refl _, rfl, by simp, rfl⟩
    | false =>
      obtain ⟨hd, hsz⟩ := preamble64_nested T DIM allow fin hn0 hs hfit2 hc
      have hne := refRuns_ne_nil T DIM hn0
      have hlen : (TH_TENSOR_APPLYX_PREAMBLE64 T DIM allow fin).1.sizes.length
          = (TH_TENSOR_APPLYX_PREAMBLE64 T DIM allow fin).1.dim := by
        rw [hsz, hd]; simp
      refine ⟨?_, hlen, ?_, rfl⟩
      · rw [hd]
        exact Nat.pos_of_ne_zero (fun h => hne (List.length_eq_zero.mp h))
      · rw [← hlen, List.take_length, hsz]
        obtain ⟨z, hz, hz0⟩ := List.mem_iff_getElem.mp hs0
        have hzd : T.size.getD z 0 = 0 := by rw [List.getD_eq_getElem _ _ hz]; exact hz0
        obtain ⟨g, hg, hg0⟩ := runSize_zero T DIM z hz hzd
        apply List.prod_eq_zero
        refine List.mem_map.mpr ⟨runSize T g, List.mem_map.mpr ⟨g, hg, rfl⟩, ?_⟩
        rw [hg0, wrap64_zero]

theorem apply2_64_raise_iff {σ : Type} (T1 T2 : THTensor) (DIM : Int)
    (CODE : Cursor → Cursor → σ → σ) (s : σ) (fuel : Nat) :
    ((∃ r, TH_TENSOR_APPLY2_D64 T1 T2 DIM CODE s fuel = some r ∧ r.raised = true)
        ↔ wrap64 T1.nElement ≠ wrap64 T2.nElement) ∧
    (∀ r, TH_TENSOR_APPLY2_D64 T1 T2 DIM CODE s fuel = some r → r.raised = true →
        r.state = s) := by
  have key : ∀ r, TH_TENSOR_APPLY2_D64 T1 T2 DIM CODE s fuel = some r → r.raised = true →
      wrap64 T1.nElement ≠ wrap64 T2.nElement ∧ r.state = s := by
    intro r hr hraised
    unfold TH_TENSOR_APPLY2_D64 at hr
    simp only [preamble64_n, elementCount64_eq_nElement] at hr
    by_cases hne : wrap64 T1.nElement ≠ wrap64 T2.nElement
    · rw [if_pos hne] at hr
      cases hr
      exact ⟨hne, rfl⟩
    · rw [if_neg hne] at hr
      obtain ⟨s1, _, rfl⟩ := Option.map_eq_some'.mp hr
      exact absurd hraised (by simp)
  refine ⟨⟨fun ⟨r, hr, hraised⟩ => (key r hr hraised).1, fun hne => ?_⟩,
    fun r hr hraised => (key r hr hraised).2⟩
  unfold TH_TENSOR_APPLY2_D64
  simp only [preamble64_n, elementCount64_eq_nElement, if_pos hne]
  exact ⟨_, rfl, rfl⟩

theorem apply3_64_raise_iff {σ : Type} (T1 T2 T3 : THTensor) (DIM : Int)
    (CODE : Cursor → Cursor → Cursor → σ → σ) (s : σ) (fuel : Nat) :
    ((∃ r, TH_TENSOR_APPLY3_D64 T1 T2 T3 DIM CODE s fuel = some r ∧ r.raised = true)
        ↔ ¬ (wrap64 T1.nElement = wrap64 T2.nElement ∧
              wrap64 T1.nElement = wrap64 T3.nElement)) ∧
    (∀ r, TH_TENSOR_APPLY3_D64 T1 T2 T3 DIM CODE s fuel = some r → r.raised = true →
        r.state = s) := by
  have key : ∀ r, TH_TENSOR_APPLY3_D64 T1 T2 T3 DIM CODE s fuel = some r → r.raised = true →
      ¬ (wrap64 T1.nElement = wrap64 T2.nElement ∧ wrap64 T1.nElement = wrap64 T3.nElement)
        ∧ r.state = s := by
    intro r hr hraised
    unfold TH_TENSOR_APPLY3_D64 at hr
    simp only [preamble64_n, elementCount64_eq_nElement, elements_equal_eq] at hr
    by_cases hne : wrap64 T1.nElement = wrap64 T2.nElement ∧
        wrap64 T1.nElement = wrap64 T3.nElement
    · rw [decide_eq_true hne] at hr
      simp only [Bool.true_eq_false, if_false] at hr
      obtain ⟨s1, _, rfl⟩ := Option.map_eq_some'.mp hr
      exact absurd hraised (by simp)
    · rw [decide_eq_false hne] at hr
      simp only [if_true] at hr
      cases hr
      exact ⟨hne, rfl⟩
  refine ⟨⟨fun ⟨r, hr, hraised⟩ => (key r hr hraised).1, fun hne => ?_⟩,
    fun r hr hraised => (key r hr hraised).2⟩
  unfold TH_TENSOR_APPLY3_D64
  simp only [preamble64_n, elementCount64_eq_nElement, elements_equal_eq]
  rw [decide_eq_false hne]
  simp only [if_true]
  exact ⟨_, rfl, rfl⟩

/-- In range, the two-tensor driver over the `int64_t` planning is the exact one. -/
theorem apply2_64_eq {σ : Type} (T1 T2 : THTensor) (DIM : Int)
    (CODE : Cursor → Cursor → σ → σ) (s : σ) (fuel : Nat)
    (hs1 : T1.strideFits) (hpos1 : ∀ s ∈ T1.size, 1 ≤ s)
    (hprod1 : T1.size.prod < 9223372036854775808)
    (hs2 : T2.strideFits) (hpos2 : ∀ s ∈ T2.size, 1 ≤ s)
    (hprod2 : T2.size.prod < 9223372036854775808) :
    TH_TENSOR_APPLY2_D64 T1 T2 DIM CODE s fuel = TH_TENSOR_APPLY2_D T1 T2 DIM CODE s fuel := by
  unfold TH_TENSOR_APPLY2_D64 TH_TENSOR_APPLY2_D
  have h1 := fun fin => preamble64_eq T1 DIM true fin hs1 hpos1 hprod1
  have h2 := fun fin => preamble64_eq T2 DIM true fin hs2 hpos2 hprod2
  simp only [h1, h2]

/-- In range, the three-tensor driver over the `int64_t` planning is the exact one. -/
theorem apply3_64_eq {σ : Type} (T1 T2 T3 : THTensor) (DIM : Int)
    (CODE : Cursor → Cursor → Cursor → σ → σ) (s : σ) (fuel : Nat)
    (hs1 : T1.strideFits) (hpos1 : ∀ s ∈ T1.size, 1 ≤ s)
    (hprod1 : T1.size.prod < 9223372036854775808)
    (hs2 : T2.strideFits) (hpos2 : ∀ s ∈ T2.size, 1 ≤ s)
    (hprod2 : T2.size.prod < 9223372036854775808)
    (hs3 : T3.strideFits) (hpos3 : ∀ s ∈ T3.size, 1 ≤ s)
    (hprod3 : T3.size.prod < 9223372036854775808) :
    TH_TENSOR_APPLY3_D64 T1 T2 T3 DIM CODE s fuel
      = TH_TENSOR_APPLY3_D T1 T2 T3 DIM CODE s fuel := by
  unfold TH_TENSOR_APPLY3_D64 TH_TENSOR_APPLY3_D
  have h1 := fun fin => preamble64_eq T1 DIM true fin hs1 hpos1 hprod1
  have h2 := fun fin => preamble64_eq T2 DIM true fin hs2 hpos2 hprod2
  have h3 := fun fin => preamble64_eq T3 DIM true fin hs3 hpos3 hprod3
  simp only [h1, h2, h3]

/-! ## Claims -/

/-- C2, as stated, fails where the product of the extents leaves the range of
`int64_t`.  The view of shape 3 x 6148914691236517206 with strides (0, 0) is
well formed, has two dimensions and extents at least 1, and its extents
multiply to `2^64 + 2`; with no excluded dimension the two dimensions merge
into one run whose size, computed in `int64_t`, is 2, and `TH_TENSOR_APPLY_D`
terminates after two invocations of the body, for every fuel of at least 1. -/
theorem C2_counterexample :
    expandedView.WF ∧ 1 ≤ expandedView.nDimension ∧ (∀ s ∈ expandedView.size, 1 ≤ s) ∧
    expandedView.size.prod = 18446744073709551618 ∧
    (TH_TENSOR_APPLYX_PREAMBLE64 expandedView (-1) false false).1.sizes = [2] ∧
    ∀ fuel, 1 ≤ fuel →
      (TH_TENSOR_APPLY_D64 expandedView (-1) (fun _ (n : Nat) => n + 1) 0 fuel).map
        (fun r => (r.raised, r.state)) = some (false, 2) := by
  refine ⟨by decide, by decide, by decide, by decide, by decide, ?_⟩
  intro fuel h
  obtain ⟨k, rfl⟩ : ∃ k, fuel = k + 1 := ⟨fuel - 1, by omega⟩
  rfl

/-- C2, amended: for a well-formed view with at least one dimension, all
extents at least 1, a product of extents below `2^63` and stride-extent
products in the range of `int64_t`, and every `DIM`, `TH_TENSOR_APPLY_D` with
its planning in `int64_t` terminates (any fuel of at least the element count
suffices) after invoking the body exactly (product of the extents) times,
whatever the body does; a single-element view invokes it exactly once. -/
theorem C2_apply1_visits_product_in_range {σ : Type} (T : THTensor) (DIM : Int)
    (CODE : Cursor → σ → σ) (s : σ) (hwf : T.WF)
    (hn : 1 ≤ T.nDimension) (hpos : ∀ s ∈ T.size, 1 ≤ s) (hs : T.strideFits)
    (hprod : T.size.prod < 9223372036854775808)
    (fuel : Nat) (hfuel : T.size.prod.toNat ≤ fuel) :
    ∃ r, TH_TENSOR_APPLY_D64 T DIM
          (fun c (st : σ × Nat) => (CODE c st.1, st.2 + 1)) (s, 0) fuel = some r ∧
      r.raised = false ∧ (r.state.2 : Int) = T.size.prod ∧
      (T.size.prod = 1 → r.state.2 = 1) := by
  obtain ⟨r, h1, h2, h3⟩ := apply1_count T DIM CODE s hwf hn hpos fuel hfuel
  refine ⟨r, ?_, h2, h3, ?_⟩
  · rw [apply1_64_eq T DIM _ _ fuel hs hpos hprod]
    exact h1
  · intro hone
    rw [hone] at h3
    exact_mod_cast h3

/-- Witness for the amended C2: a 2x3 view with `DIM = 0` and a body that also
records the pointers. -/
theorem C2_apply1_visits_product_in_range_witness :
    ∃ r, TH_TENSOR_APPLY_D64 ⟨[2, 3], [3, 1], 0, 0⟩ 0
          (fun c (st : List Int × Nat) => (c.data :: st.1, st.2 + 1)) ([], 0) 6 = some r ∧
      r.raised = false ∧ (r.state.2 : Int) = 6 ∧
      ((6 : Int) = 1 → r.state.2 = 1) :=
  C2_apply1_visits_product_in_range ⟨[2, 3], [3, 1], 0, 0⟩ 0 (fun c tr => c.data :: tr) []
    (by decide) (by decide) (by decide) (by decide) (by decide) 6 (by decide)

/-- C4, as stated, fails where an element count leaves the range of `int64_t`.
The view of shape 3 x 6148914691236517206 has `2^64 + 2` elements and the
dense view of shape (2) has 2, so the element counts differ; computed in
`int64_t` both counts are 2, and neither `TH_TENSOR_APPLY2_D` nor
`TH_TENSOR_APPLY3_D` raises: the body runs twice, for every fuel of at least
1. -/
theorem C4_counterexample :
    expandedView.nElement = 18446744073709551618 ∧
    (THTensor.mk [2] [1] 0 0).nElement = 2 ∧
    expandedView.nElement ≠ (THTensor.mk [2] [1] 0 0).nElement ∧
    (TH_TENSOR_APPLYX_PREAMBLE64 expandedView (-1) true false).1.n = 2 ∧
    (∀ fuel, 1 ≤ fuel →
      (TH_TENSOR_APPLY2_D64 expandedView ⟨[2], [1], 0, 0⟩ (-1)
        (fun _ _ (n : Nat) => n + 1) 0 fuel).map (fun r => (r.raised, r.state))
        = some (false, 2)) ∧
    (∀ fuel, 1 ≤ fuel →
      (TH_TENSOR_APPLY3_D64 ⟨[2], [1], 0, 0⟩ ⟨[2], [1], 2, 0⟩ expandedView (-1)
        (fun _ _ _ (n : Nat) => n + 1) 0 fuel).map (fun r => (r.raised, r.state))
        = some (false, 2)) := by
  refine ⟨by decide, by decide, by decide, by decide, ?_, ?_⟩
  · intro fuel h
    obtain ⟨k, rfl⟩ : ∃ k, fuel = k + 1 := ⟨fuel - 1, by omega⟩
    rfl
  · intro fuel h
    obtain ⟨k, rfl⟩ : ∃ k, fuel = k + 1 := ⟨fuel - 1, by omega⟩
    rfl

/-- C4, amended: `TH_TENSOR_APPLY2_D` and `TH_TENSOR_APPLY3_D`, with their
planning in `int64_t`, raise the size-mismatch error exactly when the `int64_t`
values of the total element counts (the counts reduced modulo `2^64`) are not
all the same.  For tensors whose element counts lie in the range of `int64_t`
that is exactly when the element counts are not all the same (the shapes play
no other role).  A run that raises leaves the caller state untouched: the body
has not been invoked. -/
theorem C4_size_mismatch_iff_int64 {σ : Type} (T1 T2 T3 : THTensor) (DIM : Int)
    (CODE2 : Cursor → Cursor → σ → σ) (CODE3 : Cursor → Cursor → Cursor → σ → σ)
    (s : σ) (fuel : Nat) :
    ((∃ r, TH_TENSOR_APPLY2_D64 T1 T2 DIM CODE2 s fuel = some r ∧ r.raised = true)
        ↔ wrap64 T1.nElement ≠ wrap64 T2.nElement) ∧
    (∀ r, TH_TENSOR_APPLY2_D64 T1 T2 DIM CODE2 s fuel = some r → r.raised = true →
        r.state = s) ∧
    ((∃ r, TH_TENSOR_APPLY3_D64 T1 T2 T3 DIM CODE3 s fuel = some r ∧ r.raised = true)
        ↔ ¬ (wrap64 T1.nElement = wrap64 T2.nElement ∧
              wrap64 T1.nElement = wrap64 T3.nElement)) ∧
    (∀ r, TH_TENSOR_APPLY3_D64 T1 T2 T3 DIM CODE3 s fuel = some r → r.raised = true →
        r.state = s) ∧
    (fits64 T1.nElement → fits64 T2.nElement →
      ((∃ r, TH_TENSOR_APPLY2_D64 T1 T2 DIM CODE2 s fuel = some r ∧ r.raised = true)
        ↔ T1.nElement ≠ T2.nElement)) ∧
    (fits64 T1.nElement → fits64 T2.nElement → fits64 T3.nElement →
      ((∃ r, TH_TENSOR_APPLY3_D64 T1 T2 T3 DIM CODE3 s fuel = some r ∧ r.raised = true)
        ↔ ¬ (T1.nElement = T2.nElement ∧ T1.nElement = T3.nElement))) := by
  obtain ⟨h2a, h2b⟩ := apply2_64_raise_iff T1 T2 DIM CODE2 s fuel
  obtain ⟨h3a, h3b⟩ := apply3_64_raise_iff T1 T2 T3 DIM CODE3 s fuel
  refine ⟨h2a, h2b, h3a, h3b, ?_, ?_⟩
  · intro f1 f2
    rw [h2a, wrap64_of_fits _ f1, wrap64_of_fits _ f2]
  · intro f1 f2 f3
    rw [h3a, wrap64_of_fits _ f1, wrap64_of_fits _ f2, wrap64_of_fits _ f3]

/-- Witness for the amended C4: dense views of shapes (2, 3) and (2, 2) have
element counts 6 and 4 in range, so the two-tensor apply raises; with a
transposed (3, 2) view as second tensor and the (2, 2) view as third, the
three-tensor apply raises. -/
theorem C4_size_mismatch_iff_int64_witness :
    (∃ r, TH_TENSOR_APPLY2_D64 ⟨[2, 3], [3, 1], 0, 0⟩ ⟨[2, 2], [2, 1], 6, 0⟩ (-1)
        (fun _ _ (n : Nat) => n + 1) 0 6 = some r ∧ r.raised = true) ∧
    (∃ r, TH_TENSOR_APPLY3_D64 ⟨[2, 3], [3, 1], 0, 0⟩ ⟨[3, 2], [1, 3], 6, 0⟩
        ⟨[2, 2], [2, 1], 12, 0⟩ (-1) (fun _ _ _ (n : Nat) => n + 1) 0 6 = some r ∧
      r.raised = true) ∧
    ¬ (∃ r, TH_TENSOR_APPLY2_D64 ⟨[2, 3], [3, 1], 0, 0⟩ ⟨[3, 2], [1, 3], 6, 0⟩ (-1)
        (fun _ _ (n : Nat) => n + 1) 0 6 = some r ∧ r.raised = true) :=
  ⟨((C4_size_mismatch_iff_int64 ⟨[2, 3], [3, 1], 0, 0⟩ ⟨[2, 2], [2, 1], 6, 0⟩
      ⟨[2, 2], [2, 1], 12, 0⟩ (-1) (fun _ _ (n : Nat) => n + 1)
      (fun _ _ _ (n : Nat) => n + 1) 0 6).2.2.2.2.1 (by decide) (by decide)).mpr (by decide),
    ((C4_size_mismatch_iff_int64 ⟨[2, 3], [3, 1], 0, 0⟩ ⟨[3, 2], [1, 3], 6, 0⟩
      ⟨[2, 2], [2, 1], 12, 0⟩ (-1) (fun _ _ (n : Nat) => n + 1)
      (fun _ _ _ (n : Nat) => n + 1) 0 6).2.2.2.2.2 (by decide) (by decide)
      (by decide)).mpr (by decide),
    fun h => ((C4_size_mismatch_iff_int64 ⟨[2, 3], [3, 1], 0, 0⟩ ⟨[3, 2], [1, 3], 6, 0⟩
      ⟨[2, 2], [2, 1], 12, 0⟩ (-1) (fun _ _ (n : Nat) => n + 1)
      (fun _ _ _ (n : Nat) => n + 1) 0 6).2.2.2.2.1 (by decide) (by decide)).mp h
      (by decide)⟩

/-- C5, as stated, fails: for dense views of shapes (2, 3) and (3, 2) the
two-tensor apply raises no error and a counting body ends at 6, not at 0. -/
theorem C5_counterexample :
    (TH_TENSOR_APPLY2_D ⟨[2, 3], [3, 1], 0, 0⟩ ⟨[3, 2], [2, 1], 6, 0⟩ (-1)
        (fun _ _ (count : Nat) => count + 1) 0 6).map (fun r => (r.raised, r.state))
      = some (false, 6) := by
  decide

/-- C5, amended: `TH_TENSOR_APPLY2_D` over a view of shape (2, 3) and a view of
shape (3, 2), with any strides, any `DIM` and any body, raises no error (the
element counts agree) and invokes the body exactly 6 times. -/
theorem C5_apply2_same_count_different_shape {σ : Type} (A B : THTensor) (DIM : Int)
    (CODE : Cursor → Cursor → σ → σ) (s : σ)
    (hA : A.size = [2, 3]) (hB : B.size = [3, 2]) (hwfA : A.WF) (hwfB : B.WF)
    (fuel : Nat) (hfuel : 6 ≤ fuel) :
    ∃ r, TH_TENSOR_APPLY2_D A B DIM
          (fun a b (st : σ × Nat) => (CODE a b st.1, st.2 + 1)) (s, 0) fuel = some r ∧
      r.raised = false ∧ r.state.2 = 6 := by
  have hpA : A.size.prod = 6 := by rw [hA]; rfl
  have hpB : B.size.prod = 6 := by rw [hB]; rfl
  obtain ⟨rs1, rst1, rs2, rst2, _, _, h⟩ := apply2_fold A B DIM
    (fun a b (st : σ × Nat) => (CODE a b st.1, st.2 + 1)) (s, 0)
    hwfA (by simp [THTensor.nDimension, hA]) (by rw [hA]; decide)
    hwfB (by simp [THTensor.nDimension, hB]) (by rw [hB]; decide) (by rw [hpA, hpB])
  refine ⟨_, h fuel (by rw [hpA]; exact hfuel), rfl, ?_⟩
  have hc := foldl_count
    (fun (k : Nat) s => CODE
      ((TH_TENSOR_APPLYX_PREAMBLE A DIM true false).1.atPos rs1 rst1 k)
      ((TH_TENSOR_APPLYX_PREAMBLE B DIM true false).1.atPos rs2 rst2 k) s)
    (List.range A.size.prod.toNat) s 0
  dsimp only at hc ⊢
  rw [hc, hpA]
  rfl

/-- Witness for the amended C5: transposed strides on the first view and
`DIM = 0`. -/
theorem C5_apply2_same_count_different_shape_witness :
    ∃ r, TH_TENSOR_APPLY2_D ⟨[2, 3], [1, 2], 0, 0⟩ ⟨[3, 2], [2, 1], 6, 0⟩ 0
          (fun a b (st : List (Int × Int) × Nat) => ((a.data, b.data) :: st.1, st.2 + 1))
          ([], 0) 6 = some r ∧
      r.raised = false ∧ r.state.2 = 6 :=
  C5_apply2_same_count_different_shape ⟨[2, 3], [1, 2], 0, 0⟩ ⟨[3, 2], [2, 1], 6, 0⟩ 0
    (fun a b tr => (a.data, b.data) :: tr) [] rfl rfl (by decide) (by decide) 6 (by decide)

/-- C10, as stated, fails where the product of the extents leaves the range of
`int64_t`.  For the dense view of shape 3037000500 x 3037000500, on either
setting of `ALLOW_CONTIGUOUS`, the plan has `n = -9223372036709301616` and
`sizes = [n]`, while the extents multiply to 9223372037000250000.  With
strides (0, 1) the two dimensions do not merge, `sizes` holds the two extents,
and their product is not `n`. -/
theorem C10_counterexample :
    1 ≤ hugeSquareView.nDimension ∧
    hugeSquareView.size.prod = 9223372037000250000 ∧
    (∀ allow : Bool,
      (TH_TENSOR_APPLYX_PREAMBLE64 hugeSquareView (-1) allow false).1.n
        = -9223372036709301616 ∧
      (TH_TENSOR_APPLYX_PREAMBLE64 hugeSquareView (-1) allow false).1.sizes
        = [-9223372036709301616] ∧
      (TH_TENSOR_APPLYX_PREAMBLE64 hugeSquareView (-1) allow false).1.n
        ≠ hugeSquareView.size.prod) ∧
    (TH_TENSOR_APPLYX_PREAMBLE64 ⟨[3037000500, 3037000500], [0, 1], 0, 0⟩ (-1) false
        false).1.sizes = [3037000500, 3037000500] ∧
    ((TH_TENSOR_APPLYX_PREAMBLE64 ⟨[3037000500, 3037000500], [0, 1], 0, 0⟩ (-1) false
        false).1.sizes.take
      (TH_TENSOR_APPLYX_PREAMBLE64 ⟨[3037000500, 3037000500], [0, 1], 0, 0⟩ (-1) false
        false).1.dim).prod
      ≠ (TH_TENSOR_APPLYX_PREAMBLE64 ⟨[3037000500, 3037000500], [0, 1], 0, 0⟩ (-1) false
        false).1.n := by
  decide

/-- C10, amended: for a view with at least one dimension whose extents are
`int64_t` values and not negative, whose stride-extent products are in the
range of `int64_t` and whose extents multiply to less than `2^63`, every plan
produced by planning in `int64_t`, on the contiguous and on the nested path
and for every `DIM`, has `dim` at least 1, arrays of `dim` entries, and the
product of `sizes[0..dim)` equal to `n`, the product of the extents of the
view. -/
theorem C10_plan_product_invariant_in_range (T : THTensor) (DIM : Int) (allow fin : Bool)
    (hn : 1 ≤ T.nDimension)
    (hfit : ∀ s ∈ T.size, 0 ≤ s ∧ s < 9223372036854775808) (hs : T.strideFits)
    (hprod : T.size.prod < 9223372036854775808) :
    1 ≤ (TH_TENSOR_APPLYX_PREAMBLE64 T DIM allow fin).1.dim ∧
    (TH_TENSOR_APPLYX_PREAMBLE64 T DIM allow fin).1.sizes.length
      = (TH_TENSOR_APPLYX_PREAMBLE64 T DIM allow fin).1.dim ∧
    ((TH_TENSOR_APPLYX_PREAMBLE64 T DIM allow fin).1.sizes.take
        (TH_TENSOR_APPLYX_PREAMBLE64 T DIM allow fin).1.dim).prod
      = (TH_TENSOR_APPLYX_PREAMBLE64 T DIM allow fin).1.n ∧
    (TH_TENSOR_APPLYX_PREAMBLE64 T DIM allow fin).1.n = T.size.prod := by
  obtain ⟨h1, h2, h3, h4⟩ := plan_product64 T DIM allow fin hn hfit hs hprod
  exact ⟨h1, h2, h3, h4⟩

/-- Witness for the amended C10: the narrowed 3x3x3x3 view, planned with
`DIM = 2`, and a 2x0x3 view, whose plan has `n = 0`. -/
theorem C10_plan_product_invariant_in_range_witness :
    (TH_TENSOR_APPLYX_PREAMBLE64 narrowedView 2 true false).1.sizes = [9, 3, 3] ∧
    ((TH_TENSOR_APPLYX_PREAMBLE64 narrowedView 2 true false).1.sizes.take
        (TH_TENSOR_APPLYX_PREAMBLE64 narrowedView 2 true false).1.dim).prod
      = (TH_TENSOR_APPLYX_PREAMBLE64 narrowedView 2 true false).1.n ∧
    (TH_TENSOR_APPLYX_PREAMBLE64 narrowedView 2 true false).1.n = 81 ∧
    (TH_TENSOR_APPLYX_PREAMBLE64 ⟨[2, 0, 3], [3, 3, 1], 0, 0⟩ (-1) false false).1.n = 0 :=
  ⟨by decide,
    (C10_plan_product_invariant_in_range narrowedView 2 true false (by decide) (by decide)
      (by decide) (by decide)).2.2.1,
    by decide,
    (C10_plan_product_invariant_in_range ⟨[2, 0, 3], [3, 3, 1], 0, 0⟩ (-1) false false
      (by decide) (by decide) (by decide) (by decide)).2.2.2.trans (by decide)⟩

/-- C11: for views without dimensions (`nDim = 0`), `TH_TENSOR_APPLY_D`,
`TH_TENSOR_APPLY2_D` and `TH_TENSOR_APPLY3_D` (all participants without
dimensions) complete at once, for every fuel, every `DIM` and every body,
without invoking the body (the caller state is returned as it was) and without
raising an error. -/
theorem C11_empty_view_no_body {σ : Type} (T1 T2 T3 : THTensor) (DIM : Int)
    (CODE1 : Cursor → σ → σ) (CODE2 : Cursor → Cursor → σ → σ)
    (CODE3 : Cursor → Cursor → Cursor → σ → σ) (s : σ) (fuel : Nat)
    (h1 : T1.nDimension = 0) (h2 : T2.nDimension = 0) (h3 : T3.nDimension = 0) :
    TH_TENSOR_APPLY_D T1 DIM CODE1 s fuel
      = some { raised := false, state := s, allocated := 0, freed := 0 } ∧
    TH_TENSOR_APPLY2_D T1 T2 DIM CODE2 s fuel
      = some { raised := false, state := s, allocated := 0, freed := 0 } ∧
    TH_TENSOR_APPLY3_D T1 T2 T3 DIM CODE3 s fuel
      = some { raised := false, state := s, allocated := 0, freed := 0 } :=
  ⟨apply1_empty T1 DIM CODE1 s fuel h1, apply2_empty T1 T2 DIM CODE2 s fuel h1 h2,
    apply3_empty T1 T2 T3 DIM CODE3 s fuel h1 h2 h3⟩

/-- Witness for C11: views without dimensions, counting bodies, no fuel. -/
theorem C11_empty_view_no_body_witness :
    (TH_TENSOR_APPLY_D ⟨[], [], 0, 0⟩ (-1) (fun _ (n : Nat) => n + 1) 0 0).map
        (fun r => (r.raised, r.state)) = some (false, 0) ∧
    (TH_TENSOR_APPLY2_D ⟨[], [], 0, 0⟩ ⟨[], [], 4, 2⟩ (-1) (fun _ _ (n : Nat) => n + 1) 0 0).map
        (fun r => (r.raised, r.state)) = some (false, 0) ∧
    (TH_TENSOR_APPLY3_D ⟨[], [], 0, 0⟩ ⟨[], [], 4, 2⟩ ⟨[], [], 9, 0⟩ (-1)
        (fun _ _ _ (n : Nat) => n + 1) 0 0).map
        (fun r => (r.raised, r.state)) = some (false, 0) := by
  have h := C11_empty_view_no_body ⟨[], [], 0, 0⟩ ⟨[], [], 4, 2⟩ ⟨[], [], 9, 0⟩ (-1)
    (fun _ (n : Nat) => n + 1) (fun _ _ (n : Nat) => n + 1) (fun _ _ _ (n : Nat) => n + 1)
    0 0 rfl rfl rfl
  rw [h.1, h.2.1, h.2.2]
  exact ⟨rfl, rfl, rfl⟩

/-- C12, as stated, fails when the zero extent lies in an outer run of the
plan.  The view of shape (0, 3) with strides (1, 1) plans two runs of sizes 0
and 3: the inner `for` of the first pass invokes the body three times, and the
carry routine then increments `counter[0]` to 1, 2, ... which never equals
`sizes[0] = 0`, so `TH_TENSOR_APPLY_D` returns for no amount of fuel. -/
theorem C12_counterexample :
    (THTensor.mk [0, 3] [1, 1] 0 0).nDimension = 2 ∧
    (THTensor.mk [0, 3] [1, 1] 0 0).size.getD 0 0 = 0 ∧
    (innerLoop1 (fun _ (n : Nat) => n + 1)
      ((TH_TENSOR_APPLYX_PREAMBLE ⟨[0, 3], [1, 1], 0, 0⟩ (-1) false false).1.size
        - (TH_TENSOR_APPLYX_PREAMBLE ⟨[0, 3], [1, 1], 0, 0⟩ (-1) false false).1.i).toNat
      (TH_TENSOR_APPLYX_PREAMBLE ⟨[0, 3], [1, 1], 0, 0⟩ (-1) false false).1 0).2 = 3 ∧
    ¬ ∃ fuel r, TH_TENSOR_APPLY_D ⟨[0, 3], [1, 1], 0, 0⟩ (-1)
        (fun _ (n : Nat) => n + 1) 0 fuel = some r := by
  refine ⟨by decide, by decide, by decide, ?_⟩
  rintro ⟨fuel, r, h⟩
  unfold TH_TENSOR_APPLY_D at h
  rw [preamble_zero_outer] at h
  simp only at h
  rw [whileLoop1_zero_outer_diverges _ _ _ fuel 0 0 0 (le_refl _)] at h
  simp at h

/-- C12, amended: a zero extent in the innermost run yields an empty traversal.
Let the reference merge of the view split as `outer ++ [g]`, `g` being the
innermost run.  If some dimension of `g` has extent 0 and every dimension of
the outer runs has extent at least 1 (any strides, any `DIM`; in particular
every one-dimensional view of extent 0), then `TH_TENSOR_APPLY_D` terminates
without error and without invoking the body, for any fuel of at least the
product of the outer run sizes.  (A zero extent in an outer run over a
non-empty innermost run does not give an empty traversal.) -/
theorem C12_zero_extent_in_innermost_run {σ : Type} (T : THTensor) (DIM : Int)
    (CODE : Cursor → σ → σ) (s : σ) (outer : List (List Nat)) (g : List Nat)
    (hruns : refRuns T DIM = outer ++ [g])
    (hz : ∃ j ∈ g, T.size.getD j 0 = 0)
    (hpos : ∀ h ∈ outer, ∀ j ∈ h, 1 ≤ T.size.getD j 0)
    (fuel : Nat) (hfuel : (outer.map (runSize T)).prod.toNat ≤ fuel) :
    1 ≤ T.nDimension ∧
    ∃ r, TH_TENSOR_APPLY_D T DIM CODE s fuel = some r ∧ r.raised = false ∧ r.state = s := by
  have hz0 : runSize T g = 0 := by
    obtain ⟨j, hj, h0⟩ := hz
    unfold runSize
    exact List.prod_eq_zero (List.mem_map.mpr ⟨j, hj, h0⟩)
  have hposr : ∀ h ∈ outer, 1 ≤ runSize T h := by
    intro h hh
    unfold runSize
    apply prod_pos_of_pos
    intro x hx
    obtain ⟨j, hj, rfl⟩ := List.mem_map.mp hx
    exact hpos h hh j hj
  have hn : 1 ≤ T.nDimension := by
    by_contra h0
    have h00 : T.nDimension = 0 := by omega
    have : refRuns T DIM = [] := by
      unfold refRuns
      rw [h00]
      rfl
    rw [this] at hruns
    simp at hruns
  exact ⟨hn, _, apply1_zero_inner T DIM CODE s outer g hruns hz0 hposr fuel hfuel, rfl, rfl⟩

/-- Witness for the amended C12: the view of shape (2, 0) with strides (1, 1),
whose runs are the two dimensions, with a counting body. -/
theorem C12_zero_extent_in_innermost_run_witness :
    refRuns ⟨[2, 0], [1, 1], 0, 0⟩ (-1) = [[0]] ++ [[1]] ∧
    ∃ r, TH_TENSOR_APPLY_D ⟨[2, 0], [1, 1], 0, 0⟩ (-1) (fun _ (n : Nat) => n + 1) 0 2
        = some r ∧ r.raised = false ∧ r.state = 0 :=
  ⟨by decide,
    (C12_zero_extent_in_innermost_run ⟨[2, 0], [1, 1], 0, 0⟩ (-1) (fun _ (n : Nat) => n + 1) 0
      [[0]] [1] (by decide) ⟨1, by decide, by decide⟩ (by decide) 2 (by decide)).2⟩

/-- C14: the threads of the non-contiguous parallel path walk consecutive
segments of the sequential order.  Let `A`, `B`, `C` be well-formed views with
at least one dimension, extents at least 1 and the same element count `SIZE`,
and let the team have `T >= 1` threads.  For every thread `t < T` and every
body that reads the data pointers, the thread of `TH_TENSOR_APPLY2_OMP`
(respectively `TH_TENSOR_APPLY3_OMP`) terminates, given fuel of at least
`line_seg_len`, and its effect is that of running the body, in order, over the
linear indices `offset_t, offset_t + 1, ...` (`line_seg_len` of them), the
invocation for index `j` seeing for each tensor the pointer to its `j`-th
row-major element.  Concatenating the pointer traces of the threads in thread
order gives the trace of the sequential `TH_TENSOR_APPLY2_D` (respectively
`TH_TENSOR_APPLY3_D`). -/
theorem C14_omp_threads_walk_segments (SIZE T : Nat) (A B C : THTensor) (hT : 1 ≤ T)
    (hwfA : A.WF) (hnA : 1 ≤ A.nDimension) (hposA : ∀ s ∈ A.size, 1 ≤ s)
    (hA : A.nElement = (SIZE : Int))
    (hwfB : B.WF) (hnB : 1 ≤ B.nDimension) (hposB : ∀ s ∈ B.size, 1 ≤ s)
    (hB : B.nElement = (SIZE : Int))
    (hwfC : C.WF) (hnC : 1 ≤ C.nDimension) (hposC : ∀ s ∈ C.size, 1 ≤ s)
    (hC : C.nElement = (SIZE : Int)) :
    (∀ t, t < T →
      0 ≤ line_seg_len SIZE T t ∧
      (List.range' (line_index_offset SIZE T t) (line_seg_len SIZE T t).toNat).length
        = (line_seg_len SIZE T t).toNat ∧
      (∀ (σ : Type) (f : Int → Int → σ → σ) (s : σ) (fuel : Nat),
        (line_seg_len SIZE T t).toNat ≤ fuel →
        TH_TENSOR_APPLY2_OMP_thread SIZE T t A B (fun a b => f a.data b.data) s fuel
          = some ((List.range' (line_index_offset SIZE T t)
                (line_seg_len SIZE T t).toNat).foldl
              (fun s j => f (A.elementPointers.getD j 0) (B.elementPointers.getD j 0) s) s)) ∧
      (∀ (σ : Type) (f : Int → Int → Int → σ → σ) (s : σ) (fuel : Nat),
        (line_seg_len SIZE T t).toNat ≤ fuel →
        TH_TENSOR_APPLY3_OMP_thread SIZE T t A B C
            (fun a b c => f a.data b.data c.data) s fuel
          = some ((List.range' (line_index_offset SIZE T t)
                (line_seg_len SIZE T t).toNat).foldl
              (fun s j => f (A.elementPointers.getD j 0) (B.elementPointers.getD j 0)
                (C.elementPointers.getD j 0) s) s))) ∧
    (∀ fuel, SIZE ≤ fuel →
      ∃ r, TH_TENSOR_APPLY2_D A B (-1) (fun a b tr => tr ++ [(a.data, b.data)]) [] fuel
          = some r ∧ r.raised = false ∧
        (List.range T).flatMap (fun t =>
          (TH_TENSOR_APPLY2_OMP_thread SIZE T t A B
            (fun a b tr => tr ++ [(a.data, b.data)]) [] fuel).getD []) = r.state) ∧
    (∀ fuel, SIZE ≤ fuel →
      ∃ r, TH_TENSOR_APPLY3_D A B C (-1)
            (fun a b c tr => tr ++ [(a.data, b.data, c.data)]) [] fuel
          = some r ∧ r.raised = false ∧
        (List.range T).flatMap (fun t =>
          (TH_TENSOR_APPLY3_OMP_thread SIZE T t A B C
            (fun a b c tr => tr ++ [(a.data, b.data, c.data)]) [] fuel).getD []) = r.state) := by
  have hA0 : A.nDimension ≠ 0 := by omega
  have hB0 : B.nDimension ≠ 0 := by omega
  have hC0 : C.nDimension ≠ 0 := by omega
  have hA' : A.size.prod = (SIZE : Int) := by rw [← nElement_of_nonempty A hA0]; exact hA
  have hB' : B.size.prod = (SIZE : Int) := by rw [← nElement_of_nonempty B hB0]; exact hB
  have hC' : C.size.prod = (SIZE : Int) := by rw [← nElement_of_nonempty C hC0]; exact hC
  refine ⟨?_, ?_, ?_⟩
  · intro t ht
    obtain ⟨hb1, hb2⟩ := line_index_bounds SIZE T t ht
    refine ⟨by unfold line_seg_len; omega, List.length_range' _ _ _, ?_, ?_⟩
    · intro σ f s fuel hfuel
      exact apply2_omp_thread SIZE T t A B f s fuel ht hwfA hA0 hposA hA' hwfB hB0 hposB hB'
        hfuel
    · intro σ f s fuel hfuel
      exact apply3_omp_thread SIZE T t A B C f s fuel ht hwfA hA0 hposA hA' hwfB hB0 hposB hB'
        hwfC hC0 hposC hC' hfuel
  · intro fuel hfuel
    obtain ⟨r, h1, h2, h3⟩ := apply2_elements A B (-1) (fun p q tr => tr ++ [(p, q)]) []
      hwfA hposA hwfB hposB (hA.trans hB.symm) fuel (by rw [hA]; simpa using hfuel)
    refine ⟨r, h1, h2, ?_⟩
    rw [apply2_omp_concat SIZE T A B hT hwfA hA0 hposA hA' hwfB hB0 hposB hB' fuel hfuel, h3]
    exact ((foldl_snoc_trace _ _).trans (List.nil_append _)).symm
  · intro fuel hfuel
    obtain ⟨r, h1, h2, h3⟩ := apply3_elements A B C (-1)
      (fun p q r tr => tr ++ [(p, q, r)]) []
      hwfA hposA hwfB hposB hwfC hposC (hA.trans hB.symm) (hA.trans hC.symm) fuel
      (by rw [hA]; simpa using hfuel)
    refine ⟨r, h1, h2, ?_⟩
    rw [apply3_omp_concat SIZE T A B C hT hwfA hA0 hposA hA' hwfB hB0 hposB hB'
      hwfC hC0 hposC hC' fuel hfuel, h3]
    exact ((foldl_snoc_trace _ _).trans (List.nil_append _)).symm

/-- Witness for C14: 9 elements over 2 threads, a transposed 3x3 view at
address 0 and a dense 9-element view at address 9.  Thread 1 owns the indices
4..8: it starts in the middle of a run of the transposed view and crosses into
the next run. -/
theorem C14_omp_threads_walk_segments_witness :
    line_index_offset 9 2 1 = 4 ∧ line_seg_len 9 2 1 = 5 ∧
    TH_TENSOR_APPLY2_OMP_thread 9 2 1 ⟨[3, 3], [1, 3], 0, 0⟩ ⟨[9], [1], 9, 0⟩
        (fun a b tr => tr ++ [(a.data, b.data)]) [] 5
      = some [(4, 13), (7, 14), (2, 15), (5, 16), (8, 17)] :=
  ⟨by decide, by decide,
    ((((C14_omp_threads_walk_segments 9 2 ⟨[3, 3], [1, 3], 0, 0⟩ ⟨[9], [1], 9, 0⟩
        ⟨[9], [2], 20, 0⟩ (by decide) (by decide) (by decide) (by decide) (by decide)
        (by decide) (by decide) (by decide) (by decide) (by decide) (by decide) (by decide)
        (by decide)).1 1 (by decide)).2.2.1 (List (Int × Int))
      (fun p q tr => tr ++ [(p, q)]) [] 5 (by decide)).trans (by decide))⟩

/-- C15: the parallel work split is a partition of `[0, SIZE)`.  For every
`SIZE` and every thread count `T` of at least 1, with
`offset_t = t * (SIZE div T)` and `end_t = SIZE` for the last thread and
`offset_t + SIZE div T` otherwise: every range lies within `[0, SIZE]`, the
first starts at 0, the last ends at `SIZE`, consecutive ranges meet
(`end_t = offset_{t+1}`), every index below `SIZE` lies in the range of exactly
one thread, every range but the last has length `SIZE div T` and the last has
length `SIZE div T + SIZE mod T`. -/
theorem C15_work_split_partition (SIZE T : Nat) (hT : 1 ≤ T) :
    (∀ t, t < T →
      line_index_offset SIZE T t ≤ line_index_end SIZE T t ∧ line_index_end SIZE T t ≤ SIZE) ∧
    line_index_offset SIZE T 0 = 0 ∧
    line_index_end SIZE T (T - 1) = SIZE ∧
    (∀ t, t + 1 < T → line_index_end SIZE T t = line_index_offset SIZE T (t + 1)) ∧
    (∀ x, x < SIZE →
      ∃ t, (t < T ∧ line_index_offset SIZE T t ≤ x ∧ x < line_index_end SIZE T t) ∧
        ∀ u, (u < T ∧ line_index_offset SIZE T u ≤ x ∧ x < line_index_end SIZE T u) →
          u = t) ∧
    (∀ t, t + 1 < T → line_seg_len SIZE T t = ((SIZE / T : Nat) : Int)) ∧
    line_seg_len SIZE T (T - 1) = ((SIZE / T + SIZE % T : Nat) : Int) := by
  refine ⟨fun t ht => line_index_bounds SIZE T t ht, by simp [line_index_offset],
    line_index_end_last SIZE T, fun t ht => line_index_end_succ SIZE T t ht,
    fun x hx => line_index_owner SIZE T x hT hx, ?_, ?_⟩
  · intro t ht
    unfold line_seg_len line_index_end
    rw [if_neg (by omega)]
    push_cast
    ring
  · unfold line_seg_len
    rw [line_index_end_last]
    unfold line_index_offset
    have h1 : (T - 1) * (SIZE / T) + SIZE / T = T * (SIZE / T) := by
      have h : (T - 1 + 1) * (SIZE / T) = (T - 1) * (SIZE / T) + SIZE / T := by ring
      rw [← h, Nat.sub_add_cancel hT]
    have h2 := Nat.div_add_mod SIZE T
    omega

/-- Witness for C15: 10 elements over 4 threads give the ranges
`[0,2) [2,4) [4,6) [6,10)`. -/
theorem C15_work_split_partition_witness :
    ((List.range 4).map fun t => (line_index_offset 10 4 t, line_index_end 10 4 t))
      = [(0, 2), (2, 4), (4, 6), (6, 10)] ∧
    line_seg_len 10 4 (4 - 1) = ((10 / 4 + 10 % 4 : Nat) : Int) :=
  ⟨by decide, (C15_work_split_partition 10 4 (by decide)).2.2.2.2.2.2⟩

/-- C18, as stated, fails at the threshold itself: every `omp parallel` pragma
of the file carries the clause `if (SIZE > TH_OMP_OVERHEAD_THRESHOLD_OMP)` with
the constant 5000, a strict comparison, so a traversal of exactly 5000 elements
is run by a team of one thread whatever number of threads is available. -/
theorem C18_counterexample :
    TH_OMP_OVERHEAD_THRESHOLD_OMP = 5000 ∧ ompParallelIf 5000 = false ∧
    ompTeamSize 8 5000 = 1 ∧ ∀ available, ompTeamSize available 5000 = 1 := by
  refine ⟨rfl, by decide, by decide, fun available => ?_⟩
  simp [ompTeamSize, ompParallelIf, TH_OMP_OVERHEAD_THRESHOLD_OMP]

/-- C18, amended: the parallel region is run in parallel exactly when the
element count is strictly greater than 5000; the team then has the threads the
runtime makes available, and for every count up to and including 5000 the team
has one thread. -/
theorem C18_parallel_iff_above_threshold (n : Int) (available : Nat) :
    (ompParallelIf n = true ↔ 5000 < n) ∧
    (ompTeamSize available n = if 5000 < n then available else 1) := by
  constructor
  · simp [ompParallelIf, TH_OMP_OVERHEAD_THRESHOLD_OMP]
  · simp [ompTeamSize, ompParallelIf, TH_OMP_OVERHEAD_THRESHOLD_OMP]

/-- C22, as stated, fails: for the 3x3x3x3 view with strides (36, 12, 3, 1)
and no excluded dimension the plan has two runs, not three; its run sizes are
not (3, 3, 27) and its innermost run has 9 elements, not 27 (the view has only
81 elements).  This holds on either setting of `ALLOW_CONTIGUOUS`. -/
theorem C22_counterexample :
    narrowedView = ⟨[3, 3, 3, 3], [36, 12, 3, 1], 0, 0⟩ ∧
    (TH_TENSOR_APPLYX_PREAMBLE narrowedView (-1) false false).1.sizes ≠ [3, 3, 27] ∧
    (TH_TENSOR_APPLYX_PREAMBLE narrowedView (-1) false false).1.size ≠ 27 ∧
    (TH_TENSOR_APPLYX_PREAMBLE narrowedView (-1) false false).1.dim ≠ 3 ∧
    (TH_TENSOR_APPLYX_PREAMBLE narrowedView (-1) true false).1.sizes ≠ [3, 3, 27] ∧
    (TH_TENSOR_APPLYX_PREAMBLE narrowedView (-1) true false).1.size ≠ 27 ∧
    (TH_TENSOR_APPLYX_PREAMBLE narrowedView (-1) true false).1.dim ≠ 3 ∧
    narrowedView.nElement = 81 := by
  decide

/-- C22, amended: for the 3x3x3x3 view narrowed from a dense 3x3x4x3 tensor
(strides (36, 12, 3, 1)) with no excluded dimension, the reference merge joins
the first two dimensions and the last two dimensions, and the plan, on either
setting of `ALLOW_CONTIGUOUS`, is one outer loop of extent 9 with stride 12
over contiguous inner runs of length 9: `dim = 2`, `sizes = [9, 9]`,
`strides = [12, 1]`, inner size 9 and inner stride 1; the traversal visits the
81 elements. -/
theorem C22_narrowed_view_plan :
    refRuns narrowedView (-1) = [[0, 1], [2, 3]] ∧
    (∀ allow : Bool,
      (TH_TENSOR_APPLYX_PREAMBLE narrowedView (-1) allow false).1.contiguous = false ∧
      (TH_TENSOR_APPLYX_PREAMBLE narrowedView (-1) allow false).1.dim = 2 ∧
      (TH_TENSOR_APPLYX_PREAMBLE narrowedView (-1) allow false).1.sizes = [9, 9] ∧
      (TH_TENSOR_APPLYX_PREAMBLE narrowedView (-1) allow false).1.strides = [12, 1] ∧
      (TH_TENSOR_APPLYX_PREAMBLE narrowedView (-1) allow false).1.size = 9 ∧
      (TH_TENSOR_APPLYX_PREAMBLE narrowedView (-1) allow false).1.stride = 1) ∧
    (TH_TENSOR_APPLY_D narrowedView (-1) (fun _ (n : Nat) => n + 1) 0 81).map
      (fun r => r.state) = some 81 := by
  refine ⟨by decide, by decide, ?_⟩
  obtain ⟨r, h1, _, h3⟩ := apply1_elements narrowedView (-1) (fun _ (n : Nat) => n + 1) 0
    (by decide) (by decide) 81 (by decide)
  rw [h1, Option.map_some', h3]
  have hlen := length_elementPointers narrowedView (by decide) (by decide)
  have hcount : ∀ (l : List Int) (a : Nat), l.foldl (fun s _ => s + 1) a = a + l.length := by
    intro l
    induction l with
    | nil => intro a; rfl
    | cons x l ih => intro a; rw [List.foldl_cons, ih, List.length_cons]; omega
  rw [hcount, hlen]
  decide

/-- C25: the backward nodes capture their variables only when executable.
For all arguments of the constructors: the node takes `is_executable` from the
flags and keeps the `ConvParams`; if `is_executable`, `input_` and `weight_`
(and `grad_output_` of `ConvBackwardBackward`) are captures of the given
variables for this node, `bias_` is a capture of `bias` when `bias.defined()`
and empty otherwise, and `columns` and `ones` of `ConvBackward` are the passed
buffers; if not `is_executable`, `input_`, `weight_`, `bias_` (and
`grad_output_`) are empty and `columns` and `ones` are empty.  `ConvBackward`
holds the passed `convolution` and `context` in both cases. -/
theorem C25_conv_nodes_capture_when_executable (self : Nat) (flags : FunctionFlags)
    (params : ConvParams) (input weight bias grad_output : Variable) (columns ones : List Nat)
    (convolution context : Option Nat) :
    ((ConvBackward.ctor self flags params input weight bias columns ones convolution
        context).is_executable = flags.is_executable ∧
      (ConvBackward.ctor self flags params input weight bias columns ones convolution
        context).params = params ∧
      (ConvBackward.ctor self flags params input weight bias columns ones convolution
        context).convolution = convolution ∧
      (ConvBackward.ctor self flags params input weight bias columns ones convolution
        context).context = context) ∧
    ((ConvBackward.ctor self flags params input weight bias columns ones convolution
        context).is_executable = true →
      (ConvBackward.ctor self flags params input weight bias columns ones convolution
        context).input_ = .capture input self ∧
      (ConvBackward.ctor self flags params input weight bias columns ones convolution
        context).weight_ = .capture weight self ∧
      (ConvBackward.ctor self flags params input weight bias columns ones convolution
        context).bias_ = (if bias.defined then .capture bias self else .empty) ∧
      ((ConvBackward.ctor self flags params input weight bias columns ones convolution
        context).bias_ ≠ .empty ↔ bias.defined = true) ∧
      (ConvBackward.ctor self flags params input weight bias columns ones convolution
        context).columns = columns ∧
      (ConvBackward.ctor self flags params input weight bias columns ones convolution
        context).ones = ones) ∧
    ((ConvBackward.ctor self flags params input weight bias columns ones convolution
        context).is_executable = false →
      (ConvBackward.ctor self flags params input weight bias columns ones convolution
        context).input_ = .empty ∧
      (ConvBackward.ctor self flags params input weight bias columns ones convolution
        context).weight_ = .empty ∧
      (ConvBackward.ctor self flags params input weight bias columns ones convolution
        context).bias_ = .empty ∧
      (ConvBackward.ctor self flags params input weight bias columns ones convolution
        context).columns = [] ∧
      (ConvBackward.ctor self flags params input weight bias columns ones convolution
        context).ones = []) ∧
    ((ConvBackwardBackward.ctor self flags params input weight bias
        grad_output).is_executable = flags.is_executable ∧
      (ConvBackwardBackward.ctor self flags params input weight bias
        grad_output).params = params) ∧
    ((ConvBackwardBackward.ctor self flags params input weight bias
        grad_output).is_executable = true →
      (ConvBackwardBackward.ctor self flags params input weight bias
        grad_output).input_ = .capture input self ∧
      (ConvBackwardBackward.ctor self flags params input weight bias
        grad_output).weight_ = .capture weight self ∧
      (ConvBackwardBackward.ctor self flags params input weight bias
        grad_output).bias_ = (if bias.defined then .capture bias self else .empty) ∧
      ((ConvBackwardBackward.ctor self flags params input weight bias
        grad_output).bias_ ≠ .empty ↔ bias.defined = true) ∧
      (ConvBackwardBackward.ctor self flags params input weight bias
        grad_output).grad_output_ = .capture grad_output self) ∧
    ((ConvBackwardBackward.ctor self flags params input weight bias
        grad_output).is_executable = false →
      (ConvBackwardBackward.ctor self flags params input weight bias
        grad_output).input_ = .empty ∧
      (ConvBackwardBackward.ctor self flags params input weight bias
        grad_output).weight_ = .empty ∧
      (ConvBackwardBackward.ctor self flags params input weight bias
        grad_output).bias_ = .empty ∧
      (ConvBackwardBackward.ctor self flags params input weight bias
        grad_output).grad_output_ = .empty) := by
  cases hx : flags.is_executable <;> cases hb : bias.defined <;>
    simp [ConvBackward.ctor, ConvBackwardBackward.ctor, hx, hb]

/-- Witness for C25: an executable node built with an undefined bias captures
`input` and `weight`, leaves `bias_` empty and takes the buffers; the same
arguments with flags that are not executable leave everything empty, and the
handle and context are held in both cases. -/
theorem C25_conv_nodes_capture_when_executable_witness :
    (ConvBackward.ctor 7 ⟨true⟩ ⟨[1], [0], [1], false, [0], 1, false, false, true⟩ ⟨1, true⟩
        ⟨2, true⟩ ⟨3, false⟩ [4] [5] (some 6) none).input_ = .capture ⟨1, true⟩ 7 ∧
    (ConvBackward.ctor 7 ⟨true⟩ ⟨[1], [0], [1], false, [0], 1, false, false, true⟩ ⟨1, true⟩
        ⟨2, true⟩ ⟨3, false⟩ [4] [5] (some 6) none).bias_ = .empty ∧
    (ConvBackward.ctor 7 ⟨true⟩ ⟨[1], [0], [1], false, [0], 1, false, false, true⟩ ⟨1, true⟩
        ⟨2, true⟩ ⟨3, false⟩ [4] [5] (some 6) none).columns = [4] ∧
    (ConvBackward.ctor 7 ⟨false⟩ ⟨[1], [0], [1], false, [0], 1, false, false, true⟩ ⟨1, true⟩
        ⟨2, true⟩ ⟨3, false⟩ [4] [5] (some 6) none).input_ = .empty ∧
    (ConvBackward.ctor 7 ⟨false⟩ ⟨[1], [0], [1], false, [0], 1, false, false, true⟩ ⟨1, true⟩
        ⟨2, true⟩ ⟨3, false⟩ [4] [5] (some 6) none).convolution = some 6 ∧
    (ConvBackwardBackward.ctor 7 ⟨true⟩ ⟨[1], [0], [1], false, [0], 1, false, false, true⟩
        ⟨1, true⟩ ⟨2, true⟩ ⟨3, true⟩ ⟨8, true⟩).grad_output_ = .capture ⟨8, true⟩ 7 :=
  ⟨((C25_conv_nodes_capture_when_executable 7 ⟨true⟩
      ⟨[1], [0], [1], false, [0], 1, false, false, true⟩ ⟨1, true⟩ ⟨2, true⟩ ⟨3, false⟩
      ⟨8, true⟩ [4] [5] (some 6) none).2.1 (by decide)).1,
    ((C25_conv_nodes_capture_when_executable 7 ⟨true⟩
      ⟨[1], [0], [1], false, [0], 1, false, false, true⟩ ⟨1, true⟩ ⟨2, true⟩ ⟨3, false⟩
      ⟨8, true⟩ [4] [5] (some 6) none).2.1 (by decide)).2.2.1.trans (by decide),
    ((C25_conv_nodes_capture_when_executable 7 ⟨true⟩
      ⟨[1], [0], [1], false, [0], 1, false, false, true⟩ ⟨1, true⟩ ⟨2, true⟩ ⟨3, false⟩
      ⟨8, true⟩ [4] [5] (some 6) none).2.1 (by decide)).2.2.2.2.1,
    ((C25_conv_nodes_capture_when_executable 7 ⟨false⟩
      ⟨[1], [0], [1], false, [0], 1, false, false, true⟩ ⟨1, true⟩ ⟨2, true⟩ ⟨3, false⟩
      ⟨8, true⟩ [4] [5] (some 6) none).2.2.1 (by decide)).1,
    (C25_conv_nodes_capture_when_executable 7 ⟨false⟩
      ⟨[1], [0], [1], false, [0], 1, false, false, true⟩ ⟨1, true⟩ ⟨2, true⟩ ⟨3, false⟩
      ⟨8, true⟩ [4] [5] (some 6) none).1.2.2.1,
    ((C25_conv_nodes_capture_when_executable 7 ⟨true⟩
      ⟨[1], [0], [1], false, [0], 1, false, false, true⟩ ⟨1, true⟩ ⟨2, true⟩ ⟨3, true⟩
      ⟨8, true⟩ [4] [5] (some 6) none).2.2.2.2.1 (by decide)).2.2.2.2⟩

end TH
